import Mathlib

/-!
# Determinator / PIOS: the page-map layer (`kern/pmap.c`)

A shallow embedding of `pmap_walk`, `pmap_insert`, `pmap_lookup`,
`pmap_remove`, `pmap_invl` and the loop of `pmap_init` over an explicit
machine state, and the properties of these operations.

Conventions of the embedding.

* Physical memory is a store of 32-bit words keyed by the byte address of
  the word.  The kernel is identity mapped (`pmap_init`), so `mem_ptr` is
  the identity and a `pde_t *` / `pte_t *` is the physical address it
  points at.
* A `pageinfo *` is the index of the frame in `mem_pageinfo`.
* A pointer result that may be `NULL` is an `Option`: `none` is an explicit
  `return NULL`, `some p` a computed pointer with value `p`.  Under the
  identity map the computed pointer `some 0` is the null pointer as well,
  and the callers' tests `pte == NULL` take it so.
* `uint32_t` arithmetic is arithmetic on `Nat` reduced modulo `2 ^ 32`.
* `PMAP_LINUSER` and `PMAP_LINHIGH` (declared in `kern/pmap.h`) are
  parameters of every operation that uses them.
* A loop is a recursive function with a bound on the number of tests of its
  condition; that it ends within the bound is proved, not assumed.
-/

namespace Pmap

/-! ## Paging constants and macros (`inc/mmu.h`) -/

/-- Modelled from the spec: `inc/mmu.h` is not among the sources; the
presence flag of a directory or table entry (x86 bit 0). -/
def PTE_P : Nat := 0x001

/-- Modelled from the spec: `inc/mmu.h` is not among the sources; the
writable flag (x86 bit 1). -/
def PTE_W : Nat := 0x002

/-- Modelled from the spec: `inc/mmu.h` is not among the sources; the
user-accessible flag (x86 bit 2). -/
def PTE_U : Nat := 0x004

/-- Modelled from the spec: `inc/mmu.h` is not among the sources; the
large fixed-region (4MB page) flag (x86 bit 7). -/
def PTE_PS : Nat := 0x080

/-- Modelled from the spec: `inc/mmu.h` is not among the sources; the
global flag (x86 bit 8). -/
def PTE_G : Nat := 0x100

/-- Modelled from the spec: `inc/mmu.h` is not among the sources; bytes in
one frame. -/
def PAGESIZE : Nat := 4096

/-- Modelled from the spec: `inc/mmu.h` is not among the sources; log2 of
`PAGESIZE`. -/
def PAGESHIFT : Nat := 12

/-- Modelled from the spec: `inc/mmu.h` is not among the sources; offset of
the table index in a linear address. -/
def PTXSHIFT : Nat := 12

/-- Modelled from the spec: `inc/mmu.h` is not among the sources; offset of
the directory index in a linear address. -/
def PDXSHIFT : Nat := 22

/-- Modelled from the spec: `inc/mmu.h` is not among the sources; entries
in a page directory. -/
def NPDENTRIES : Nat := 1024

/-- Modelled from the spec: `inc/mmu.h` is not among the sources; entries
in a page table. -/
def NPTENTRIES : Nat := 1024

/-- Modelled from the spec: `inc/mmu.h` is not among the sources; the
directory index of a linear address, `((la) >> PDXSHIFT) & 0x3FF`. -/
def PDX (la : Nat) : Nat := (la >>> PDXSHIFT) &&& 0x3FF

/-- Modelled from the spec: `inc/mmu.h` is not among the sources; the table
index of a linear address, `((la) >> PTXSHIFT) & 0x3FF`. -/
def PTX (la : Nat) : Nat := (la >>> PTXSHIFT) &&& 0x3FF

/-- Modelled from the spec: `inc/mmu.h` is not among the sources; the frame
number of a physical address, `(pa) >> PTXSHIFT`. -/
def PPN (pa : Nat) : Nat := pa >>> PTXSHIFT

/-- Modelled from the spec: `inc/mmu.h` is not among the sources; the
physical base named by an entry, `(pte) & ~0xFFF` on 32 bits. -/
def PTE_ADDR (pte : Nat) : Nat := pte &&& 0xFFFFF000

/-! ## Machine state and the frame allocator (`kern/mem.h`) -/

/-- The part of the machine the page-map layer reads and writes. -/
structure State where
  /-- Physical memory: the 32-bit word stored at a byte address. -/
  mem : Nat → Nat
  /-- Field `refcount` of `mem_pageinfo[i]`, a signed counter: that it is
  never negative is a property of well-formed states, not of the type. -/
  refcount : Nat → Int
  /-- The allocator's free list, head first. -/
  mem_freelist : List Nat
  /-- Number of known physical frames. -/
  mem_npage : Nat
  /-- Result of `proc_cur()`, reduced to the `pdir` field of the process:
  `none` when no process is running. -/
  proc_cur : Option Nat
  /-- Linear addresses handed to `invlpg`, most recent first. -/
  invlpg_log : List Nat

/-- Store `v` in the word at address `a`. -/
def State.write (s : State) (a v : Nat) : State :=
  { s with mem := fun x => if x = a then v else s.mem x }

/-- Modelled from the spec: `kern/mem.h` is not among the sources;
`pointerFromPhysicalAddress`, the identity under the kernel's identity
map. -/
def mem_ptr (pa : Nat) : Nat := pa

/-- Modelled from the spec: `kern/mem.h` is not among the sources;
`physicalAddressOf` a frame, its index shifted by `PAGESHIFT` in 32-bit
arithmetic. -/
def mem_pi2phys (pi : Nat) : Nat := (pi <<< PAGESHIFT) % 2 ^ 32

/-- Modelled from the spec: `kern/mem.h` is not among the sources;
`frameFromPhysicalAddress`. -/
def mem_phys2pi (pa : Nat) : Nat := pa >>> PAGESHIFT

/-- Modelled from the spec: `kern/mem.h` is not among the sources; the
kernel pointer to the contents of a frame. -/
def mem_pi2ptr (pi : Nat) : Nat := mem_ptr (mem_pi2phys pi)

/-- Modelled from the spec: `kern/mem.c` is not among the sources;
`allocate() -> Frame | OutOfMemory` takes the head of the free list and
fails immediately when the list is empty. -/
def mem_alloc (s : State) : State × Option Nat :=
  match s.mem_freelist with
  | [] => (s, none)
  | pi :: rest => ({ s with mem_freelist := rest }, some pi)

/-- Modelled from the spec: `kern/mem.h` is not among the sources;
`incrementRef(Frame)`. -/
def mem_incref (s : State) (pi : Nat) : State :=
  { s with refcount := fun q => if q = pi then s.refcount q + 1 else s.refcount q }

/-- Modelled from the spec: `kern/mem.c` is not among the sources; hand a
frame back to the allocator.  It is queued at the head of the free list:
`pmap_check` expects the frame freed last to be the next one allocated. -/
def mem_free (s : State) (pi : Nat) : State :=
  { s with mem_freelist := pi :: s.mem_freelist }

/-- Modelled from the spec: `kern/mem.h` is not among the sources; the
decrement of `decrementRef(Frame)`, before its test for zero. -/
def mem_decref_dec (s : State) (pi : Nat) : State :=
  { s with refcount := fun q => if q = pi then s.refcount q - 1 else s.refcount q }

/-- Modelled from the spec: `kern/mem.h` is not among the sources;
`decrementRef(Frame)` (frees/re-queues at zero). -/
def mem_decref (s : State) (pi : Nat) : State :=
  let s1 := mem_decref_dec s pi
  if s1.refcount pi = 0 then mem_free s1 pi else s1

/-- The `memset(ptab, 0, PAGESIZE)` of `pmap_walk`. -/
def memset_zero (s : State) (ptab : Nat) : State :=
  { s with mem := fun x => if ptab ≤ x ∧ x < ptab + PAGESIZE then 0 else s.mem x }

/-! ## The operations of `kern/pmap.c` -/

/-- The linear address of a user virtual address, `uva + PMAP_LINUSER` in
`uint32_t` arithmetic. -/
def linaddr (PMAP_LINUSER uva : Nat) : Nat := (uva + PMAP_LINUSER) % 2 ^ 32

/-- Address of the directory entry `&pdir[PDX(la)]`. -/
def pde_ptr (PMAP_LINUSER pdir uva : Nat) : Nat :=
  pdir + 4 * PDX (linaddr PMAP_LINUSER uva)

/-- Embedding of `pmap_walk(pdir, uva, create)`: the state afterwards and
the pointer returned, `none` for `return NULL` and `some p` for the value
`p` of `&ptab[PTX(la)]`, which compares equal to `NULL` when `p = 0`. -/
def pmap_walk (PMAP_LINUSER : Nat) (s : State) (pdir uva : Nat) (create : Bool) :
    State × Option Nat :=
  let la := linaddr PMAP_LINUSER uva
  let pde := pdir + 4 * PDX la
  if s.mem pde &&& PTE_P ≠ 0 then
    (s, some (mem_ptr (PTE_ADDR (s.mem pde)) + 4 * PTX la))
  else if create = false then
    (s, none)
  else
    match mem_alloc s with
    | (s1, none) => (s1, none)
    | (s1, some pi) =>
      let s2 := mem_incref s1 pi
      let ptab := mem_pi2ptr pi
      let s3 := memset_zero s2 ptab
      let s4 := s3.write pde ((mem_pi2phys pi ||| PTE_P ||| PTE_W ||| PTE_U) % 2 ^ 32)
      (s4, some (ptab + 4 * PTX la))

/-- Embedding of `pmap_lookup(pdir, uva, pte_store)`: the frame returned
(`none` for `NULL`) and the value left in `*pte_store` (`none` when it is
not written).  The non-creating walk leaves the state as it is
(`pmap_walk_nocreate_state`), so no state is returned; the `warn` of the
bogus-entry branch only prints.  The test `pte == 0` holds for the walk's
`return NULL` and for a computed pointer of value 0. -/
def pmap_lookup (PMAP_LINUSER : Nat) (s : State) (pdir uva : Nat) :
    Option Nat × Option Nat :=
  match (pmap_walk PMAP_LINUSER s pdir uva false).2 with
  | none => (none, none)
  | some pte =>
    if pte = 0 then (none, none)
    else if s.mem pte = 0 then (none, none)
    else if s.mem pte &&& PTE_P = 0 ∨ PPN (PTE_ADDR (s.mem pte)) ≥ s.mem_npage then
      (none, some pte)
    else (some (mem_phys2pi (PTE_ADDR (s.mem pte))), some pte)

/-- Embedding of `pmap_invl(pdir, uva)`. -/
def pmap_invl (PMAP_LINUSER : Nat) (s : State) (pdir uva : Nat) : State :=
  match s.proc_cur with
  | none =>
    { s with invlpg_log := mem_ptr ((PMAP_LINUSER + uva) % 2 ^ 32) :: s.invlpg_log }
  | some p =>
    if p = pdir then
      { s with invlpg_log := mem_ptr ((PMAP_LINUSER + uva) % 2 ^ 32) :: s.invlpg_log }
    else s

/-- Embedding of `pmap_remove(pdir, uva)`. -/
def pmap_remove (PMAP_LINUSER : Nat) (s : State) (pdir uva : Nat) : State :=
  match pmap_lookup PMAP_LINUSER s pdir uva with
  | (some pi, some pte) =>
    mem_decref (pmap_invl PMAP_LINUSER (s.write pte 0) pdir uva) pi
  | _ => s

/-- The word `mem_pi2phys(pi) | perm | PTE_P` stored by `pmap_insert`. -/
def pte_word (pi perm : Nat) : Nat := (mem_pi2phys pi ||| perm ||| PTE_P) % 2 ^ 32

/-- Embedding of `pmap_insert(pdir, pi, uva, perm)`: the state afterwards
and the returned slot, `none` for `NULL`.  `perm` is the bit pattern of the
`int` argument.  The test `pte == NULL` holds for the walk's `return NULL`
and for a computed pointer of value 0; in both cases the function returns
`NULL` at once, with the state the walk left. -/
def pmap_insert (PMAP_LINUSER : Nat) (s : State) (pdir pi uva perm : Nat) :
    State × Option Nat :=
  match pmap_walk PMAP_LINUSER s pdir uva true with
  | (s1, none) => (s1, none)
  | (s1, some pte) =>
    if pte = 0 then (s1, none)
    else
      let s2 := mem_incref s1 pi
      let s3 := if s2.mem pte &&& PTE_P ≠ 0 then pmap_remove PMAP_LINUSER s2 pdir uva else s2
      (s3.write pte (pte_word pi perm), some pte)

/-! ## Specification vocabulary -/

/-- Address of the table slot `&ptab[PTX(la)]` reached through the directory
entry of `uva` as it is stored in `s`. -/
def slot_ptr (PMAP_LINUSER : Nat) (s : State) (pdir uva : Nat) : Nat :=
  mem_ptr (PTE_ADDR (s.mem (pde_ptr PMAP_LINUSER pdir uva))) +
    4 * PTX (linaddr PMAP_LINUSER uva)

/-- Well-formed allocator data: the frame table has at most `2 ^ 20`
entries (32-bit physical addresses), and every frame on the free list is
a known frame with reference count zero. -/
structure MemOK (s : State) : Prop where
  npage_le : s.mem_npage ≤ 2 ^ 20
  free_lt : ∀ t ∈ s.mem_freelist, t < s.mem_npage
  free_ref : ∀ t ∈ s.mem_freelist, s.refcount t = 0

/-- Well-formed directory: `pdir` is page aligned, its page is not a free
frame, no present entry names the directory page itself as its table, and
two different present entries name different tables. -/
structure PdirOK (s : State) (pdir : Nat) : Prop where
  aligned : pdir % 4096 = 0
  not_free : ∀ t ∈ s.mem_freelist, mem_pi2phys t ≠ pdir
  not_self : ∀ i < 1024, s.mem (pdir + 4 * i) &&& PTE_P ≠ 0 →
    PTE_ADDR (s.mem (pdir + 4 * i)) ≠ pdir
  tables_distinct : ∀ i < 1024, ∀ j < 1024, i ≠ j →
    s.mem (pdir + 4 * i) &&& PTE_P ≠ 0 → s.mem (pdir + 4 * j) &&& PTE_P ≠ 0 →
    PTE_ADDR (s.mem (pdir + 4 * i)) ≠ PTE_ADDR (s.mem (pdir + 4 * j))

/-- The state left by a creating walk that takes frame `t` for the table. -/
def walk_created (L : Nat) (s : State) (pdir uva t : Nat) (r : List Nat) : State :=
  (memset_zero (mem_incref { s with mem_freelist := r } t) (mem_pi2ptr t)).write
    (pde_ptr L pdir uva) ((mem_pi2phys t ||| PTE_P ||| PTE_W ||| PTE_U) % 2 ^ 32)

/-- The word at address `x` belongs to the directory `pdir`: it is one of
the 1024 directory entries, or one of the 1024 slots of a table named by a
present directory entry. -/
def InPdir (s : State) (pdir x : Nat) : Prop :=
  (∃ i, i < 1024 ∧ x = pdir + 4 * i) ∨
  (∃ i, i < 1024 ∧ s.mem (pdir + 4 * i) &&& PTE_P ≠ 0 ∧
    ∃ j, j < 1024 ∧ x = PTE_ADDR (s.mem (pdir + 4 * i)) + 4 * j)

instance (s : State) (pdir x : Nat) : Decidable (InPdir s pdir x) := by
  unfold InPdir
  infer_instance

/-! ## Intermediate states -/

/-- The states `pmap_remove` passes through, in program order: after
`*pte = 0`, after `pmap_invl`, after the decrement inside `mem_decref`, and
after `mem_decref` has returned.  Empty when nothing is mapped. -/
def pmap_remove_steps (PMAP_LINUSER : Nat) (s : State) (pdir uva : Nat) : List State :=
  match pmap_lookup PMAP_LINUSER s pdir uva with
  | (some pi, some pte) =>
    let s1 := s.write pte 0
    let s2 := pmap_invl PMAP_LINUSER s1 pdir uva
    [s1, s2, mem_decref_dec s2 pi, mem_decref s2 pi]
  | _ => []

/-- The states `pmap_insert` passes through, in program order: after
`pmap_walk`, after `mem_incref(pi)`, the states of the nested `pmap_remove`
(if it is called), and after the store of the new entry. -/
def pmap_insert_steps (PMAP_LINUSER : Nat) (s : State) (pdir pi uva perm : Nat) :
    List State :=
  match pmap_walk PMAP_LINUSER s pdir uva true with
  | (s1, none) => [s1]
  | (s1, some pte) =>
    if pte = 0 then [s1]
    else
      let s2 := mem_incref s1 pi
      let rs :=
        if s2.mem pte &&& PTE_P ≠ 0 then pmap_remove_steps PMAP_LINUSER s2 pdir uva else []
      let s3 := rs.getLast?.getD s2
      [s1, s2] ++ rs ++ [s3.write pte (pte_word pi perm)]

/-! ## Concrete machines -/

/-- A machine with eight frames, all memory zero, frames 5 and 6 free, no
process running.  The directory used with it is the page at `0x3000`. -/
def exEmpty : State :=
  { mem := fun _ => 0, refcount := fun _ => 0, mem_freelist := [5, 6], mem_npage := 8,
    proc_cur := none, invlpg_log := [] }

/-- A machine in which the directory at `0x3000` maps, for
`PMAP_LINUSER = 0x40000000`, user address 0 to frame 2 through the table in
frame 5; frame 6 is free. -/
def exMapped : State :=
  { mem := fun a => if a = 0x3400 then 0x5007 else if a = 0x5000 then 0x2001 else 0,
    refcount := fun q => if q = 2 then 1 else if q = 5 then 1 else 0,
    mem_freelist := [6], mem_npage := 8, proc_cur := none, invlpg_log := [] }

/-- The machine `exEmpty` in which every word of the free frames 5 and 6
holds `0x2007`, which read as a table entry is a present mapping of
frame 2. -/
def exDirty : State :=
  { exEmpty with mem := fun a => if 0x5000 ≤ a ∧ a < 0x7000 then 0x2007 else 0 }

/-- The machine `exMapped` with no free frame left. -/
def exFull : State := { exMapped with mem_freelist := [] }

/-- The machine `exEmpty` with no free frame left. -/
def exNoMem : State := { exEmpty with mem_freelist := [] }

/-- A machine in which the directory at `0x3000` maps, for
`PMAP_LINUSER = 0x40000000`, user addresses 0 and `0x1000` to frame 2, which
carries two references. -/
def exShared : State :=
  { mem := fun a => if a = 0x3400 then 0x5007 else if a = 0x5000 then 0x2001
      else if a = 0x5004 then 0x2001 else 0,
    refcount := fun q => if q = 2 then 2 else if q = 5 then 1 else 0,
    mem_freelist := [6], mem_npage := 8, proc_cur := none, invlpg_log := [] }

/-- The machine `exEmpty` after frame 2 has been inserted at user address 0
of the directory at `0x3000` (`PMAP_LINUSER = 0x40000000`, permissions
`PTE_W | PTE_U`): frame 5 has become the table. -/
def exOne : State := (pmap_insert 0x40000000 exEmpty 0x3000 2 0 6).1

/-- A machine with eight frames, frames 5 and 6 free, and two directories,
at `0x3000` and `0x4000`, which share the kernel entries 0 and 1 as
`pmap_init` writes them (the large pages at physical 0 and `0x400000`) and
have no user mapping yet. -/
def exBoot : State :=
  { exEmpty with
    mem := fun a => if a = 0x3000 ∨ a = 0x4000 then 0x183
      else if a = 0x3004 ∨ a = 0x4004 then 0x400183 else 0 }

/-- The machine `exBoot` after frame 2 has been inserted at user address 0
of the directory at `0x3000` and at user address `0x1000` of the directory
at `0x4000` (`PMAP_LINUSER = 0x40000000`): frame 5 has become the table of
the first directory and frame 6 the table of the second. -/
def exBoth : State :=
  (pmap_insert 0x40000000 (pmap_insert 0x40000000 exBoot 0x3000 2 0 6).1 0x4000 2 0x1000 6).1

/-! ## Calls of the allocator -/

/-- The function `pmap_walk` together with the number of times it calls
`mem_alloc`: the branches are those of `pmap_walk`, and the only call is
the one in `!create || (pi = mem_alloc()) == NULL`, which is evaluated only
when the directory entry is absent and `create` is not 0. -/
def pmap_walk_counted (PMAP_LINUSER : Nat) (s : State) (pdir uva : Nat) (create : Bool) :
    (State × Option Nat) × Nat :=
  let la := linaddr PMAP_LINUSER uva
  let pde := pdir + 4 * PDX la
  if s.mem pde &&& PTE_P ≠ 0 then
    ((s, some (mem_ptr (PTE_ADDR (s.mem pde)) + 4 * PTX la)), 0)
  else if create = false then
    ((s, none), 0)
  else
    match mem_alloc s with
    | (s1, none) => ((s1, none), 1)
    | (s1, some pi) =>
      let s2 := mem_incref s1 pi
      let ptab := mem_pi2ptr pi
      let s3 := memset_zero s2 ptab
      let s4 := s3.write pde ((mem_pi2phys pi ||| PTE_P ||| PTE_W ||| PTE_U) % 2 ^ 32)
      ((s4, some (ptab + 4 * PTX la)), 1)

/-- Number of calls of `mem_alloc` made by `pmap_insert`: those of its
creating walk and, when the nested `pmap_remove` is called, those of the
non-creating walk of its `pmap_lookup`. -/
def pmap_insert_allocs (PMAP_LINUSER : Nat) (s : State) (pdir pi uva : Nat) : Nat :=
  match pmap_walk_counted PMAP_LINUSER s pdir uva true with
  | ((_, none), n) => n
  | ((s1, some pte), n) =>
    if pte = 0 then n
    else
      let s2 := mem_incref s1 pi
      n + (if s2.mem pte &&& PTE_P ≠ 0 then
        (pmap_walk_counted PMAP_LINUSER s2 pdir uva false).2 else 0)

/-- Modelled from the spec: the directory the spec of `pmap_invl` calls
currently active, "the current process's directory or, when no process is
running, the bootstrap directory" (`pmap_bootpdir`, a parameter here). -/
def spec_active_pdir (pmap_bootpdir : Nat) (s : State) : Nat :=
  match s.proc_cur with
  | some p => p
  | none => pmap_bootpdir

/-- A machine like `exMapped` in which the slot of user address 0 holds the
present entry `0xFFFFF001`, whose frame number `0xFFFFF` lies outside the
eight known frames, and the process whose directory is at `0x3000` is
running. -/
def exBogus : State :=
  { mem := fun a => if a = 0x3400 then 0x5007 else if a = 0x5000 then 0xFFFFF001 else 0,
    refcount := fun q => if q = 5 then 1 else 0,
    mem_freelist := [6], mem_npage := 8, proc_cur := some 0x3000, invlpg_log := [] }

/-- The machine `exMapped` with the process whose directory is at `0x3000`
running, after address `0x7000` has been handed to `invlpg` earlier. -/
def exActive : State := { exMapped with proc_cur := some 0x3000, invlpg_log := [0x7000] }

/-- The machine `exEmpty` after frame 3, the page of the directory at
`0x3000` itself, has been inserted at user address 0 of that directory and
removed again (`PMAP_LINUSER = 0x40000000`): the count of frame 3 has gone
back to zero and `mem_decref` has handed the frame to the allocator. -/
def exFreed : State :=
  pmap_remove 0x40000000 (pmap_insert 0x40000000 exEmpty 0x3000 3 0 6).1 0x3000 0

/-- A machine like `exMapped` in which the slot of user address 0 holds the
non-zero entry `0x2006`, whose presence bit is clear. -/
def exStale : State :=
  { mem := fun a => if a = 0x3400 then 0x5007 else if a = 0x5000 then 0x2006 else 0,
    refcount := fun q => if q = 5 then 1 else 0,
    mem_freelist := [6], mem_npage := 8, proc_cur := none, invlpg_log := [] }

/-! ## Counting references -/

/-- The number 1 if the word `e` is a present entry naming frame `q`, else 0. -/
def entry_ref (e q : Nat) : Nat :=
  if e &&& PTE_P ≠ 0 ∧ PPN (PTE_ADDR e) = q then 1 else 0

/-- Number of present entries naming frame `q` among the `NPTENTRIES` slots
of the table at physical address `tab`. -/
def table_refs (s : State) (tab q : Nat) : Nat :=
  ((List.range NPTENTRIES).map (fun j => entry_ref (s.mem (tab + 4 * j)) q)).sum

/-- What entry `i` of the directory `pdir` adds to the references of frame
`q`: nothing when `i` lies outside the index range `[lo, hi)` reached by
user addresses or the entry is absent; otherwise one if the entry names `q`
as its table, plus the present entries of that table naming `q`. -/
def pde_refs (lo hi : Nat) (s : State) (pdir i q : Nat) : Nat :=
  if lo ≤ i ∧ i < hi ∧ s.mem (pdir + 4 * i) &&& PTE_P ≠ 0 then
    entry_ref (s.mem (pdir + 4 * i)) q + table_refs s (PTE_ADDR (s.mem (pdir + 4 * i))) q
  else 0

/-- References of frame `q` held by the directory `pdir`. -/
def pdir_refs (lo hi : Nat) (s : State) (pdir q : Nat) : Nat :=
  ((List.range NPDENTRIES).map (fun i => pde_refs lo hi s pdir i q)).sum

/-- References of frame `q` held by all directories of the list `D`. -/
def total_refs (lo hi : Nat) (s : State) (D : List Nat) (q : Nat) : Nat :=
  (D.map (fun d => pdir_refs lo hi s d q)).sum

/-- The reference-count invariant: the count of every known frame is the
number of references to it, and a frame on the free list has no positive
count and no reference. -/
structure RefInv (lo hi : Nat) (s : State) (D : List Nat) : Prop where
  count : ∀ q, q < s.mem_npage → s.refcount q = total_refs lo hi s D q
  free : ∀ q ∈ s.mem_freelist, ¬ (0 < s.refcount q) ∧ total_refs lo hi s D q = 0

/-- Well-formed layout of the directories of `D`, for the index range
`[lo, hi)`: the directories are distinct page-aligned pages, the free list
holds known frames without repetition and none of them is a directory page,
and the tables named by present entries are pairwise distinct pages none of
which is a directory page. -/
structure DirsOK (lo hi : Nat) (s : State) (D : List Nat) : Prop where
  hi_le : hi ≤ 1024
  npage_le : s.mem_npage ≤ 2 ^ 20
  aligned : ∀ d ∈ D, d % 4096 = 0
  nodup : D.Nodup
  free_lt : ∀ t ∈ s.mem_freelist, t < s.mem_npage
  free_nodup : s.mem_freelist.Nodup
  free_not_dir : ∀ t ∈ s.mem_freelist, ∀ d ∈ D, mem_pi2phys t ≠ d
  table_not_dir : ∀ d ∈ D, ∀ i, lo ≤ i → i < hi → s.mem (d + 4 * i) &&& PTE_P ≠ 0 →
    ∀ d2 ∈ D, PTE_ADDR (s.mem (d + 4 * i)) ≠ d2
  tables_distinct : ∀ d ∈ D, ∀ d2 ∈ D, ∀ i i2, lo ≤ i → i < hi → lo ≤ i2 → i2 < hi →
    s.mem (d + 4 * i) &&& PTE_P ≠ 0 → s.mem (d2 + 4 * i2) &&& PTE_P ≠ 0 →
    (d ≠ d2 ∨ i ≠ i2) → PTE_ADDR (s.mem (d + 4 * i)) ≠ PTE_ADDR (s.mem (d2 + 4 * i2))

/-! ## The bootstrap directory (`pmap_init`) -/

/-- The word `pmap_init` stores in entry `i` of `pmap_bootpdir`,
`(i << PDXSHIFT) | PTE_P | PTE_W | PTE_PS | PTE_G`, as a 32-bit `pde_t`. -/
def boot_pde (i : Nat) : Nat :=
  ((i <<< PDXSHIFT) ||| PTE_P ||| PTE_W ||| PTE_PS ||| PTE_G) % 2 ^ 32

/-- The `for` loop of `pmap_init`, entered at the test `i < NPDENTRIES`
with index `i`.  The body first moves the index from `PDX(PMAP_LINUSER)`
to `PDX(PMAP_LINHIGH)`, then stores the entry at the index it has, without
a second test, and the increment follows.  `pmap_bootpdir` is the address
of the array, `PMAP_LINHIGH` (declared in `kern/pmap.h`) is a parameter
like `PMAP_LINUSER`.  The last argument collects the indices stored to, in
order.  The first argument bounds the number of tests of the loop
condition: `none` means the bound was reached before the loop ended. -/
def pmap_init_loop (PMAP_LINUSER PMAP_LINHIGH pmap_bootpdir : Nat) :
    Nat → Nat → State → List Nat → Option (State × List Nat)
  | 0, _, _, _ => none
  | fuel + 1, i, s, w =>
    if i < NPDENTRIES then
      let i1 := if i = PDX PMAP_LINUSER then PDX PMAP_LINHIGH else i
      pmap_init_loop PMAP_LINUSER PMAP_LINHIGH pmap_bootpdir fuel (i1 + 1)
        (s.write (pmap_bootpdir + 4 * i1) (boot_pde i1)) (w ++ [i1])
    else some (s, w)

/-- The memory effect of `pmap_init`: the loop runs on the boot processor
only (`cpu_onboot()`), from index 0.  The loads of `cr4`, `cr3` and `cr0`
that follow act on no field of `State`. -/
def pmap_init (PMAP_LINUSER PMAP_LINHIGH pmap_bootpdir : Nat) (cpu_onboot : Bool)
    (fuel : Nat) (s : State) : Option State :=
  if cpu_onboot then
    (pmap_init_loop PMAP_LINUSER PMAP_LINHIGH pmap_bootpdir fuel 0 s []).map Prod.fst
  else some s

/-- Modelled from the spec: the MMU is not among the sources; the physical
address it gives a linear address through a large-page (`PTE_PS`) directory
entry, bits 31..22 of the entry followed by bits 21..0 of the address. -/
def superpage_pa (pde la : Nat) : Nat := (pde &&& 0xFFC00000) ||| (la &&& 0x3FFFFF)

/-! ## The kernel part of a directory -/

/-- The word at address `x` is a kernel entry of the directory `pdir`: an
entry whose index lies outside the user range
`[PDX(PMAP_LINUSER), PDX(PMAP_LINHIGH))`, one of those `pmap_init` fills in
the bootstrap directory. -/
def kernel_pde (PMAP_LINUSER PMAP_LINHIGH pdir x : Nat) : Prop :=
  ∃ i, i < NPDENTRIES ∧ ¬ (PDX PMAP_LINUSER ≤ i ∧ i < PDX PMAP_LINHIGH) ∧ x = pdir + 4 * i

/-- Two machines that agree in everything except, possibly, the words of
memory singled out by `K`. -/
structure SameOff (K : Nat → Prop) (s s2 : State) : Prop where
  mem : ∀ x, ¬ K x → s2.mem x = s.mem x
  refcount : s2.refcount = s.refcount
  freelist : s2.mem_freelist = s.mem_freelist
  npage : s2.mem_npage = s.mem_npage
  cur : s2.proc_cur = s.proc_cur
  log : s2.invlpg_log = s.invlpg_log

/-- The machine `exMapped` with two kernel entries in the directory at
`0x3000`, as `pmap_init` writes them: entries 0 and 1, the large pages at
physical 0 and `0x400000`. -/
def exKernel : State :=
  { exMapped with
    mem := fun a => if a = 0x3000 then 0x183 else if a = 0x3004 then 0x400183
      else exMapped.mem a }

/-! ## Sequences of calls -/

/-- A call of one of the four operations, with its arguments. -/
inductive Call where
  | walk (pdir uva : Nat) (create : Bool)
  | insert (pdir pi uva perm : Nat)
  | lookup (pdir uva : Nat)
  | remove (pdir uva : Nat)

/-- The machine after a call.  `pmap_lookup` has no effect on the machine
but that of its non-creating walk. -/
def Call.exec (L : Nat) (s : State) : Call → State
  | Call.walk pdir uva create => (pmap_walk L s pdir uva create).1
  | Call.insert pdir pi uva perm => (pmap_insert L s pdir pi uva perm).1
  | Call.lookup pdir uva => (pmap_walk L s pdir uva false).1
  | Call.remove pdir uva => pmap_remove L s pdir uva

/-- The machine after a sequence of calls, first call first. -/
def run_calls (L : Nat) : State → List Call → State
  | s, [] => s
  | s, c :: cs => run_calls L (c.exec L s) cs

/-- The arguments of a call are sound in machine `s`: the directory is one
of the list `D`, the address is taken to an index of `[lo, hi)`, and for an
insertion the frame is a known frame that is not free and not the page of a
directory, with permission bits confined to the low 12 bits.  A lookup has
no condition. -/
def Call.ok (L lo hi : Nat) (D : List Nat) (s : State) : Call → Prop
  | Call.walk pdir uva _ =>
    pdir ∈ D ∧ lo ≤ PDX (linaddr L uva) ∧ PDX (linaddr L uva) < hi
  | Call.insert pdir pi uva perm =>
    pdir ∈ D ∧ lo ≤ PDX (linaddr L uva) ∧ PDX (linaddr L uva) < hi ∧
      pi < s.mem_npage ∧ pi ∉ s.mem_freelist ∧ (∀ d ∈ D, mem_pi2phys pi ≠ d) ∧ perm < 4096
  | Call.lookup _ _ => True
  | Call.remove pdir uva =>
    pdir ∈ D ∧ lo ≤ PDX (linaddr L uva) ∧ PDX (linaddr L uva) < hi

instance (L lo hi : Nat) (D : List Nat) (s : State) (c : Call) :
    Decidable (c.ok L lo hi D s) := by
  cases c <;> (unfold Call.ok; infer_instance)

/-- Every call of the sequence has sound arguments in the machine it is
made in. -/
def calls_ok (L lo hi : Nat) (D : List Nat) : State → List Call → Prop
  | _, [] => True
  | s, c :: cs => c.ok L lo hi D s ∧ calls_ok L lo hi D (c.exec L s) cs

/-- The soundness of a sequence of calls can be computed. -/
def calls_ok_dec (L lo hi : Nat) (D : List Nat) :
    (s : State) → (cs : List Call) → Decidable (calls_ok L lo hi D s cs)
  | _, [] => isTrue trivial
  | s, c :: cs =>
    match (inferInstance : Decidable (c.ok L lo hi D s)),
      calls_ok_dec L lo hi D (c.exec L s) cs with
    | isTrue h1, isTrue h2 => isTrue ⟨h1, h2⟩
    | isFalse h1, _ => isFalse (fun h => h1 h.1)
    | _, isFalse h2 => isFalse (fun h => h2 h.2)

instance (L lo hi : Nat) (D : List Nat) (s : State) (cs : List Call) :
    Decidable (calls_ok L lo hi D s cs) := calls_ok_dec L lo hi D s cs

/-- No known frame that is the page of a directory of `D` carries a
reference count. -/
def NoDirRef (s : State) (D : List Nat) : Prop :=
  ∀ q, q < s.mem_npage → ∀ d ∈ D, mem_pi2phys q = d → s.refcount q = 0

/-- Well-formed machine for the directories of `D` and the index range
`[lo, hi)`: the layout conditions, the reference-count invariant, and no
count on the page of a directory. -/
structure PmapOK (lo hi : Nat) (s : State) (D : List Nat) : Prop where
  dirs : DirsOK lo hi s D
  refs : RefInv lo hi s D
  nodir : NoDirRef s D

/-- The states `pmap_walk` passes through, in program order: after
`mem_alloc`, after `mem_incref`, after `memset`, and after the store of the
directory entry.  Empty when the walk stores nothing. -/
def pmap_walk_steps (PMAP_LINUSER : Nat) (s : State) (pdir uva : Nat) (create : Bool) :
    List State :=
  let la := linaddr PMAP_LINUSER uva
  let pde := pdir + 4 * PDX la
  if s.mem pde &&& PTE_P ≠ 0 then []
  else if create = false then []
  else
    match mem_alloc s with
    | (s1, none) => [s1]
    | (s1, some pi) =>
      let s2 := mem_incref s1 pi
      let s3 := memset_zero s2 (mem_pi2ptr pi)
      let s4 := s3.write pde ((mem_pi2phys pi ||| PTE_P ||| PTE_W ||| PTE_U) % 2 ^ 32)
      [s1, s2, s3, s4]

/-- The states a call passes through, in program order; for an insertion
the states of its creating walk come first. -/
def Call.steps (L : Nat) (s : State) : Call → List State
  | Call.walk pdir uva create => pmap_walk_steps L s pdir uva create
  | Call.insert pdir pi uva perm =>
    pmap_walk_steps L s pdir uva true ++ pmap_insert_steps L s pdir pi uva perm
  | Call.lookup _ _ => []
  | Call.remove pdir uva => pmap_remove_steps L s pdir uva

/-- Every state of a sequence of calls, in order: the state each call is
made in, followed by the states the call passes through, and the state
after the last call. -/
def run_steps (L : Nat) : State → List Call → List State
  | s, [] => [s]
  | s, c :: cs => s :: (c.steps L s ++ run_steps L (c.exec L s) cs)

/-! ## Arithmetic of the paging macros -/

theorem PDX_eq (la : Nat) : PDX la = la / 4194304 % 1024 := by
  have h := Nat.and_pow_two_sub_one_eq_mod (la >>> 22) 10
  simp only [Nat.shiftRight_eq_div_pow] at h
  simpa [PDX, PDXSHIFT, Nat.shiftRight_eq_div_pow] using h

theorem PTX_eq (la : Nat) : PTX la = la / 4096 % 1024 := by
  have h := Nat.and_pow_two_sub_one_eq_mod (la >>> 12) 10
  simp only [Nat.shiftRight_eq_div_pow] at h
  simpa [PTX, PTXSHIFT, Nat.shiftRight_eq_div_pow] using h

theorem PDX_lt (la : Nat) : PDX la < 1024 := by rw [PDX_eq]; omega

theorem PTX_lt (la : Nat) : PTX la < 1024 := by rw [PTX_eq]; omega

theorem PPN_eq (pa : Nat) : PPN pa = pa / 4096 := by
  simp [PPN, PTXSHIFT, Nat.shiftRight_eq_div_pow]

theorem mem_phys2pi_eq (pa : Nat) : mem_phys2pi pa = pa / 4096 := by
  simp [mem_phys2pi, PAGESHIFT, Nat.shiftRight_eq_div_pow]

theorem mem_pi2phys_eq (pi : Nat) : mem_pi2phys pi = pi * 4096 % 4294967296 := by
  simp [mem_pi2phys, PAGESHIFT, Nat.shiftLeft_eq]

theorem PTE_ADDR_eq (x : Nat) : PTE_ADDR x = x % 4294967296 / 4096 * 4096 := by
  have h1 : x % 4294967296 / 4096 * 4096 = ((x % 2 ^ 32) >>> 12) <<< 12 := by
    simp [Nat.shiftRight_eq_div_pow, Nat.shiftLeft_eq]
  have h2 : (0xFFFFF000 : Nat) = (2 ^ 20 - 1) <<< 12 := by decide
  rw [h1, PTE_ADDR, h2]
  apply Nat.eq_of_testBit_eq
  intro i
  simp only [Nat.testBit_and, Nat.testBit_shiftLeft, Nat.testBit_shiftRight,
    Nat.testBit_mod_two_pow, Nat.testBit_two_pow_sub_one]
  by_cases h : 12 ≤ i
  · have e : 12 + (i - 12) = i := by omega
    simp only [e, h, decide_True, Bool.true_and, ge_iff_le]
    by_cases h3 : i < 32
    · have : i - 12 < 20 := by omega
      simp [h3, this]
    · have : ¬ (i - 12 < 20) := by omega
      simp [h3, this]
  · simp [h]

theorem low12_eq (x : Nat) : x &&& 0xFFF = x % 4096 := by
  have h := Nat.and_pow_two_sub_one_eq_mod x 12
  simpa using h

theorem and_PTE_P (x : Nat) : x &&& PTE_P = x % 2 := by
  simp [PTE_P]

/-- For an in-range frame and flag-only permissions the word stored by
`pmap_insert` is the frame base plus the flags, and the flags are odd. -/
theorem pte_word_eq (pi perm : Nat) (hpi : pi < 2 ^ 20) (hperm : perm < 4096) :
    pte_word pi perm = pi * 4096 + (perm ||| PTE_P) ∧ (perm ||| PTE_P) < 4096 ∧
      (perm ||| PTE_P) % 2 = 1 := by
  have hq : (perm ||| 1) < 2 ^ 12 := Nat.or_lt_two_pow (by simpa using hperm) (by decide)
  have hodd : (perm ||| 1) % 2 = 1 := by simp
  have h1 : mem_pi2phys pi = 2 ^ 12 * pi := by
    rw [mem_pi2phys_eq]; omega
  refine ⟨?_, by simpa [PTE_P] using hq, by simp [PTE_P]⟩
  unfold pte_word
  rw [h1, PTE_P, Nat.or_assoc, ← Nat.mul_add_lt_is_or hq]
  omega

/-- The directory entry installed by a creating walk. -/
theorem pde_word_eq (pi : Nat) (hpi : pi < 2 ^ 20) :
    (mem_pi2phys pi ||| PTE_P ||| PTE_W ||| PTE_U) % 2 ^ 32 = pi * 4096 + 7 := by
  have h1 : mem_pi2phys pi = 2 ^ 12 * pi := by
    rw [mem_pi2phys_eq]; omega
  have e : (1 ||| 2 ||| 4 : Nat) = 7 := by decide
  rw [h1, PTE_P, PTE_W, PTE_U, Nat.or_assoc, Nat.or_assoc, ← Nat.or_assoc 1 2 4, e,
    ← Nat.mul_add_lt_is_or (by decide : 7 < 2 ^ 12)]
  omega

/-! ## Projections of the primitive state updates -/

@[simp] theorem write_mem (s : State) (a v x : Nat) :
    (s.write a v).mem x = if x = a then v else s.mem x := rfl
@[simp] theorem write_refcount (s : State) (a v : Nat) : (s.write a v).refcount = s.refcount := rfl
@[simp] theorem write_freelist (s : State) (a v : Nat) :
    (s.write a v).mem_freelist = s.mem_freelist := rfl
@[simp] theorem write_npage (s : State) (a v : Nat) : (s.write a v).mem_npage = s.mem_npage := rfl
@[simp] theorem write_cur (s : State) (a v : Nat) : (s.write a v).proc_cur = s.proc_cur := rfl
@[simp] theorem write_log (s : State) (a v : Nat) : (s.write a v).invlpg_log = s.invlpg_log := rfl

@[simp] theorem incref_mem (s : State) (p : Nat) : (mem_incref s p).mem = s.mem := rfl
@[simp] theorem incref_refcount (s : State) (p q : Nat) :
    (mem_incref s p).refcount q = if q = p then s.refcount q + 1 else s.refcount q := rfl
@[simp] theorem incref_freelist (s : State) (p : Nat) :
    (mem_incref s p).mem_freelist = s.mem_freelist := rfl
@[simp] theorem incref_npage (s : State) (p : Nat) : (mem_incref s p).mem_npage = s.mem_npage := rfl
@[simp] theorem incref_cur (s : State) (p : Nat) : (mem_incref s p).proc_cur = s.proc_cur := rfl
@[simp] theorem incref_log (s : State) (p : Nat) : (mem_incref s p).invlpg_log = s.invlpg_log := rfl

@[simp] theorem decref_mem (s : State) (p : Nat) : (mem_decref s p).mem = s.mem := by
  unfold mem_decref; dsimp only; split <;> rfl
@[simp] theorem decref_refcount (s : State) (p q : Nat) :
    (mem_decref s p).refcount q = if q = p then s.refcount q - 1 else s.refcount q := by
  unfold mem_decref; dsimp only; split <;> rfl
theorem decref_freelist (s : State) (p : Nat) :
    (mem_decref s p).mem_freelist =
      if s.refcount p = 1 then p :: s.mem_freelist else s.mem_freelist := by
  unfold mem_decref; dsimp only
  have e : (mem_decref_dec s p).refcount p = s.refcount p - 1 := by simp [mem_decref_dec]
  rw [e]
  by_cases h : s.refcount p = 1
  · simp [h, mem_free, mem_decref_dec]
  · have : ¬ (s.refcount p - 1 = 0) := by omega
    simp [h, this, mem_decref_dec]
@[simp] theorem decref_npage (s : State) (p : Nat) : (mem_decref s p).mem_npage = s.mem_npage := by
  unfold mem_decref; dsimp only; split <;> rfl
@[simp] theorem decref_cur (s : State) (p : Nat) : (mem_decref s p).proc_cur = s.proc_cur := by
  unfold mem_decref; dsimp only; split <;> rfl
@[simp] theorem decref_log (s : State) (p : Nat) : (mem_decref s p).invlpg_log = s.invlpg_log := by
  unfold mem_decref; dsimp only; split <;> rfl

@[simp] theorem invl_mem (L : Nat) (s : State) (d a : Nat) : (pmap_invl L s d a).mem = s.mem := by
  unfold pmap_invl; split
  · rfl
  · split <;> rfl
@[simp] theorem invl_refcount (L : Nat) (s : State) (d a : Nat) :
    (pmap_invl L s d a).refcount = s.refcount := by
  unfold pmap_invl; split
  · rfl
  · split <;> rfl
@[simp] theorem invl_freelist (L : Nat) (s : State) (d a : Nat) :
    (pmap_invl L s d a).mem_freelist = s.mem_freelist := by
  unfold pmap_invl; split
  · rfl
  · split <;> rfl
@[simp] theorem invl_npage (L : Nat) (s : State) (d a : Nat) :
    (pmap_invl L s d a).mem_npage = s.mem_npage := by
  unfold pmap_invl; split
  · rfl
  · split <;> rfl
@[simp] theorem invl_cur (L : Nat) (s : State) (d a : Nat) :
    (pmap_invl L s d a).proc_cur = s.proc_cur := by
  unfold pmap_invl; split
  · rfl
  · split <;> rfl

/-! ## Case analysis of the operations -/

theorem walk_present (L : Nat) (s : State) (pdir uva : Nat) (c : Bool)
    (h : s.mem (pde_ptr L pdir uva) &&& PTE_P ≠ 0) :
    pmap_walk L s pdir uva c = (s, some (slot_ptr L s pdir uva)) := by
  unfold pmap_walk
  dsimp only
  rw [if_pos (by simpa [pde_ptr] using h)]
  rfl

theorem walk_absent_nocreate (L : Nat) (s : State) (pdir uva : Nat)
    (h : s.mem (pde_ptr L pdir uva) &&& PTE_P = 0) :
    pmap_walk L s pdir uva false = (s, none) := by
  unfold pmap_walk
  dsimp only
  rw [if_neg (by simpa [pde_ptr] using h)]
  simp

theorem walk_absent_nil (L : Nat) (s : State) (pdir uva : Nat)
    (h : s.mem (pde_ptr L pdir uva) &&& PTE_P = 0) (hf : s.mem_freelist = []) :
    pmap_walk L s pdir uva true = (s, none) := by
  unfold pmap_walk
  dsimp only
  rw [if_neg (by simpa [pde_ptr] using h)]
  simp [mem_alloc, hf]

theorem walk_absent_cons (L : Nat) (s : State) (pdir uva t : Nat) (r : List Nat)
    (h : s.mem (pde_ptr L pdir uva) &&& PTE_P = 0) (hf : s.mem_freelist = t :: r) :
    pmap_walk L s pdir uva true =
      (walk_created L s pdir uva t r, some (mem_pi2ptr t + 4 * PTX (linaddr L uva))) := by
  unfold pmap_walk
  dsimp only
  rw [if_neg (by simpa [pde_ptr] using h)]
  simp [mem_alloc, hf, pde_ptr, walk_created]

/-- A non-creating walk returns the state it was given. -/
theorem pmap_walk_nocreate_state (L : Nat) (s : State) (pdir uva : Nat) :
    (pmap_walk L s pdir uva false).1 = s := by
  by_cases h : s.mem (pde_ptr L pdir uva) &&& PTE_P = 0
  · rw [walk_absent_nocreate L s pdir uva h]
  · rw [walk_present L s pdir uva false h]

theorem lookup_absent (L : Nat) (s : State) (pdir uva : Nat)
    (h : s.mem (pde_ptr L pdir uva) &&& PTE_P = 0) :
    pmap_lookup L s pdir uva = (none, none) := by
  unfold pmap_lookup
  rw [walk_absent_nocreate L s pdir uva h]

theorem lookup_null (L : Nat) (s : State) (pdir uva : Nat)
    (h : s.mem (pde_ptr L pdir uva) &&& PTE_P ≠ 0) (hz : slot_ptr L s pdir uva = 0) :
    pmap_lookup L s pdir uva = (none, none) := by
  unfold pmap_lookup
  rw [walk_present L s pdir uva false h]
  dsimp only
  rw [if_pos hz]

theorem lookup_present (L : Nat) (s : State) (pdir uva : Nat)
    (h : s.mem (pde_ptr L pdir uva) &&& PTE_P ≠ 0) (hz : slot_ptr L s pdir uva ≠ 0) :
    pmap_lookup L s pdir uva =
      if s.mem (slot_ptr L s pdir uva) = 0 then (none, none)
      else if s.mem (slot_ptr L s pdir uva) &&& PTE_P = 0 ∨
          PPN (PTE_ADDR (s.mem (slot_ptr L s pdir uva))) ≥ s.mem_npage then
        (none, some (slot_ptr L s pdir uva))
      else (some (mem_phys2pi (PTE_ADDR (s.mem (slot_ptr L s pdir uva)))),
        some (slot_ptr L s pdir uva)) := by
  unfold pmap_lookup
  rw [walk_present L s pdir uva false h]
  dsimp only
  rw [if_neg hz]

/-- A successful lookup went through a slot that is not the null pointer. -/
theorem lookup_some_ne (L : Nat) (s : State) (pdir uva f : Nat)
    (hf : (pmap_lookup L s pdir uva).1 = some f) : slot_ptr L s pdir uva ≠ 0 := by
  intro hz
  by_cases h : s.mem (pde_ptr L pdir uva) &&& PTE_P = 0
  · rw [lookup_absent L s pdir uva h] at hf
    cases hf
  · rw [lookup_null L s pdir uva h hz] at hf
    cases hf

/-- What a successful lookup says about the stored words. -/
theorem lookup_some (L : Nat) (s : State) (pdir uva f : Nat)
    (hf : (pmap_lookup L s pdir uva).1 = some f) :
    s.mem (pde_ptr L pdir uva) &&& PTE_P ≠ 0 ∧
    s.mem (slot_ptr L s pdir uva) &&& PTE_P ≠ 0 ∧
    PPN (PTE_ADDR (s.mem (slot_ptr L s pdir uva))) < s.mem_npage ∧
    f = mem_phys2pi (PTE_ADDR (s.mem (slot_ptr L s pdir uva))) ∧
    pmap_lookup L s pdir uva = (some f, some (slot_ptr L s pdir uva)) := by
  have hz := lookup_some_ne L s pdir uva f hf
  by_cases h : s.mem (pde_ptr L pdir uva) &&& PTE_P = 0
  · rw [lookup_absent L s pdir uva h] at hf
    cases hf
  · rw [lookup_present L s pdir uva h hz] at hf ⊢
    by_cases h0 : s.mem (slot_ptr L s pdir uva) = 0
    · rw [if_pos h0] at hf; cases hf
    · rw [if_neg h0] at hf ⊢
      by_cases h1 : s.mem (slot_ptr L s pdir uva) &&& PTE_P = 0 ∨
          PPN (PTE_ADDR (s.mem (slot_ptr L s pdir uva))) ≥ s.mem_npage
      · rw [if_pos h1] at hf; cases hf
      · rw [if_neg h1] at hf ⊢
        have hf2 : mem_phys2pi (PTE_ADDR (s.mem (slot_ptr L s pdir uva))) = f := by
          simpa using hf
        refine ⟨h, ?_, ?_, hf2.symm, by rw [hf2]⟩
        · intro hc; exact h1 (Or.inl hc)
        · exact Nat.lt_of_not_ge (fun hc => h1 (Or.inr hc))

/-- A present, in-range entry under a present directory entry is what the
lookup returns. -/
theorem lookup_of_entry (L : Nat) (s : State) (pdir uva : Nat)
    (h : s.mem (pde_ptr L pdir uva) &&& PTE_P ≠ 0) (hz : slot_ptr L s pdir uva ≠ 0)
    (hP : s.mem (slot_ptr L s pdir uva) &&& PTE_P ≠ 0)
    (hr : PPN (PTE_ADDR (s.mem (slot_ptr L s pdir uva))) < s.mem_npage) :
    pmap_lookup L s pdir uva =
      (some (mem_phys2pi (PTE_ADDR (s.mem (slot_ptr L s pdir uva)))),
        some (slot_ptr L s pdir uva)) := by
  rw [lookup_present L s pdir uva h hz]
  have h0 : s.mem (slot_ptr L s pdir uva) ≠ 0 := by
    intro hc; rw [hc] at hP; simp at hP
  rw [if_neg h0, if_neg]
  intro hc
  rcases hc with hc | hc
  · exact hP hc
  · exact absurd hr (Nat.not_lt.mpr hc)

/-- The lookup reads only the memory and the number of frames. -/
theorem lookup_congr (L : Nat) (s s2 : State) (pdir uva : Nat)
    (hm : s2.mem = s.mem) (hn : s2.mem_npage = s.mem_npage) :
    pmap_lookup L s2 pdir uva = pmap_lookup L s pdir uva := by
  have hs : slot_ptr L s2 pdir uva = slot_ptr L s pdir uva := by
    simp [slot_ptr, hm]
  by_cases h : s.mem (pde_ptr L pdir uva) &&& PTE_P = 0
  · rw [lookup_absent L s pdir uva h, lookup_absent L s2 pdir uva (by rw [hm]; exact h)]
  · by_cases hz : slot_ptr L s pdir uva = 0
    · rw [lookup_null L s pdir uva h hz,
        lookup_null L s2 pdir uva (by rw [hm]; exact h) (by rw [hs]; exact hz)]
    · rw [lookup_present L s pdir uva h hz,
        lookup_present L s2 pdir uva (by rw [hm]; exact h) (by rw [hs]; exact hz), hs, hm, hn]

theorem remove_of_lookup (L : Nat) (s : State) (pdir uva f pte : Nat)
    (h : pmap_lookup L s pdir uva = (some f, some pte)) :
    pmap_remove L s pdir uva = mem_decref (pmap_invl L (s.write pte 0) pdir uva) f := by
  unfold pmap_remove
  rw [h]

theorem remove_of_none (L : Nat) (s : State) (pdir uva : Nat)
    (h : (pmap_lookup L s pdir uva).1 = none) :
    pmap_remove L s pdir uva = s := by
  unfold pmap_remove
  split
  · rename_i heq
    rw [heq] at h
    cases h
  · rfl

/-- The remover writes at most the slot of the address. -/
theorem remove_mem_of_ne (L : Nat) (s : State) (pdir uva x : Nat)
    (hx : x ≠ slot_ptr L s pdir uva) :
    (pmap_remove L s pdir uva).mem x = s.mem x := by
  cases hl : (pmap_lookup L s pdir uva).1 with
  | none => rw [remove_of_none L s pdir uva hl]
  | some f =>
    obtain ⟨_, _, _, _, he⟩ := lookup_some L s pdir uva f hl
    rw [remove_of_lookup L s pdir uva f _ he]
    simp [hx]

theorem remove_npage (L : Nat) (s : State) (pdir uva : Nat) :
    (pmap_remove L s pdir uva).mem_npage = s.mem_npage := by
  cases hl : (pmap_lookup L s pdir uva).1 with
  | none => rw [remove_of_none L s pdir uva hl]
  | some f =>
    obtain ⟨_, _, _, _, he⟩ := lookup_some L s pdir uva f hl
    rw [remove_of_lookup L s pdir uva f _ he]
    simp

theorem insert_null (L : Nat) (s : State) (pdir pi uva perm : Nat)
    (h : s.mem (pde_ptr L pdir uva) &&& PTE_P ≠ 0) (hz : slot_ptr L s pdir uva = 0) :
    pmap_insert L s pdir pi uva perm = (s, none) := by
  unfold pmap_insert
  rw [walk_present L s pdir uva true h]
  dsimp only
  rw [if_pos hz]

theorem insert_present (L : Nat) (s : State) (pdir pi uva perm : Nat)
    (h : s.mem (pde_ptr L pdir uva) &&& PTE_P ≠ 0) (hz : slot_ptr L s pdir uva ≠ 0) :
    pmap_insert L s pdir pi uva perm =
      ((if (mem_incref s pi).mem (slot_ptr L s pdir uva) &&& PTE_P ≠ 0 then
            pmap_remove L (mem_incref s pi) pdir uva
          else mem_incref s pi).write (slot_ptr L s pdir uva) (pte_word pi perm),
        some (slot_ptr L s pdir uva)) := by
  unfold pmap_insert
  rw [walk_present L s pdir uva true h]
  dsimp only
  rw [if_neg hz]

theorem PTE_ADDR_mod (x : Nat) : PTE_ADDR x % 4096 = 0 := by
  rw [PTE_ADDR_eq]; omega

theorem PTE_ADDR_lt (x : Nat) : PTE_ADDR x < 4294967296 := by
  rw [PTE_ADDR_eq]; omega

@[simp] theorem memset_mem (s : State) (p x : Nat) :
    (memset_zero s p).mem x = if p ≤ x ∧ x < p + PAGESIZE then 0 else s.mem x := rfl
@[simp] theorem memset_refcount (s : State) (p : Nat) :
    (memset_zero s p).refcount = s.refcount := rfl
@[simp] theorem memset_freelist (s : State) (p : Nat) :
    (memset_zero s p).mem_freelist = s.mem_freelist := rfl
@[simp] theorem memset_npage (s : State) (p : Nat) :
    (memset_zero s p).mem_npage = s.mem_npage := rfl
@[simp] theorem memset_cur (s : State) (p : Nat) : (memset_zero s p).proc_cur = s.proc_cur := rfl
@[simp] theorem memset_log (s : State) (p : Nat) :
    (memset_zero s p).invlpg_log = s.invlpg_log := rfl

/-- In a well-formed directory the slot reached through a present entry is
not the directory entry itself. -/
theorem slot_ne_pde (L : Nat) (s : State) (pdir uva : Nat) (hd : PdirOK s pdir)
    (h : s.mem (pde_ptr L pdir uva) &&& PTE_P ≠ 0) (i : Nat) (hi : i < 1024) :
    slot_ptr L s pdir uva ≠ pdir + 4 * i := by
  have h1 := hd.not_self (PDX (linaddr L uva)) (PDX_lt _) h
  have h2 := hd.aligned
  have h3 := PTE_ADDR_mod (s.mem (pdir + 4 * PDX (linaddr L uva)))
  have h4 := PTX_lt (linaddr L uva)
  unfold slot_ptr pde_ptr mem_ptr
  omega

/-- Insert over a present directory entry whose slot holds a mapping: the
old occupant is removed after the new frame has been counted. -/
theorem insert_present_mapped (L : Nat) (s : State) (pdir pi uva perm g : Nat)
    (hg : (pmap_lookup L s pdir uva).1 = some g) :
    pmap_insert L s pdir pi uva perm =
      ((mem_decref (pmap_invl L ((mem_incref s pi).write (slot_ptr L s pdir uva) 0) pdir uva)
          g).write (slot_ptr L s pdir uva) (pte_word pi perm),
        some (slot_ptr L s pdir uva)) := by
  obtain ⟨h, hP, _, _, he⟩ := lookup_some L s pdir uva g hg
  rw [insert_present L s pdir pi uva perm h (lookup_some_ne L s pdir uva g hg)]
  have hl : pmap_lookup L (mem_incref s pi) pdir uva = (some g, some (slot_ptr L s pdir uva)) := by
    rw [lookup_congr L s (mem_incref s pi) pdir uva rfl rfl, he]
  rw [if_pos (by simpa using hP), remove_of_lookup L _ pdir uva g _ hl]

/-- Insert over a present directory entry whose slot holds no mapping. -/
theorem insert_present_unmapped (L : Nat) (s : State) (pdir pi uva perm : Nat)
    (h : s.mem (pde_ptr L pdir uva) &&& PTE_P ≠ 0) (hz : slot_ptr L s pdir uva ≠ 0)
    (hn : (pmap_lookup L s pdir uva).1 = none) :
    pmap_insert L s pdir pi uva perm =
      ((mem_incref s pi).write (slot_ptr L s pdir uva) (pte_word pi perm),
        some (slot_ptr L s pdir uva)) := by
  rw [insert_present L s pdir pi uva perm h hz]
  have hl : (pmap_lookup L (mem_incref s pi) pdir uva).1 = none := by
    rw [lookup_congr L s (mem_incref s pi) pdir uva rfl rfl, hn]
  rw [remove_of_none L _ pdir uva hl]
  simp

/-- Insert with an absent directory entry and an empty free list. -/
theorem insert_nomem (L : Nat) (s : State) (pdir pi uva perm : Nat)
    (h : s.mem (pde_ptr L pdir uva) &&& PTE_P = 0) (hf : s.mem_freelist = []) :
    pmap_insert L s pdir pi uva perm = (s, none) := by
  unfold pmap_insert
  rw [walk_absent_nil L s pdir uva h hf]

/-- Insert with an absent directory entry and a free frame `t` whose slot
for `uva` is the null pointer (frame 0, slot 0): the walk installs the
table and the insertion returns `NULL` without storing an entry. -/
theorem insert_created_null (L : Nat) (s : State) (pdir pi uva perm t : Nat) (r : List Nat)
    (h : s.mem (pde_ptr L pdir uva) &&& PTE_P = 0) (hf : s.mem_freelist = t :: r)
    (hz : mem_pi2ptr t + 4 * PTX (linaddr L uva) = 0) :
    pmap_insert L s pdir pi uva perm = (walk_created L s pdir uva t r, none) := by
  unfold pmap_insert
  rw [walk_absent_cons L s pdir uva t r h hf]
  dsimp only
  rw [if_pos hz]

/-- Insert with an absent directory entry and a free frame `t`: `t` becomes
the zeroed table and the new entry is written into it. -/
theorem insert_created (L : Nat) (s : State) (pdir pi uva perm t : Nat) (r : List Nat)
    (hm : MemOK s) (hd : PdirOK s pdir)
    (h : s.mem (pde_ptr L pdir uva) &&& PTE_P = 0) (hf : s.mem_freelist = t :: r)
    (hnz : t * 4096 + 4 * PTX (linaddr L uva) ≠ 0) :
    pmap_insert L s pdir pi uva perm =
      ((mem_incref (walk_created L s pdir uva t r) pi).write
          (t * 4096 + 4 * PTX (linaddr L uva)) (pte_word pi perm),
        some (t * 4096 + 4 * PTX (linaddr L uva))) ∧
    t * 4096 + 4 * PTX (linaddr L uva) ≠ pde_ptr L pdir uva ∧
    (walk_created L s pdir uva t r).mem (pde_ptr L pdir uva) = t * 4096 + 7 := by
  have ht : t < 2 ^ 20 :=
    Nat.lt_of_lt_of_le (hm.free_lt t (by simp [hf])) hm.npage_le
  have hne := hd.not_free t (by simp [hf])
  have hal := hd.aligned
  have hphys : mem_pi2phys t = t * 4096 := by rw [mem_pi2phys_eq]; omega
  have hptr : mem_pi2ptr t = t * 4096 := by rw [mem_pi2ptr, mem_ptr, hphys]
  have h4 := PTX_lt (linaddr L uva)
  have h5 := PDX_lt (linaddr L uva)
  have hslot : t * 4096 + 4 * PTX (linaddr L uva) ≠ pde_ptr L pdir uva := by
    rw [hphys] at hne
    unfold pde_ptr
    omega
  have hz : (walk_created L s pdir uva t r).mem (t * 4096 + 4 * PTX (linaddr L uva)) = 0 := by
    unfold walk_created
    rw [write_mem, if_neg hslot, memset_mem, hptr, if_pos]
    unfold PAGESIZE
    omega
  refine ⟨?_, hslot, ?_⟩
  · unfold pmap_insert
    rw [walk_absent_cons L s pdir uva t r h hf, hptr]
    dsimp only
    rw [if_neg hnz, if_neg]
    intro hc
    refine hc ?_
    change (walk_created L s pdir uva t r).mem _ &&& PTE_P = 0
    rw [hz]
    simp
  · unfold walk_created
    rw [write_mem, if_pos rfl, pde_word_eq t ht]

/-- The slot address depends only on the directory entry. -/
theorem slot_ptr_congr (L : Nat) (s s2 : State) (pdir uva : Nat)
    (h : s2.mem (pde_ptr L pdir uva) = s.mem (pde_ptr L pdir uva)) :
    slot_ptr L s2 pdir uva = slot_ptr L s pdir uva := by
  unfold slot_ptr
  rw [h]

/-- Reading back the word stored by `pmap_insert`, for an in-range frame
and flag-only permissions. -/
theorem pte_word_facts (pi perm : Nat) (hpi : pi < 2 ^ 20) (hperm : perm < 4096) :
    pte_word pi perm &&& PTE_P ≠ 0 ∧ PTE_ADDR (pte_word pi perm) = pi * 4096 ∧
      pte_word pi perm &&& 0xFFF = perm ||| PTE_P := by
  obtain ⟨hw, hq, hodd⟩ := pte_word_eq pi perm hpi hperm
  have hpi2 : pi < 1048576 := by simpa using hpi
  refine ⟨?_, ?_, ?_⟩
  · rw [and_PTE_P, hw]; omega
  · rw [PTE_ADDR_eq, hw]; omega
  · rw [low12_eq, hw]; omega

/-- A slot that holds the word of frame `pi` under a present directory
entry makes the lookup return `pi`. -/
theorem lookup_of_word (L : Nat) (s : State) (pdir uva pi perm : Nat)
    (hn : s.mem_npage ≤ 2 ^ 20) (hpi : pi < s.mem_npage) (hperm : perm < 4096)
    (h : s.mem (pde_ptr L pdir uva) &&& PTE_P ≠ 0) (hz : slot_ptr L s pdir uva ≠ 0)
    (hw : s.mem (slot_ptr L s pdir uva) = pte_word pi perm) :
    pmap_lookup L s pdir uva = (some pi, some (slot_ptr L s pdir uva)) := by
  obtain ⟨h1, h2, _⟩ := pte_word_facts pi perm (Nat.lt_of_lt_of_le hpi hn) hperm
  have e := lookup_of_entry L s pdir uva h hz (by rw [hw]; exact h1)
    (by rw [hw, h2, PPN_eq]; omega)
  rw [e, hw, h2, mem_phys2pi_eq]
  congr 2
  omega

/-- The slot returned by a successful `pmap_insert` is not the null
pointer. -/
theorem insert_some_ne (L : Nat) (s : State) (pdir pi uva perm p : Nat)
    (h : (pmap_insert L s pdir pi uva perm).2 = some p) : p ≠ 0 := by
  unfold pmap_insert at h
  split at h
  · cases h
  · rename_i s1 pte _
    by_cases hz : pte = 0
    · rw [if_pos hz] at h
      cases h
    · rw [if_neg hz] at h
      dsimp only at h
      have e : pte = p := by simpa using h
      exact e ▸ hz

/-- A successful insertion over a present directory entry went through a
slot that is not the null pointer. -/
theorem insert_ok_ne_present (L : Nat) (s : State) (pdir pi uva perm : Nat)
    (h : s.mem (pde_ptr L pdir uva) &&& PTE_P ≠ 0)
    (hok : (pmap_insert L s pdir pi uva perm).2 ≠ none) : slot_ptr L s pdir uva ≠ 0 := by
  intro hz
  rw [insert_null L s pdir pi uva perm h hz] at hok
  exact absurd rfl hok

/-- A successful insertion that created the table in frame `t` went through
a slot that is not the null pointer. -/
theorem insert_ok_ne_created (L : Nat) (s : State) (pdir pi uva perm t : Nat) (r : List Nat)
    (h : s.mem (pde_ptr L pdir uva) &&& PTE_P = 0) (hf : s.mem_freelist = t :: r)
    (hok : (pmap_insert L s pdir pi uva perm).2 ≠ none) :
    mem_pi2ptr t + 4 * PTX (linaddr L uva) ≠ 0 := by
  intro hz
  rw [insert_created_null L s pdir pi uva perm t r h hf hz] at hok
  exact absurd rfl hok

/-- The words of `uva` after a successful `pmap_insert` into a well-formed
directory: the directory entry is present, the returned slot is the one
reached through it, it lies outside the directory page and holds the new
word. -/
theorem insert_post (L : Nat) (s : State) (pdir pi uva perm : Nat)
    (hm : MemOK s) (hd : PdirOK s pdir)
    (hok : (pmap_insert L s pdir pi uva perm).2 ≠ none) :
    (pmap_insert L s pdir pi uva perm).2 =
        some (slot_ptr L (pmap_insert L s pdir pi uva perm).1 pdir uva) ∧
    (pmap_insert L s pdir pi uva perm).1.mem (pde_ptr L pdir uva) &&& PTE_P ≠ 0 ∧
    (pmap_insert L s pdir pi uva perm).1.mem
        (slot_ptr L (pmap_insert L s pdir pi uva perm).1 pdir uva) = pte_word pi perm ∧
    (pmap_insert L s pdir pi uva perm).1.mem_npage = s.mem_npage ∧
    ∀ i < 1024, slot_ptr L (pmap_insert L s pdir pi uva perm).1 pdir uva ≠ pdir + 4 * i := by
  by_cases h : s.mem (pde_ptr L pdir uva) &&& PTE_P = 0
  · cases hf : s.mem_freelist with
    | nil =>
      rw [insert_nomem L s pdir pi uva perm h hf] at hok
      exact absurd rfl hok
    | cons t r =>
      have ht : t < 1048576 := by
        have := Nat.lt_of_lt_of_le (hm.free_lt t (by simp [hf])) hm.npage_le
        simpa using this
      have hne := hd.not_free t (by simp [hf])
      have hal := hd.aligned
      have hphys : mem_pi2phys t = t * 4096 := by rw [mem_pi2phys_eq]; omega
      have hptr : mem_pi2ptr t = t * 4096 := by rw [mem_pi2ptr, mem_ptr, hphys]
      have h4 := PTX_lt (linaddr L uva)
      have hnz : t * 4096 + 4 * PTX (linaddr L uva) ≠ 0 := by
        intro hz
        rw [insert_created_null L s pdir pi uva perm t r h hf (by rw [hptr]; exact hz)] at hok
        exact absurd rfl hok
      obtain ⟨he, hslot, hpde⟩ := insert_created L s pdir pi uva perm t r hm hd h hf hnz
      rw [he]
      dsimp only
      have e1 : ((mem_incref (walk_created L s pdir uva t r) pi).write
          (t * 4096 + 4 * PTX (linaddr L uva)) (pte_word pi perm)).mem (pde_ptr L pdir uva)
          = t * 4096 + 7 := by
        rw [write_mem, if_neg (Ne.symm hslot), incref_mem, hpde]
      have e2 : slot_ptr L ((mem_incref (walk_created L s pdir uva t r) pi).write
          (t * 4096 + 4 * PTX (linaddr L uva)) (pte_word pi perm)) pdir uva
          = t * 4096 + 4 * PTX (linaddr L uva) := by
        unfold slot_ptr
        rw [e1, PTE_ADDR_eq, mem_ptr]
        omega
      rw [e2]
      refine ⟨rfl, ?_, ?_, ?_, ?_⟩
      · rw [e1, and_PTE_P]; omega
      · simp
      · simp [walk_created]
      · intro i hi
        rw [hphys] at hne
        omega
  · have hs := slot_ne_pde L s pdir uva hd h
    have hs0 : slot_ptr L s pdir uva ≠ pde_ptr L pdir uva := hs _ (PDX_lt _)
    have hz : slot_ptr L s pdir uva ≠ 0 := by
      intro hz
      rw [insert_null L s pdir pi uva perm h hz] at hok
      exact absurd rfl hok
    cases hl : (pmap_lookup L s pdir uva).1 with
    | none =>
      rw [insert_present_unmapped L s pdir pi uva perm h hz hl]
      dsimp only
      have e1 : ((mem_incref s pi).write (slot_ptr L s pdir uva) (pte_word pi perm)).mem
          (pde_ptr L pdir uva) = s.mem (pde_ptr L pdir uva) := by
        rw [write_mem, if_neg (Ne.symm hs0), incref_mem]
      have e2 : slot_ptr L ((mem_incref s pi).write (slot_ptr L s pdir uva)
          (pte_word pi perm)) pdir uva = slot_ptr L s pdir uva :=
        slot_ptr_congr L s _ pdir uva e1
      rw [e2, e1]
      exact ⟨rfl, h, by simp, by simp, hs⟩
    | some g =>
      rw [insert_present_mapped L s pdir pi uva perm g hl]
      dsimp only
      have e1 : ((mem_decref (pmap_invl L ((mem_incref s pi).write (slot_ptr L s pdir uva) 0)
          pdir uva) g).write (slot_ptr L s pdir uva) (pte_word pi perm)).mem
          (pde_ptr L pdir uva) = s.mem (pde_ptr L pdir uva) := by
        rw [write_mem, if_neg (Ne.symm hs0), decref_mem, invl_mem, write_mem,
          if_neg (Ne.symm hs0), incref_mem]
      have e2 : slot_ptr L ((mem_decref (pmap_invl L ((mem_incref s pi).write
          (slot_ptr L s pdir uva) 0) pdir uva) g).write (slot_ptr L s pdir uva)
          (pte_word pi perm)) pdir uva = slot_ptr L s pdir uva :=
        slot_ptr_congr L s _ pdir uva e1
      rw [e2, e1]
      exact ⟨rfl, h, by simp, by simp, hs⟩

theorem exEmpty_MemOK : MemOK exEmpty :=
  ⟨by decide, by decide, by intro t _; rfl⟩

theorem exEmpty_PdirOK : PdirOK exEmpty 0x3000 :=
  ⟨by decide, by decide, by intro i _ h; simp [exEmpty] at h,
    by intro i _ j _ _ h; simp [exEmpty] at h⟩

theorem exDirty_dir (i : Nat) (hi : i < 1024) : exDirty.mem (0x3000 + 4 * i) = 0 := by
  show (if 0x5000 ≤ 0x3000 + 4 * i ∧ 0x3000 + 4 * i < 0x7000 then 0x2007 else 0) = 0
  rw [if_neg (by omega)]

theorem exDirty_MemOK : MemOK exDirty :=
  ⟨by decide, by decide, by intro t _; rfl⟩

theorem exDirty_PdirOK : PdirOK exDirty 0x3000 :=
  ⟨by decide, by decide,
    by intro i hi h; rw [exDirty_dir i hi] at h; simp at h,
    by intro i hi j _ _ h; rw [exDirty_dir i hi] at h; simp at h⟩

/-- The step list of `pmap_remove` ends in the state `pmap_remove` returns. -/
theorem pmap_remove_steps_last (L : Nat) (s : State) (pdir uva : Nat) :
    (pmap_remove_steps L s pdir uva).getLast?.getD s = pmap_remove L s pdir uva := by
  unfold pmap_remove_steps pmap_remove
  split <;> simp

/-- The step list of `pmap_insert` ends in the state `pmap_insert` returns. -/
theorem pmap_insert_steps_last (L : Nat) (s : State) (pdir pi uva perm : Nat) :
    (pmap_insert_steps L s pdir pi uva perm).getLast? =
      some (pmap_insert L s pdir pi uva perm).1 := by
  unfold pmap_insert_steps pmap_insert
  split
  · simp
  · rename_i s1 pte _
    by_cases hz : pte = 0
    · rw [if_pos hz, if_pos hz]
      simp
    · rw [if_neg hz, if_neg hz]
      dsimp only
      by_cases hc : (mem_incref s1 pi).mem pte &&& PTE_P ≠ 0
      · rw [if_pos hc, if_pos hc, pmap_remove_steps_last, List.getLast?_concat]
      · rw [if_neg hc, if_neg hc, List.getLast?_concat]
        rfl

/-- The lookup of `uva` reads only the directory entry of `uva`, the slot
reached through it, and the number of frames. -/
theorem lookup_congr_words (L : Nat) (s s2 : State) (pdir uva : Nat)
    (hp : s2.mem (pde_ptr L pdir uva) = s.mem (pde_ptr L pdir uva))
    (hw : s.mem (pde_ptr L pdir uva) &&& PTE_P ≠ 0 →
      s2.mem (slot_ptr L s pdir uva) = s.mem (slot_ptr L s pdir uva))
    (hn : s2.mem_npage = s.mem_npage) :
    pmap_lookup L s2 pdir uva = pmap_lookup L s pdir uva := by
  have hs : slot_ptr L s2 pdir uva = slot_ptr L s pdir uva := slot_ptr_congr L s s2 pdir uva hp
  by_cases h : s.mem (pde_ptr L pdir uva) &&& PTE_P = 0
  · rw [lookup_absent L s pdir uva h, lookup_absent L s2 pdir uva (by rw [hp]; exact h)]
  · by_cases hz : slot_ptr L s pdir uva = 0
    · rw [lookup_null L s pdir uva h hz,
        lookup_null L s2 pdir uva (by rw [hp]; exact h) (by rw [hs]; exact hz)]
    · rw [lookup_present L s pdir uva h hz,
        lookup_present L s2 pdir uva (by rw [hp]; exact h) (by rw [hs]; exact hz),
        hs, hw h, hn]

/-- The frame number of a 32-bit linear address is its directory index and
its table index. -/
theorem PPN_linaddr (L uva : Nat) :
    PPN (linaddr L uva) = PDX (linaddr L uva) * 1024 + PTX (linaddr L uva) := by
  have h : linaddr L uva < 4294967296 := by unfold linaddr; omega
  rw [PPN_eq, PDX_eq, PTX_eq]
  omega

/-- In a well-formed directory, addresses on different linear pages have
different slots. -/
theorem slot_ne_slot (L : Nat) (s : State) (pdir a b : Nat) (hd : PdirOK s pdir)
    (hab : PPN (linaddr L a) ≠ PPN (linaddr L b))
    (ha : s.mem (pde_ptr L pdir a) &&& PTE_P ≠ 0)
    (hb : s.mem (pde_ptr L pdir b) &&& PTE_P ≠ 0) :
    slot_ptr L s pdir a ≠ slot_ptr L s pdir b := by
  rw [PPN_linaddr, PPN_linaddr] at hab
  have h1 := PTX_lt (linaddr L a)
  have h2 := PTX_lt (linaddr L b)
  have h3 := PTE_ADDR_mod (s.mem (pdir + 4 * PDX (linaddr L a)))
  have h4 := PTE_ADDR_mod (s.mem (pdir + 4 * PDX (linaddr L b)))
  by_cases hx : PDX (linaddr L a) = PDX (linaddr L b)
  · unfold slot_ptr pde_ptr mem_ptr
    rw [hx]
    omega
  · have h5 := hd.tables_distinct _ (PDX_lt (linaddr L a)) _ (PDX_lt (linaddr L b)) hx ha hb
    unfold slot_ptr pde_ptr mem_ptr
    omega

theorem mem_alloc_of_cons (s : State) (t : Nat) (r : List Nat) (h : s.mem_freelist = t :: r) :
    (mem_alloc s).2 = some t := by
  unfold mem_alloc
  split
  · rename_i h0; rw [h] at h0; cases h0
  · rename_i p rest h0
    rw [h] at h0
    cases h0
    rfl

theorem exMapped_pde (i : Nat) (hi : i < 1024) :
    exMapped.mem (0x3000 + 4 * i) = if i = 256 then 0x5007 else 0 := by
  unfold exMapped
  dsimp only
  by_cases h : i = 256
  · subst h; rfl
  · rw [if_neg (by omega), if_neg (by omega), if_neg h]

theorem exMapped_PdirOK : PdirOK exMapped 0x3000 := by
  refine ⟨by decide, by decide, ?_, ?_⟩
  · intro i hi h
    rw [exMapped_pde i hi] at h ⊢
    by_cases h0 : i = 256
    · rw [if_pos h0]; decide
    · rw [if_neg h0] at h; simp at h
  · intro i hi j hj hij h1 h2
    rw [exMapped_pde i hi] at h1
    rw [exMapped_pde j hj] at h2
    by_cases h0 : i = 256
    · by_cases h3 : j = 256
      · omega
      · rw [if_neg h3] at h2; simp at h2
    · rw [if_neg h0] at h1; simp at h1

theorem exMapped_MemOK : MemOK exMapped :=
  ⟨by decide, by decide, by decide⟩

/-- Well-formedness of a directory depends only on the directory words and
the free list. -/
theorem PdirOK_congr (s s2 : State) (pdir : Nat)
    (hw : ∀ i < 1024, s2.mem (pdir + 4 * i) = s.mem (pdir + 4 * i))
    (hfl : s2.mem_freelist = s.mem_freelist) (hd : PdirOK s pdir) : PdirOK s2 pdir := by
  refine ⟨hd.aligned, ?_, ?_, ?_⟩
  · rw [hfl]; exact hd.not_free
  · intro i hi h
    rw [hw i hi] at h ⊢
    exact hd.not_self i hi h
  · intro i hi j hj hij h1 h2
    rw [hw i hi] at h1 ⊢
    rw [hw j hj] at h2 ⊢
    exact hd.tables_distinct i hi j hj hij h1 h2

theorem exShared_PdirOK : PdirOK exShared 0x3000 := by
  refine PdirOK_congr exMapped exShared 0x3000 ?_ rfl exMapped_PdirOK
  intro i hi
  unfold exShared exMapped
  dsimp only
  by_cases h : i = 256
  · subst h; rfl
  · rw [if_neg (by omega), if_neg (by omega), if_neg (by omega), if_neg (by omega),
      if_neg (by omega)]

/-- Insert at an unmapped address of a well-formed directory: the count of
the inserted frame grows by one, no frame joins the free list, and every
changed word belongs to the directory afterwards. -/
theorem insert_unmapped_facts (L : Nat) (s : State) (pdir f uva perm : Nat)
    (hm : MemOK s) (hd : PdirOK s pdir) (hfree : f ∉ s.mem_freelist)
    (hun : (pmap_lookup L s pdir uva).1 = none)
    (hok : (pmap_insert L s pdir f uva perm).2 ≠ none) :
    (pmap_insert L s pdir f uva perm).1.refcount f = s.refcount f + 1 ∧
    (∀ t ∈ (pmap_insert L s pdir f uva perm).1.mem_freelist, t ∈ s.mem_freelist) ∧
    (∀ x, x % 4 = 0 → (pmap_insert L s pdir f uva perm).1.mem x ≠ s.mem x →
      InPdir (pmap_insert L s pdir f uva perm).1 pdir x) := by
  have h5 := PDX_lt (linaddr L uva)
  have h4 := PTX_lt (linaddr L uva)
  by_cases h : s.mem (pde_ptr L pdir uva) &&& PTE_P = 0
  · cases hf : s.mem_freelist with
    | nil =>
      rw [insert_nomem L s pdir f uva perm h hf] at hok
      exact absurd rfl hok
    | cons t r =>
      have ht : t < 1048576 := by
        have := Nat.lt_of_lt_of_le (hm.free_lt t (by simp [hf])) hm.npage_le
        simpa using this
      have hphys : mem_pi2phys t = t * 4096 := by rw [mem_pi2phys_eq]; omega
      have hptr : mem_pi2ptr t = t * 4096 := by rw [mem_pi2ptr, mem_ptr, hphys]
      have hnz : t * 4096 + 4 * PTX (linaddr L uva) ≠ 0 := by
        have := insert_ok_ne_created L s pdir f uva perm t r h hf hok
        rwa [hptr] at this
      obtain ⟨he, hslot, hpde⟩ := insert_created L s pdir f uva perm t r hm hd h hf hnz
      have hft : f ≠ t := by
        intro hc; apply hfree; rw [hf, hc]; simp
      rw [he]
      dsimp only
      have e1 : ((mem_incref (walk_created L s pdir uva t r) f).write
          (t * 4096 + 4 * PTX (linaddr L uva)) (pte_word f perm)).mem (pdir +
            4 * PDX (linaddr L uva)) = t * 4096 + 7 := by
        change (State.write _ _ _).mem (pde_ptr L pdir uva) = _
        rw [write_mem, if_neg (Ne.symm hslot), incref_mem]; exact hpde
      refine ⟨by simp [walk_created, hft], ?_, ?_⟩
      · intro q hq
        have hq2 : q ∈ r := by simpa [walk_created] using hq
        exact List.mem_cons_of_mem t hq2
      · intro x hx4 hx
        by_cases hxp : x = pde_ptr L pdir uva
        · left
          exact ⟨_, h5, hxp⟩
        · right
          refine ⟨_, h5, ?_, ?_⟩
          · rw [e1, and_PTE_P]; omega
          · rw [e1]
            have hrange : t * 4096 ≤ x ∧ x < t * 4096 + 4096 := by
              by_contra hc
              apply hx
              have hxs : x ≠ t * 4096 + 4 * PTX (linaddr L uva) := by omega
              rw [write_mem, if_neg hxs, incref_mem]
              unfold walk_created
              rw [write_mem, if_neg hxp, memset_mem, hptr, if_neg]
              · rfl
              · unfold PAGESIZE; exact hc
            refine ⟨(x - t * 4096) / 4, by omega, ?_⟩
            rw [PTE_ADDR_eq]
            omega
  · have hs0 : slot_ptr L s pdir uva ≠ pde_ptr L pdir uva :=
      slot_ne_pde L s pdir uva hd h _ h5
    rw [insert_present_unmapped L s pdir f uva perm h
      (insert_ok_ne_present L s pdir f uva perm h hok) hun]
    dsimp only
    refine ⟨by simp, by simp, ?_⟩
    intro x _ hx
    have hxs : x = slot_ptr L s pdir uva := by
      by_contra hc
      apply hx
      rw [write_mem, if_neg hc, incref_mem]
    right
    have e1 : ((mem_incref s f).write (slot_ptr L s pdir uva) (pte_word f perm)).mem
        (pdir + 4 * PDX (linaddr L uva)) = s.mem (pde_ptr L pdir uva) := by
      change (State.write _ _ _).mem (pde_ptr L pdir uva) = _
      rw [write_mem, if_neg (Ne.symm hs0), incref_mem]
    refine ⟨_, h5, by rw [e1]; exact h, _, h4, ?_⟩
    rw [e1, hxs]
    rfl

/-- The slot reached through a present directory entry belongs to the
directory. -/
theorem slot_InPdir (L : Nat) (s : State) (pdir uva : Nat)
    (h : s.mem (pde_ptr L pdir uva) &&& PTE_P ≠ 0) :
    InPdir s pdir (slot_ptr L s pdir uva) :=
  Or.inr ⟨_, PDX_lt (linaddr L uva), h, _, PTX_lt (linaddr L uva), rfl⟩

theorem pde_InPdir (L : Nat) (s : State) (pdir uva : Nat) :
    InPdir s pdir (pde_ptr L pdir uva) :=
  Or.inl ⟨_, PDX_lt (linaddr L uva), rfl⟩

/-- The counted walk computes what `pmap_walk` computes. -/
theorem pmap_walk_counted_fst (L : Nat) (s : State) (pdir uva : Nat) (c : Bool) :
    (pmap_walk_counted L s pdir uva c).1 = pmap_walk L s pdir uva c := by
  unfold pmap_walk_counted pmap_walk
  dsimp only
  split
  · rfl
  · split
    · rfl
    · split <;> rfl

theorem walk_counted_present (L : Nat) (s : State) (pdir uva : Nat) (c : Bool)
    (h : s.mem (pde_ptr L pdir uva) &&& PTE_P ≠ 0) :
    (pmap_walk_counted L s pdir uva c).2 = 0 := by
  unfold pmap_walk_counted
  dsimp only
  rw [if_pos (by simpa [pde_ptr] using h)]

theorem walk_counted_nocreate (L : Nat) (s : State) (pdir uva : Nat) :
    (pmap_walk_counted L s pdir uva false).2 = 0 := by
  unfold pmap_walk_counted
  dsimp only
  split
  · rfl
  · simp

/-- The table index ignores the wrap of the 32-bit sum. -/
theorem PTX_linaddr (L uva : Nat) : PTX (linaddr L uva) = PTX (uva + L) := by
  unfold linaddr
  rw [PTX_eq, PTX_eq]
  omega

/-- The memory left by a creating walk that takes frame `t`. -/
theorem walk_created_mem (L : Nat) (s : State) (pdir uva t : Nat) (r : List Nat) (x : Nat) :
    (walk_created L s pdir uva t r).mem x =
      if x = pde_ptr L pdir uva then (mem_pi2phys t ||| PTE_P ||| PTE_W ||| PTE_U) % 2 ^ 32
      else if mem_pi2ptr t ≤ x ∧ x < mem_pi2ptr t + PAGESIZE then 0 else s.mem x := rfl

theorem walk_created_refcount (L : Nat) (s : State) (pdir uva t : Nat) (r : List Nat) (q : Nat) :
    (walk_created L s pdir uva t r).refcount q =
      if q = t then s.refcount q + 1 else s.refcount q := rfl

theorem walk_created_freelist (L : Nat) (s : State) (pdir uva t : Nat) (r : List Nat) :
    (walk_created L s pdir uva t r).mem_freelist = r := rfl

theorem walk_created_npage (L : Nat) (s : State) (pdir uva t : Nat) (r : List Nat) :
    (walk_created L s pdir uva t r).mem_npage = s.mem_npage := rfl

/-- A free frame of a well-formed machine: its physical base, and the fact
that its page does not meet the page of a well-formed directory. -/
theorem free_frame_facts (s : State) (pdir t : Nat) (hm : MemOK s) (hd : PdirOK s pdir)
    (ht : t ∈ s.mem_freelist) :
    t < 1048576 ∧ mem_pi2phys t = t * 4096 ∧ mem_pi2ptr t = t * 4096 ∧
      t * 4096 ≠ pdir ∧ pdir % 4096 = 0 := by
  have h1 : t < 1048576 := by
    have := Nat.lt_of_lt_of_le (hm.free_lt t ht) hm.npage_le
    simpa using this
  have h2 : mem_pi2phys t = t * 4096 := by rw [mem_pi2phys_eq]; omega
  have h3 := hd.not_free t ht
  rw [h2] at h3
  exact ⟨h1, h2, by rw [mem_pi2ptr, mem_ptr, h2], h3, hd.aligned⟩

/-! ## Sums with one changed term -/

theorem sum_map_congr {α : Type} (l : List α) (f g : α → Nat)
    (h : ∀ b ∈ l, f b = g b) : (l.map f).sum = (l.map g).sum := by
  induction l with
  | nil => rfl
  | cons a l ih =>
    simp only [List.map_cons, List.sum_cons]
    rw [h a (by simp), ih (fun b hb => h b (by simp [hb]))]

theorem sum_map_point {α : Type} (l : List α) (a : α) (f g : α → Nat)
    (hnd : l.Nodup) (ha : a ∈ l) (hfg : ∀ b ∈ l, b ≠ a → f b = g b) :
    (l.map f).sum + g a = (l.map g).sum + f a := by
  induction l with
  | nil => cases ha
  | cons c l ih =>
    simp only [List.map_cons, List.sum_cons]
    have hnd2 := (List.nodup_cons.mp hnd)
    by_cases hca : c = a
    · subst hca
      have e := sum_map_congr l f g (fun b hb => hfg b (by simp [hb])
        (fun hc => hnd2.1 (hc ▸ hb)))
      rw [e]
      omega
    · have ha2 : a ∈ l := by
        rcases List.mem_cons.mp ha with h | h
        · exact absurd h.symm hca
        · exact h
      have e := ih hnd2.2 ha2 (fun b hb hne => hfg b (by simp [hb]) hne)
      have e2 := hfg c (by simp) hca
      omega

theorem sum_map_zero {α : Type} (l : List α) (f : α → Nat) (h : ∀ b ∈ l, f b = 0) :
    (l.map f).sum = 0 := by
  induction l with
  | nil => rfl
  | cons a l ih =>
    simp only [List.map_cons, List.sum_cons]
    rw [h a (by simp), ih (fun b hb => h b (by simp [hb]))]

theorem sum_map_eq_zero {α : Type} (l : List α) (f : α → Nat) (h : (l.map f).sum = 0) :
    ∀ b ∈ l, f b = 0 := by
  induction l with
  | nil => intro b hb; cases hb
  | cons a l ih =>
    simp only [List.map_cons, List.sum_cons] at h
    intro b hb
    rcases List.mem_cons.mp hb with h1 | h1
    · rw [h1]; omega
    · exact ih (by omega) b h1

/-! ## How the reference sums follow the memory -/

theorem total_refs_congr_mem (lo hi : Nat) (s s2 : State) (D : List Nat) (q : Nat)
    (h : s2.mem = s.mem) : total_refs lo hi s2 D q = total_refs lo hi s D q := by
  unfold total_refs pdir_refs pde_refs table_refs
  rw [h]

theorem table_refs_congr (s s2 : State) (tab q : Nat)
    (h : ∀ j, j < 1024 → s2.mem (tab + 4 * j) = s.mem (tab + 4 * j)) :
    table_refs s2 tab q = table_refs s tab q := by
  unfold table_refs
  apply sum_map_congr
  intro j hj
  rw [h j (by simpa [NPTENTRIES] using hj)]

theorem pde_refs_congr (lo hi : Nat) (s s2 : State) (d i q : Nat)
    (hp : s2.mem (d + 4 * i) = s.mem (d + 4 * i))
    (ht : s.mem (d + 4 * i) &&& PTE_P ≠ 0 → ∀ j, j < 1024 →
      s2.mem (PTE_ADDR (s.mem (d + 4 * i)) + 4 * j)
        = s.mem (PTE_ADDR (s.mem (d + 4 * i)) + 4 * j)) :
    pde_refs lo hi s2 d i q = pde_refs lo hi s d i q := by
  unfold pde_refs
  rw [hp]
  by_cases hc : lo ≤ i ∧ i < hi ∧ s.mem (d + 4 * i) &&& PTE_P ≠ 0
  · rw [if_pos hc, if_pos hc, table_refs_congr s s2 _ q (ht hc.2.2)]
  · rw [if_neg hc, if_neg hc]

theorem pde_refs_out (lo hi : Nat) (s : State) (d i q : Nat) (h : ¬ (lo ≤ i ∧ i < hi)) :
    pde_refs lo hi s d i q = 0 := by
  unfold pde_refs
  rw [if_neg (fun hc => h ⟨hc.1, hc.2.1⟩)]

theorem pde_refs_absent (lo hi : Nat) (s : State) (d i q : Nat)
    (h : s.mem (d + 4 * i) &&& PTE_P = 0) : pde_refs lo hi s d i q = 0 := by
  unfold pde_refs
  rw [if_neg (fun hc => hc.2.2 h)]

theorem entry_ref_zero (q : Nat) : entry_ref 0 q = 0 := by
  unfold entry_ref
  simp

/-- Writing one slot of the table of a present directory entry changes the
references by the difference between the new and the old word. -/
theorem total_refs_write_slot (lo hi : Nat) (s : State) (D : List Nat) (d0 i0 j0 v q : Nat)
    (hhi : hi ≤ 1024) (hD : D.Nodup) (hal : ∀ d ∈ D, d % 4096 = 0)
    (hd0 : d0 ∈ D) (hlo : lo ≤ i0) (hi0 : i0 < hi)
    (hp0 : s.mem (d0 + 4 * i0) &&& PTE_P ≠ 0) (hj0 : j0 < 1024)
    (hnd : ∀ d ∈ D, PTE_ADDR (s.mem (d0 + 4 * i0)) ≠ d)
    (hex : ∀ d ∈ D, ∀ i, lo ≤ i → i < hi → s.mem (d + 4 * i) &&& PTE_P ≠ 0 →
      (d ≠ d0 ∨ i ≠ i0) → PTE_ADDR (s.mem (d + 4 * i)) ≠ PTE_ADDR (s.mem (d0 + 4 * i0))) :
    total_refs lo hi (s.write (PTE_ADDR (s.mem (d0 + 4 * i0)) + 4 * j0) v) D q
        + entry_ref (s.mem (PTE_ADDR (s.mem (d0 + 4 * i0)) + 4 * j0)) q
      = total_refs lo hi s D q + entry_ref v q := by
  have hT0 := PTE_ADDR_mod (s.mem (d0 + 4 * i0))
  generalize hTe : PTE_ADDR (s.mem (d0 + 4 * i0)) = T0 at hT0 hnd hex ⊢
  have hpde : ∀ d ∈ D, ∀ i, i < 1024 →
      (s.write (T0 + 4 * j0) v).mem (d + 4 * i) = s.mem (d + 4 * i) := by
    intro d hd i hi'
    have h1 := hal d hd
    have h2 := hnd d hd
    rw [write_mem, if_neg (by omega)]
  have hother : ∀ d ∈ D, ∀ i, (d ≠ d0 ∨ i ≠ i0) →
      pde_refs lo hi (s.write (T0 + 4 * j0) v) d i q = pde_refs lo hi s d i q := by
    intro d hd i hne
    by_cases hr : lo ≤ i ∧ i < hi
    · apply pde_refs_congr
      · exact hpde d hd i (by omega)
      · intro hp j hj
        have h1 := hex d hd i hr.1 hr.2 hp hne
        have h2 := PTE_ADDR_mod (s.mem (d + 4 * i))
        rw [write_mem, if_neg (by omega)]
    · rw [pde_refs_out lo hi _ d i q hr, pde_refs_out lo hi _ d i q hr]
  have htab : table_refs (s.write (T0 + 4 * j0) v) T0 q + entry_ref (s.mem (T0 + 4 * j0)) q
      = table_refs s T0 q + entry_ref v q := by
    unfold table_refs
    have e := sum_map_point (List.range NPTENTRIES) j0
      (fun j => entry_ref ((s.write (T0 + 4 * j0) v).mem (T0 + 4 * j)) q)
      (fun j => entry_ref (s.mem (T0 + 4 * j)) q) (List.nodup_range _)
      (by simpa [NPTENTRIES] using hj0)
      (by
        intro j _ hne
        dsimp only
        rw [write_mem, if_neg (by omega)])
    dsimp only at e
    rw [write_mem, if_pos rfl] at e
    exact e
  have hself : pde_refs lo hi (s.write (T0 + 4 * j0) v) d0 i0 q
        + entry_ref (s.mem (T0 + 4 * j0)) q
      = pde_refs lo hi s d0 i0 q + entry_ref v q := by
    unfold pde_refs
    rw [hpde d0 hd0 i0 (by omega), if_pos ⟨hlo, hi0, hp0⟩, if_pos ⟨hlo, hi0, hp0⟩, hTe]
    omega
  have hdir : pdir_refs lo hi (s.write (T0 + 4 * j0) v) d0 q
        + entry_ref (s.mem (T0 + 4 * j0)) q
      = pdir_refs lo hi s d0 q + entry_ref v q := by
    unfold pdir_refs
    have e := sum_map_point (List.range NPDENTRIES) i0
      (fun i => pde_refs lo hi (s.write (T0 + 4 * j0) v) d0 i q)
      (fun i => pde_refs lo hi s d0 i q) (List.nodup_range _)
      (by simp [NPDENTRIES]; omega)
      (fun i _ hne => hother d0 hd0 i (Or.inr hne))
    dsimp only at e
    omega
  unfold total_refs
  have e := sum_map_point D d0
    (fun d => pdir_refs lo hi (s.write (T0 + 4 * j0) v) d q)
    (fun d => pdir_refs lo hi s d q) hD hd0
    (by
      intro d hd hne
      dsimp only
      unfold pdir_refs
      exact sum_map_congr _ _ _ (fun i _ => hother d hd i (Or.inl hne)))
  dsimp only at e
  omega

/-- A creating walk that takes a frame `t`, which is neither a directory
page nor a table, adds exactly the hold of the new directory entry on
`t`. -/
theorem total_refs_walk_created (lo hi L : Nat) (s : State) (D : List Nat)
    (d0 uva t : Nat) (r : List Nat) (q : Nat)
    (hhi : hi ≤ 1024) (hD : D.Nodup) (hal : ∀ d ∈ D, d % 4096 = 0)
    (hd0 : d0 ∈ D) (hlo : lo ≤ PDX (linaddr L uva)) (hi0 : PDX (linaddr L uva) < hi)
    (habs : s.mem (pde_ptr L d0 uva) &&& PTE_P = 0) (ht : t < 1048576)
    (htd : ∀ d ∈ D, t * 4096 ≠ d)
    (htt : ∀ d ∈ D, ∀ i, lo ≤ i → i < hi → s.mem (d + 4 * i) &&& PTE_P ≠ 0 →
      PTE_ADDR (s.mem (d + 4 * i)) ≠ t * 4096)
    (hnd : ∀ d ∈ D, ∀ i, lo ≤ i → i < hi → s.mem (d + 4 * i) &&& PTE_P ≠ 0 →
      ∀ d2 ∈ D, PTE_ADDR (s.mem (d + 4 * i)) ≠ d2) :
    total_refs lo hi (walk_created L s d0 uva t r) D q
      = total_refs lo hi s D q + (if q = t then 1 else 0) := by
  have hphys : mem_pi2phys t = t * 4096 := by rw [mem_pi2phys_eq]; omega
  have hptr : mem_pi2ptr t = t * 4096 := by rw [mem_pi2ptr, mem_ptr, hphys]
  have hi1 : PDX (linaddr L uva) < 1024 := PDX_lt _
  have hal0 := hal d0 hd0
  have htd0 := htd d0 hd0
  have hmem : ∀ x, (walk_created L s d0 uva t r).mem x =
      if x = d0 + 4 * PDX (linaddr L uva) then t * 4096 + 7
      else if t * 4096 ≤ x ∧ x < t * 4096 + 4096 then 0 else s.mem x := by
    intro x
    rw [walk_created_mem, pde_word_eq t (by simpa using ht), hptr]
    rfl
  have hpde : ∀ d ∈ D, ∀ i, i < 1024 → (d ≠ d0 ∨ i ≠ PDX (linaddr L uva)) →
      (walk_created L s d0 uva t r).mem (d + 4 * i) = s.mem (d + 4 * i) := by
    intro d hd i hi' hne
    have h1 := hal d hd
    have h2 := htd d hd
    rw [hmem, if_neg (by omega), if_neg (by omega)]
  have hother : ∀ d ∈ D, ∀ i, (d ≠ d0 ∨ i ≠ PDX (linaddr L uva)) →
      pde_refs lo hi (walk_created L s d0 uva t r) d i q = pde_refs lo hi s d i q := by
    intro d hd i hne
    by_cases hr : lo ≤ i ∧ i < hi
    · apply pde_refs_congr
      · exact hpde d hd i (by omega) hne
      · intro hp j hj
        have h1 := htt d hd i hr.1 hr.2 hp
        have h2 := PTE_ADDR_mod (s.mem (d + 4 * i))
        have h3 := hnd d hd i hr.1 hr.2 hp d0 hd0
        rw [hmem, if_neg (by omega), if_neg (by omega)]
    · rw [pde_refs_out lo hi _ d i q hr, pde_refs_out lo hi _ d i q hr]
  have hPA : PTE_ADDR (t * 4096 + 7) = t * 4096 := by rw [PTE_ADDR_eq]; omega
  have htab : table_refs (walk_created L s d0 uva t r) (t * 4096) q = 0 := by
    unfold table_refs
    apply sum_map_zero
    intro j hj
    have hj2 : j < 1024 := by simpa [NPTENTRIES] using hj
    rw [hmem, if_neg (by omega), if_pos (by omega), entry_ref_zero]
  have hnew : pde_refs lo hi (walk_created L s d0 uva t r) d0 (PDX (linaddr L uva)) q
      = if q = t then 1 else 0 := by
    unfold pde_refs
    rw [hmem, if_pos rfl, if_pos ⟨hlo, hi0, by rw [and_PTE_P]; omega⟩, hPA, htab]
    unfold entry_ref
    rw [hPA, PPN_eq]
    have e1 : t * 4096 / 4096 = t := by omega
    rw [e1]
    by_cases hq : q = t
    · rw [if_pos hq, if_pos ⟨by rw [and_PTE_P]; omega, hq.symm⟩]
    · rw [if_neg hq, if_neg (fun hc => hq hc.2.symm)]
  have hold : pde_refs lo hi s d0 (PDX (linaddr L uva)) q = 0 :=
    pde_refs_absent lo hi s d0 _ q habs
  have hdir : pdir_refs lo hi (walk_created L s d0 uva t r) d0 q
      = pdir_refs lo hi s d0 q + (if q = t then 1 else 0) := by
    unfold pdir_refs
    have e := sum_map_point (List.range NPDENTRIES) (PDX (linaddr L uva))
      (fun i => pde_refs lo hi (walk_created L s d0 uva t r) d0 i q)
      (fun i => pde_refs lo hi s d0 i q) (List.nodup_range _)
      (by simp [NPDENTRIES]; omega)
      (fun i _ hne => hother d0 hd0 i (Or.inr hne))
    dsimp only at e
    rw [hnew, hold] at e
    omega
  unfold total_refs
  have e := sum_map_point D d0
    (fun d => pdir_refs lo hi (walk_created L s d0 uva t r) d q)
    (fun d => pdir_refs lo hi s d q) hD hd0
    (by
      intro d hd hne
      dsimp only
      unfold pdir_refs
      exact sum_map_congr _ _ _ (fun i _ => hother d hd i (Or.inl hne)))
  dsimp only at e
  rw [hdir] at e
  omega

/-! ## Entries and the lookup -/

theorem entry_ref_word (f perm q : Nat) (hf : f < 2 ^ 20) (hperm : perm < 4096) :
    entry_ref (pte_word f perm) q = if q = f then 1 else 0 := by
  obtain ⟨h1, h2, _⟩ := pte_word_facts f perm hf hperm
  unfold entry_ref
  rw [h2, PPN_eq]
  have e1 : f * 4096 / 4096 = f := by omega
  rw [e1]
  by_cases hq : q = f
  · rw [if_pos hq, if_pos ⟨h1, hq.symm⟩]
  · rw [if_neg hq, if_neg (fun hc => hq hc.2.symm)]

theorem entry_ref_of_lookup (L : Nat) (s : State) (pdir uva g q : Nat)
    (hg : (pmap_lookup L s pdir uva).1 = some g) :
    entry_ref (s.mem (slot_ptr L s pdir uva)) q = if q = g then 1 else 0 := by
  obtain ⟨_, hP, _, he, _⟩ := lookup_some L s pdir uva g hg
  rw [mem_phys2pi_eq, ← PPN_eq] at he
  unfold entry_ref
  by_cases hq : q = g
  · rw [if_pos hq, if_pos ⟨hP, by rw [hq, he]⟩]
  · rw [if_neg hq, if_neg (fun hc => hq (by rw [he, hc.2]))]

theorem entry_ref_of_none (L : Nat) (s : State) (pdir uva q : Nat)
    (hp : s.mem (pde_ptr L pdir uva) &&& PTE_P ≠ 0) (hz : slot_ptr L s pdir uva ≠ 0)
    (hn : (pmap_lookup L s pdir uva).1 = none) (hq : q < s.mem_npage) :
    entry_ref (s.mem (slot_ptr L s pdir uva)) q = 0 := by
  unfold entry_ref
  rw [if_neg]
  rintro ⟨hP, he⟩
  have := lookup_of_entry L s pdir uva hp hz hP (by rw [he]; exact hq)
  rw [this] at hn
  cases hn

theorem lookup_some_lt (L : Nat) (s : State) (pdir uva g : Nat)
    (hg : (pmap_lookup L s pdir uva).1 = some g) : g < s.mem_npage := by
  obtain ⟨_, _, hr, he, _⟩ := lookup_some L s pdir uva g hg
  rw [he, mem_phys2pi_eq]
  rw [PPN_eq] at hr
  exact hr

/-- In a well-formed layout, a state whose memory is that of `s` with the
slot of `uva` rewritten has the references of `s` corrected by the
difference between the new and the old word of the slot. -/
theorem total_refs_slot (lo hi L : Nat) (s s2 : State) (D : List Nat) (pdir uva v q : Nat)
    (hs : DirsOK lo hi s D) (hd : pdir ∈ D)
    (hlo : lo ≤ PDX (linaddr L uva)) (hhi : PDX (linaddr L uva) < hi)
    (hp : s.mem (pde_ptr L pdir uva) &&& PTE_P ≠ 0)
    (hmem : s2.mem = (s.write (slot_ptr L s pdir uva) v).mem) :
    total_refs lo hi s2 D q + entry_ref (s.mem (slot_ptr L s pdir uva)) q
      = total_refs lo hi s D q + entry_ref v q := by
  rw [total_refs_congr_mem lo hi _ s2 D q hmem]
  exact total_refs_write_slot lo hi s D pdir (PDX (linaddr L uva)) (PTX (linaddr L uva)) v q
    hs.hi_le hs.nodup hs.aligned hd hlo hhi hp (PTX_lt _)
    (fun d hd2 => hs.table_not_dir pdir hd _ hlo hhi hp d hd2)
    (fun d hd2 i h1 h2 h3 hne =>
      hs.tables_distinct d hd2 pdir hd i _ h1 h2 hlo hhi h3 hp hne)

/-- A frame named by the slot of `uva` has at least one reference. -/
theorem total_refs_pos_of_lookup (lo hi L : Nat) (s : State) (D : List Nat) (pdir uva g : Nat)
    (hs : DirsOK lo hi s D) (hd : pdir ∈ D)
    (hlo : lo ≤ PDX (linaddr L uva)) (hhi : PDX (linaddr L uva) < hi)
    (hg : (pmap_lookup L s pdir uva).1 = some g) :
    1 ≤ total_refs lo hi s D g := by
  obtain ⟨hp, _⟩ := lookup_some L s pdir uva g hg
  have e := total_refs_slot lo hi L s (s.write (slot_ptr L s pdir uva) 0) D pdir uva 0 g
    hs hd hlo hhi hp rfl
  rw [entry_ref_of_lookup L s pdir uva g g hg, if_pos rfl, entry_ref_zero] at e
  omega

/-- A free frame of a state that satisfies the invariant is the table of no
counted directory entry. -/
theorem free_not_table (lo hi : Nat) (s : State) (D : List Nat) (t : Nat)
    (hhi : hi ≤ 1024) (h0 : total_refs lo hi s D t = 0) :
    ∀ d ∈ D, ∀ i, lo ≤ i → i < hi → s.mem (d + 4 * i) &&& PTE_P ≠ 0 →
      PTE_ADDR (s.mem (d + 4 * i)) ≠ t * 4096 := by
  intro d hd i h1 h2 hp hc
  unfold total_refs at h0
  have e1 : pdir_refs lo hi s d t = 0 := sum_map_eq_zero D _ h0 d hd
  unfold pdir_refs at e1
  have e2 : pde_refs lo hi s d i t = 0 :=
    sum_map_eq_zero _ _ e1 i (by simp [NPDENTRIES]; omega)
  unfold pde_refs at e2
  rw [if_pos ⟨h1, h2, hp⟩] at e2
  have e3 : entry_ref (s.mem (d + 4 * i)) t = 1 := by
    unfold entry_ref
    rw [if_pos]
    refine ⟨hp, ?_⟩
    rw [hc, PPN_eq]
    omega
  omega

/-! ## The invariant is kept -/

/-- Insert with an absent directory entry and a free frame `t` whose page is
not the directory page. -/
theorem insert_created_min (L : Nat) (s : State) (pdir pi uva perm t : Nat) (r : List Nat)
    (ht : t < 1048576) (hne : t * 4096 ≠ pdir) (hal : pdir % 4096 = 0)
    (h : s.mem (pde_ptr L pdir uva) &&& PTE_P = 0) (hf : s.mem_freelist = t :: r)
    (hnz : t * 4096 + 4 * PTX (linaddr L uva) ≠ 0) :
    pmap_insert L s pdir pi uva perm =
      ((mem_incref (walk_created L s pdir uva t r) pi).write
          (t * 4096 + 4 * PTX (linaddr L uva)) (pte_word pi perm),
        some (t * 4096 + 4 * PTX (linaddr L uva))) ∧
    (walk_created L s pdir uva t r).mem (pde_ptr L pdir uva) = t * 4096 + 7 ∧
    (walk_created L s pdir uva t r).mem (t * 4096 + 4 * PTX (linaddr L uva)) = 0 := by
  have hphys : mem_pi2phys t = t * 4096 := by rw [mem_pi2phys_eq]; omega
  have hptr : mem_pi2ptr t = t * 4096 := by rw [mem_pi2ptr, mem_ptr, hphys]
  have h4 := PTX_lt (linaddr L uva)
  have h5 := PDX_lt (linaddr L uva)
  have hslot : t * 4096 + 4 * PTX (linaddr L uva) ≠ pde_ptr L pdir uva := by
    unfold pde_ptr
    omega
  have hz : (walk_created L s pdir uva t r).mem (t * 4096 + 4 * PTX (linaddr L uva)) = 0 := by
    rw [walk_created_mem, if_neg hslot, hptr, if_pos]
    unfold PAGESIZE
    omega
  refine ⟨?_, ?_, hz⟩
  · unfold pmap_insert
    rw [walk_absent_cons L s pdir uva t r h hf, hptr]
    dsimp only
    rw [if_neg hnz, if_neg]
    intro hc
    refine hc ?_
    change (walk_created L s pdir uva t r).mem _ &&& PTE_P = 0
    rw [hz]
    simp
  · rw [walk_created_mem, if_pos rfl, pde_word_eq t (by simpa using ht)]

/-- A creating walk that takes frame `t` keeps the reference-count
invariant: the table frame gets its one hold. -/
theorem refinv_walk_created (lo hi L : Nat) (s : State) (D : List Nat) (pdir uva t : Nat)
    (r : List Nat) (hs : DirsOK lo hi s D) (hinv : RefInv lo hi s D)
    (hd : pdir ∈ D) (hlo : lo ≤ PDX (linaddr L uva)) (hhi : PDX (linaddr L uva) < hi)
    (habs : s.mem (pde_ptr L pdir uva) &&& PTE_P = 0) (hf : s.mem_freelist = t :: r) :
    RefInv lo hi (walk_created L s pdir uva t r) D := by
  have htm : t ∈ s.mem_freelist := by simp [hf]
  have ht : t < 1048576 := by
    have := Nat.lt_of_lt_of_le (hs.free_lt t htm) hs.npage_le
    simpa using this
  have hphys : mem_pi2phys t = t * 4096 := by rw [mem_pi2phys_eq]; omega
  have htd : ∀ d ∈ D, t * 4096 ≠ d := fun d hd2 => hphys ▸ hs.free_not_dir t htm d hd2
  have htt := free_not_table lo hi s D t hs.hi_le (hinv.free t htm).2
  have hsub : ∀ q ∈ r, q ∈ s.mem_freelist := fun q hq => by simp [hf, hq]
  have hnd2 : t ∉ r ∧ r.Nodup := by
    have := hs.free_nodup
    rw [hf] at this
    exact List.nodup_cons.mp this
  constructor
  · intro q hq
    rw [walk_created_npage] at hq
    rw [walk_created_refcount, total_refs_walk_created lo hi L s D pdir uva t r q hs.hi_le
      hs.nodup hs.aligned hd hlo hhi habs ht htd htt hs.table_not_dir, hinv.count q hq]
    split_ifs <;> simp
  · intro q hq
    rw [walk_created_freelist] at hq
    have hqt : q ≠ t := fun e => hnd2.1 (e ▸ hq)
    obtain ⟨h1, h2⟩ := hinv.free q (hsub q hq)
    rw [walk_created_refcount, total_refs_walk_created lo hi L s D pdir uva t r q hs.hi_le
      hs.nodup hs.aligned hd hlo hhi habs ht htd htt hs.table_not_dir, if_neg hqt, if_neg hqt]
    exact ⟨h1, by omega⟩

/-- A creating walk leaves the other directory entries of all directories
as they were. -/
theorem walk_created_other (L : Nat) (s : State) (d0 uva t : Nat) (r : List Nat) (d i : Nat)
    (ht : t < 1048576) (hal : d % 4096 = 0) (hal0 : d0 % 4096 = 0) (htd : t * 4096 ≠ d)
    (hi : i < 1024) (hne : d ≠ d0 ∨ i ≠ PDX (linaddr L uva)) :
    (walk_created L s d0 uva t r).mem (d + 4 * i) = s.mem (d + 4 * i) := by
  have hphys : mem_pi2phys t = t * 4096 := by rw [mem_pi2phys_eq]; omega
  have hptr : mem_pi2ptr t = t * 4096 := by rw [mem_pi2ptr, mem_ptr, hphys]
  have h5 := PDX_lt (linaddr L uva)
  rw [walk_created_mem, hptr, if_neg, if_neg]
  · unfold PAGESIZE; omega
  · unfold pde_ptr; omega

theorem refinv_remove (lo hi L : Nat) (s : State) (D : List Nat) (pdir uva : Nat)
    (hs : DirsOK lo hi s D) (hinv : RefInv lo hi s D) (hd : pdir ∈ D)
    (hlo : lo ≤ PDX (linaddr L uva)) (hhi : PDX (linaddr L uva) < hi) :
    RefInv lo hi (pmap_remove L s pdir uva) D := by
  cases hl : (pmap_lookup L s pdir uva).1 with
  | none => rw [remove_of_none L s pdir uva hl]; exact hinv
  | some g =>
    obtain ⟨hp, _, _, _, he⟩ := lookup_some L s pdir uva g hl
    rw [remove_of_lookup L s pdir uva g _ he]
    have hg := lookup_some_lt L s pdir uva g hl
    have hpos := total_refs_pos_of_lookup lo hi L s D pdir uva g hs hd hlo hhi hl
    have hcg := hinv.count g hg
    have hT : ∀ q, total_refs lo hi
        (mem_decref (pmap_invl L (s.write (slot_ptr L s pdir uva) 0) pdir uva) g) D q
          + (if q = g then 1 else 0) = total_refs lo hi s D q := by
      intro q
      have e := total_refs_slot lo hi L s
        (mem_decref (pmap_invl L (s.write (slot_ptr L s pdir uva) 0) pdir uva) g)
        D pdir uva 0 q hs hd hlo hhi hp (by simp)
      rw [entry_ref_of_lookup L s pdir uva g q hl, entry_ref_zero] at e
      omega
    have hR : ∀ q, (mem_decref (pmap_invl L (s.write (slot_ptr L s pdir uva) 0) pdir uva)
        g).refcount q = s.refcount q - (if q = g then 1 else 0) := by
      intro q
      simp only [decref_refcount, invl_refcount, write_refcount]
      split <;> omega
    have hfl : (mem_decref (pmap_invl L (s.write (slot_ptr L s pdir uva) 0) pdir uva)
        g).mem_freelist = if s.refcount g = 1 then g :: s.mem_freelist else s.mem_freelist := by
      rw [decref_freelist]
      simp
    have hold : ∀ q ∈ s.mem_freelist, q ≠ g := by
      intro q hq hc
      have := (hinv.free q hq).1
      rw [hc] at this
      omega
    constructor
    · intro q hq
      have hq2 : q < s.mem_npage := by simpa using hq
      have h1 := hinv.count q hq2
      have h2 := hT q
      rw [hR q]
      by_cases hqg : q = g
      · rw [if_pos hqg] at h2 ⊢; omega
      · rw [if_neg hqg] at h2 ⊢; omega
    · intro q hq
      rw [hfl] at hq
      have h2 := hT q
      rw [hR q]
      by_cases h1 : s.refcount g = 1
      · rw [if_pos h1] at hq
        rcases List.mem_cons.mp hq with hqg | hqo
        · rw [if_pos hqg] at h2 ⊢
          rw [hqg] at h2 ⊢
          constructor <;> omega
        · have hne := hold q hqo
          have h3 := hinv.free q hqo
          rw [if_neg hne] at h2 ⊢
          constructor <;> omega
      · rw [if_neg h1] at hq
        have hne := hold q hq
        have h3 := hinv.free q hq
        rw [if_neg hne] at h2 ⊢
        constructor <;> omega

theorem refinv_insert (lo hi L : Nat) (s : State) (D : List Nat) (pdir f uva perm : Nat)
    (hs : DirsOK lo hi s D) (hinv : RefInv lo hi s D) (hd : pdir ∈ D)
    (hlo : lo ≤ PDX (linaddr L uva)) (hhi : PDX (linaddr L uva) < hi)
    (hf : f < s.mem_npage) (hfree : f ∉ s.mem_freelist) (hperm : perm < 4096) :
    RefInv lo hi (pmap_insert L s pdir f uva perm).1 D := by
  have hf20 : f < 2 ^ 20 := Nat.lt_of_lt_of_le hf hs.npage_le
  have hw : ∀ q, entry_ref (pte_word f perm) q = if q = f then 1 else 0 :=
    fun q => entry_ref_word f perm q hf20 hperm
  have hnf : ∀ q ∈ s.mem_freelist, q ≠ f := fun q hq hc => hfree (hc ▸ hq)
  by_cases h : s.mem (pde_ptr L pdir uva) &&& PTE_P = 0
  · cases hfl : s.mem_freelist with
    | nil =>
      rw [insert_nomem L s pdir f uva perm h hfl]
      exact hinv
    | cons t r =>
      have htm : t ∈ s.mem_freelist := by simp [hfl]
      have ht : t < 1048576 := by
        have := Nat.lt_of_lt_of_le (hs.free_lt t htm) hs.npage_le
        simpa using this
      have hphys : mem_pi2phys t = t * 4096 := by rw [mem_pi2phys_eq]; omega
      have htd : ∀ d ∈ D, t * 4096 ≠ d := by
        intro d hd2
        have := hs.free_not_dir t htm d hd2
        rw [hphys] at this
        exact this
      have h0 := (hinv.free t htm).2
      have htt := free_not_table lo hi s D t hs.hi_le h0
      have hal := hs.aligned pdir hd
      have hptr : mem_pi2ptr t = t * 4096 := by rw [mem_pi2ptr, mem_ptr, hphys]
      by_cases hnz : t * 4096 + 4 * PTX (linaddr L uva) = 0
      · rw [insert_created_null L s pdir f uva perm t r h hfl (by rw [hptr]; exact hnz)]
        exact refinv_walk_created lo hi L s D pdir uva t r hs hinv hd hlo hhi h hfl
      obtain ⟨he, hpde, hz⟩ := insert_created_min L s pdir f uva perm t r ht (htd pdir hd)
        hal h hfl hnz
      rw [he]
      dsimp only
      have hTT : PTE_ADDR ((walk_created L s pdir uva t r).mem (pdir + 4 * PDX (linaddr L uva)))
          = t * 4096 := by
        change PTE_ADDR ((walk_created L s pdir uva t r).mem (pde_ptr L pdir uva)) = _
        rw [hpde, PTE_ADDR_eq]; omega
      have hPw : (walk_created L s pdir uva t r).mem (pdir + 4 * PDX (linaddr L uva))
          &&& PTE_P ≠ 0 := by
        change (walk_created L s pdir uva t r).mem (pde_ptr L pdir uva) &&& PTE_P ≠ 0
        rw [hpde, and_PTE_P]; omega
      have hC : ∀ q, total_refs lo hi (walk_created L s pdir uva t r) D q
          = total_refs lo hi s D q + (if q = t then 1 else 0) :=
        fun q => total_refs_walk_created lo hi L s D pdir uva t r q hs.hi_le hs.nodup
          hs.aligned hd hlo hhi h ht htd htt hs.table_not_dir
      have hB : ∀ q, total_refs lo hi ((mem_incref (walk_created L s pdir uva t r) f).write
          (t * 4096 + 4 * PTX (linaddr L uva)) (pte_word f perm)) D q
          = total_refs lo hi s D q + (if q = t then 1 else 0) + (if q = f then 1 else 0) := by
        intro q
        have e := total_refs_write_slot lo hi (walk_created L s pdir uva t r) D pdir
          (PDX (linaddr L uva)) (PTX (linaddr L uva)) (pte_word f perm) q
          hs.hi_le hs.nodup hs.aligned hd hlo hhi hPw (PTX_lt _)
          (by rw [hTT]; exact htd)
          (by
            intro d hd2 i h1 h2 h3 hne
            rw [hTT]
            have hi' : i < 1024 := Nat.lt_of_lt_of_le h2 hs.hi_le
            have eo := walk_created_other L s pdir uva t r d i ht (hs.aligned d hd2) hal
              (htd d hd2) hi' hne
            rw [eo] at h3 ⊢
            exact htt d hd2 i h1 h2 h3)
        rw [hTT, hz, entry_ref_zero, hw q, hC q] at e
        have ec := total_refs_congr_mem lo hi ((walk_created L s pdir uva t r).write
          (t * 4096 + 4 * PTX (linaddr L uva)) (pte_word f perm))
          ((mem_incref (walk_created L s pdir uva t r) f).write
          (t * 4096 + 4 * PTX (linaddr L uva)) (pte_word f perm)) D q rfl
        rw [ec]
        omega
      have hft : f ≠ t := fun hc => hfree (hc ▸ htm)
      have hR : ∀ q, ((mem_incref (walk_created L s pdir uva t r) f).write
          (t * 4096 + 4 * PTX (linaddr L uva)) (pte_word f perm)).refcount q
          = s.refcount q + (if q = t then 1 else 0) + (if q = f then 1 else 0) := by
        intro q
        rw [write_refcount, incref_refcount, walk_created_refcount]
        by_cases hqf : q = f
        · have hqt : q ≠ t := fun hc => hft (hqf ▸ hc)
          rw [if_pos hqf, if_neg hqt, if_neg hqt, if_pos hqf]; omega
        · rw [if_neg hqf, if_neg hqf]
          split <;> omega
      have hnd := hs.free_nodup
      rw [hfl] at hnd
      have htr : t ∉ r := (List.nodup_cons.mp hnd).1
      constructor
      · intro q hq
        have hq2 : q < s.mem_npage := hq
        have h1 := hinv.count q hq2
        rw [hR q, hB q]
        push_cast
        omega
      · intro q hq
        have hq2 : q ∈ r := hq
        have hqm : q ∈ s.mem_freelist := by rw [hfl]; exact List.mem_cons_of_mem t hq2
        have hqt : q ≠ t := fun hc => htr (hc ▸ hq2)
        have hqf := hnf q hqm
        have h3 := hinv.free q hqm
        rw [hR q, hB q, if_neg hqt, if_neg hqf, if_neg hqt, if_neg hqf]
        constructor <;> omega
  · by_cases hnz : slot_ptr L s pdir uva = 0
    · rw [insert_null L s pdir f uva perm h hnz]
      exact hinv
    cases hl : (pmap_lookup L s pdir uva).1 with
    | none =>
      rw [insert_present_unmapped L s pdir f uva perm h hnz hl]
      dsimp only
      have hT : ∀ q, q < s.mem_npage →
          total_refs lo hi ((mem_incref s f).write (slot_ptr L s pdir uva) (pte_word f perm))
            D q = total_refs lo hi s D q + (if q = f then 1 else 0) := by
        intro q hq
        have e := total_refs_slot lo hi L s
          ((mem_incref s f).write (slot_ptr L s pdir uva) (pte_word f perm))
          D pdir uva (pte_word f perm) q hs hd hlo hhi h rfl
        rw [entry_ref_of_none L s pdir uva q h hnz hl hq, hw q] at e
        omega
      have hR : ∀ q, ((mem_incref s f).write (slot_ptr L s pdir uva)
          (pte_word f perm)).refcount q = s.refcount q + (if q = f then 1 else 0) := by
        intro q
        rw [write_refcount, incref_refcount]
        split <;> omega
      constructor
      · intro q hq
        have hq2 : q < s.mem_npage := hq
        have h1 := hinv.count q hq2
        rw [hR q, hT q hq2]
        push_cast
        omega
      · intro q hq
        have hqm : q ∈ s.mem_freelist := hq
        have hqf := hnf q hqm
        have h3 := hinv.free q hqm
        rw [hR q, hT q (hs.free_lt q hqm), if_neg hqf, if_neg hqf]
        constructor <;> omega
    | some g =>
      rw [insert_present_mapped L s pdir f uva perm g hl]
      dsimp only
      have hg := lookup_some_lt L s pdir uva g hl
      have hpos := total_refs_pos_of_lookup lo hi L s D pdir uva g hs hd hlo hhi hl
      have hcg := hinv.count g hg
      have hT : ∀ q, total_refs lo hi ((mem_decref (pmap_invl L ((mem_incref s f).write
          (slot_ptr L s pdir uva) 0) pdir uva) g).write (slot_ptr L s pdir uva)
          (pte_word f perm)) D q + (if q = g then 1 else 0)
          = total_refs lo hi s D q + (if q = f then 1 else 0) := by
        intro q
        have e := total_refs_slot lo hi L s
          ((mem_decref (pmap_invl L ((mem_incref s f).write
            (slot_ptr L s pdir uva) 0) pdir uva) g).write (slot_ptr L s pdir uva)
            (pte_word f perm))
          D pdir uva (pte_word f perm) q hs hd hlo hhi h
          (by
            funext x
            simp only [write_mem, decref_mem, invl_mem, incref_mem]
            split_ifs <;> rfl)
        rw [entry_ref_of_lookup L s pdir uva g q hl, hw q] at e
        exact e
      have hR : ∀ q, ((mem_decref (pmap_invl L ((mem_incref s f).write
          (slot_ptr L s pdir uva) 0) pdir uva) g).write (slot_ptr L s pdir uva)
          (pte_word f perm)).refcount q
          = s.refcount q + (if q = f then 1 else 0) - (if q = g then 1 else 0) := by
        intro q
        simp only [write_refcount, decref_refcount, invl_refcount, incref_refcount]
        split_ifs <;> omega
      have hfl : ((mem_decref (pmap_invl L ((mem_incref s f).write
          (slot_ptr L s pdir uva) 0) pdir uva) g).write (slot_ptr L s pdir uva)
          (pte_word f perm)).mem_freelist
          = if s.refcount g + (if g = f then 1 else 0) = 1 then g :: s.mem_freelist
            else s.mem_freelist := by
        rw [write_freelist, decref_freelist]
        simp only [invl_refcount, write_refcount, incref_refcount, invl_freelist,
          write_freelist, incref_freelist]
        by_cases hgf : g = f <;> simp [hgf]
      have hold : ∀ q ∈ s.mem_freelist, q ≠ g := by
        intro q hq hc
        have := (hinv.free q hq).1
        rw [hc] at this
        omega
      constructor
      · intro q hq
        have hq2 : q < s.mem_npage := by simpa using hq
        have h1 := hinv.count q hq2
        have h2 := hT q
        rw [hR q]
        split_ifs at h2 ⊢ <;> omega
      · intro q hq
        rw [hfl] at hq
        have h2 := hT q
        rw [hR q]
        have hmain : q ≠ f → (q = g → s.refcount g = 1) → (q ≠ g → q ∈ s.mem_freelist) →
            ¬ (0 < s.refcount q + (if q = f then 1 else 0) - (if q = g then 1 else 0)) ∧
            total_refs lo hi ((mem_decref (pmap_invl L ((mem_incref s f).write
              (slot_ptr L s pdir uva) 0) pdir uva) g).write (slot_ptr L s pdir uva)
              (pte_word f perm)) D q = 0 := by
          intro hqf hqg1 hqg2
          rw [if_neg hqf] at h2 ⊢
          by_cases hqg : q = g
          · have h5 := hqg1 hqg
            rw [if_pos hqg] at h2 ⊢
            rw [hqg] at h2 ⊢
            constructor <;> omega
          · have h3 := hinv.free q (hqg2 hqg)
            rw [if_neg hqg] at h2 ⊢
            constructor <;> omega
        by_cases h1 : s.refcount g + (if g = f then 1 else 0) = 1
        · rw [if_pos h1] at hq
          have hgf : g ≠ f := by
            intro hc
            rw [if_pos hc] at h1
            omega
          rw [if_neg hgf] at h1
          rcases List.mem_cons.mp hq with hqg | hqo
          · exact hmain (by rw [hqg]; exact hgf) (fun _ => by omega) (fun hc => absurd hqg hc)
          · exact hmain (hnf q hqo) (fun hc => absurd hc (hold q hqo)) (fun _ => hqo)
        · rw [if_neg h1] at hq
          exact hmain (hnf q hq) (fun hc => absurd hc (hold q hq)) (fun _ => hq)

/-- In the directory of the running process, or with no process running,
`pmap_invl` logs the linear address of `uva`. -/
theorem invl_log_active (L : Nat) (s : State) (pdir uva : Nat)
    (hact : s.proc_cur = none ∨ s.proc_cur = some pdir) :
    (pmap_invl L s pdir uva).invlpg_log = ((L + uva) % 2 ^ 32) :: s.invlpg_log := by
  unfold pmap_invl
  rcases hact with h | h
  · rw [h]; rfl
  · rw [h]; simp [mem_ptr]

/-- Where `pmap_lookup` finds a frame at `uva`, both `pmap_remove` and a
`pmap_insert` over it invalidate the translation of `uva` in the directory
of the running process. -/
theorem valid_entry_invalidated (L : Nat) (s : State) (pdir f uva perm g : Nat)
    (hg : (pmap_lookup L s pdir uva).1 = some g)
    (hact : s.proc_cur = none ∨ s.proc_cur = some pdir) :
    (pmap_remove L s pdir uva).invlpg_log = ((L + uva) % 2 ^ 32) :: s.invlpg_log ∧
    (pmap_insert L s pdir f uva perm).1.invlpg_log
      = ((L + uva) % 2 ^ 32) :: s.invlpg_log := by
  obtain ⟨_, _, _, _, he⟩ := lookup_some L s pdir uva g hg
  constructor
  · rw [remove_of_lookup L s pdir uva g _ he, decref_log,
      invl_log_active L _ pdir uva (by simpa using hact), write_log]
  · rw [insert_present_mapped L s pdir f uva perm g hg]
    dsimp only
    rw [write_log, decref_log, invl_log_active L _ pdir uva (by simpa using hact),
      write_log, incref_log]

/-! ## The bootstrap loop -/

theorem init_loop_tail (LU LH pdir : Nat) : ∀ (n fuel i : Nat) (s : State) (w : List Nat),
    i + n = NPDENTRIES → PDX LU < i → n < fuel →
    ∃ s1, pmap_init_loop LU LH pdir fuel i s w = some (s1, w ++ List.range' i n) ∧
      (∀ j, i ≤ j → j < NPDENTRIES → s1.mem (pdir + 4 * j) = boot_pde j) ∧
      (∀ x, (∀ j, i ≤ j → j < NPDENTRIES → x ≠ pdir + 4 * j) → s1.mem x = s.mem x) ∧
      s1 = { s with mem := s1.mem } := by
  intro n
  induction n with
  | zero =>
    intro fuel i s w hi hU hf
    obtain ⟨f, rfl⟩ : ∃ f, fuel = f + 1 := ⟨fuel - 1, by omega⟩
    refine ⟨s, ?_, ?_, ?_, rfl⟩
    · unfold pmap_init_loop
      rw [if_neg (by omega)]
      simp
    · intro j h1 h2; omega
    · intro x _; rfl
  | succ n ih =>
    intro fuel i s w hi hU hf
    obtain ⟨f, rfl⟩ : ∃ f, fuel = f + 1 := ⟨fuel - 1, by omega⟩
    obtain ⟨s1, h1, h2, h3, h4⟩ := ih f (i + 1)
      (s.write (pdir + 4 * i) (boot_pde i)) (w ++ [i]) (by omega) (by omega) (by omega)
    refine ⟨s1, ?_, ?_, ?_, ?_⟩
    · unfold pmap_init_loop
      rw [if_pos (by omega)]
      dsimp only
      rw [if_neg (by omega), h1]
      simp [List.range'_succ]
    · intro j hj1 hj2
      by_cases hji : j = i
      · subst hji
        rw [h3 _ (by intro k hk1 hk2; omega)]
        simp [State.write]
      · exact h2 j (by omega) hj2
    · intro x hx
      rw [h3 x (fun j hj1 hj2 => hx j (by omega) hj2)]
      have := hx i (le_refl _) (by omega)
      simp [State.write, this]
    · rw [h4]
      simp [State.write]

theorem init_loop_head (LU LH pdir : Nat) (hUH : PDX LU ≤ PDX LH) :
    ∀ (m fuel i : Nat) (s : State) (w : List Nat),
    i + m = PDX LU → m + (NPDENTRIES - PDX LH) < fuel →
    ∃ s1, pmap_init_loop LU LH pdir fuel i s w
        = some (s1, w ++ List.range' i m ++ List.range' (PDX LH) (NPDENTRIES - PDX LH)) ∧
      (∀ j, (i ≤ j ∧ j < PDX LU) ∨ (PDX LH ≤ j ∧ j < NPDENTRIES) →
        s1.mem (pdir + 4 * j) = boot_pde j) ∧
      (∀ x, (∀ j, (i ≤ j ∧ j < PDX LU) ∨ (PDX LH ≤ j ∧ j < NPDENTRIES) → x ≠ pdir + 4 * j) →
        s1.mem x = s.mem x) ∧
      s1 = { s with mem := s1.mem } := by
  have hH : PDX LH < NPDENTRIES := PDX_lt LH
  have hU : PDX LU < NPDENTRIES := PDX_lt LU
  intro m
  induction m with
  | zero =>
    intro fuel i s w hi hf
    obtain ⟨f, rfl⟩ : ∃ f, fuel = f + 1 := ⟨fuel - 1, by omega⟩
    have hiU : i = PDX LU := by omega
    obtain ⟨s1, h1, h2, h3, h4⟩ := init_loop_tail LU LH pdir (NPDENTRIES - PDX LH - 1) f
      (PDX LH + 1) (s.write (pdir + 4 * PDX LH) (boot_pde (PDX LH))) (w ++ [PDX LH])
      (by omega) (by omega) (by omega)
    refine ⟨s1, ?_, ?_, ?_, ?_⟩
    · unfold pmap_init_loop
      rw [if_pos (by omega)]
      dsimp only
      rw [if_pos hiU, h1]
      have e : NPDENTRIES - PDX LH = (NPDENTRIES - PDX LH - 1) + 1 := by omega
      rw [e, List.range'_succ]
      simp
    · intro j hj
      have hj2 : PDX LH ≤ j ∧ j < NPDENTRIES := by omega
      by_cases hjH : j = PDX LH
      · subst hjH
        rw [h3 _ (by intro k hk1 hk2; omega)]
        simp [State.write]
      · exact h2 j (by omega) hj2.2
    · intro x hx
      rw [h3 x (fun j hj1 hj2 => hx j (Or.inr ⟨by omega, hj2⟩))]
      have := hx (PDX LH) (Or.inr ⟨le_refl _, hH⟩)
      simp [State.write, this]
    · rw [h4]
      simp [State.write]
  | succ m ih =>
    intro fuel i s w hi hf
    obtain ⟨f, rfl⟩ : ∃ f, fuel = f + 1 := ⟨fuel - 1, by omega⟩
    obtain ⟨s1, h1, h2, h3, h4⟩ := ih f (i + 1)
      (s.write (pdir + 4 * i) (boot_pde i)) (w ++ [i]) (by omega) (by omega)
    refine ⟨s1, ?_, ?_, ?_, ?_⟩
    · unfold pmap_init_loop
      rw [if_pos (by omega)]
      dsimp only
      rw [if_neg (by omega), h1]
      simp [List.range'_succ]
    · intro j hj
      by_cases hji : j = i
      · subst hji
        rw [h3 _ (by intro k hk; omega)]
        simp [State.write]
      · exact h2 j (by omega)
    · intro x hx
      rw [h3 x (fun j hj => hx j (by omega))]
      have := hx i (Or.inl ⟨le_refl _, by omega⟩)
      simp [State.write, this]
    · rw [h4]
      simp [State.write]

/-- The loop from index 0: it ends, and the result in closed form. -/
theorem init_loop_run (LU LH pdir : Nat) (s : State) (fuel : Nat)
    (hUH : PDX LU ≤ PDX LH) (hfuel : NPDENTRIES < fuel) :
    ∃ s1, pmap_init_loop LU LH pdir fuel 0 s []
        = some (s1, List.range (PDX LU) ++ List.range' (PDX LH) (NPDENTRIES - PDX LH)) ∧
      (∀ j, j < NPDENTRIES → ¬ (PDX LU ≤ j ∧ j < PDX LH) →
        s1.mem (pdir + 4 * j) = boot_pde j) ∧
      (∀ x, (∀ j, j < NPDENTRIES → ¬ (PDX LU ≤ j ∧ j < PDX LH) → x ≠ pdir + 4 * j) →
        s1.mem x = s.mem x) ∧
      s1 = { s with mem := s1.mem } := by
  have hH : PDX LH < NPDENTRIES := PDX_lt LH
  obtain ⟨s1, h1, h2, h3, h4⟩ := init_loop_head LU LH pdir hUH (PDX LU) fuel 0 s []
    (by omega) (by omega)
  refine ⟨s1, ?_, ?_, ?_, h4⟩
  · rw [h1, List.range_eq_range']
    simp
  · intro j hj hn
    exact h2 j (by omega)
  · intro x hx
    exact h3 x (fun j hj => hx j (by omega) (by omega))

theorem boot_word_eq (i : Nat) :
    (i <<< PDXSHIFT) ||| PTE_P ||| PTE_W ||| PTE_PS ||| PTE_G = i * 4194304 + 0x183 := by
  have h1 : i <<< PDXSHIFT = 2 ^ 22 * i := by
    simp [PDXSHIFT, Nat.shiftLeft_eq, Nat.mul_comm]
  have e : (1 ||| 2 ||| 0x80 ||| 0x100 : Nat) = 0x183 := by decide
  rw [h1, PTE_P, PTE_W, PTE_PS, PTE_G, Nat.or_assoc, Nat.or_assoc, Nat.or_assoc,
    ← Nat.or_assoc 2 0x80 0x100, ← Nat.or_assoc 1 (2 ||| 0x80) 0x100, ← Nat.or_assoc 1 2 0x80, e,
    ← Nat.mul_add_lt_is_or (by decide : 0x183 < 2 ^ 22)]
  omega

theorem boot_pde_eq (i : Nat) (hi : i < NPDENTRIES) : boot_pde i = i * 4194304 + 0x183 := by
  unfold boot_pde
  rw [boot_word_eq]
  simp only [NPDENTRIES] at hi
  omega

/-- A single flag bit of a word, by division. -/
theorem and_two_pow_ne (x k : Nat) (h : x / 2 ^ k % 2 = 1) : x &&& 2 ^ k ≠ 0 := by
  rw [Nat.and_two_pow, Nat.testBit_to_div_mod]
  simp [h]

theorem superpage_base_eq (x : Nat) : x &&& 0xFFC00000 = x % 4294967296 / 4194304 * 4194304 := by
  have h1 : x % 4294967296 / 4194304 * 4194304 = ((x % 2 ^ 32) >>> 22) <<< 22 := by
    simp [Nat.shiftRight_eq_div_pow, Nat.shiftLeft_eq]
  have h2 : (0xFFC00000 : Nat) = (2 ^ 10 - 1) <<< 22 := by decide
  rw [h1, h2]
  apply Nat.eq_of_testBit_eq
  intro i
  simp only [Nat.testBit_and, Nat.testBit_shiftLeft, Nat.testBit_shiftRight,
    Nat.testBit_mod_two_pow, Nat.testBit_two_pow_sub_one]
  by_cases h : 22 ≤ i
  · have e : 22 + (i - 22) = i := by omega
    simp only [e, h, decide_True, Bool.true_and, ge_iff_le]
    by_cases h3 : i < 32
    · have : i - 22 < 10 := by omega
      simp [h3, this]
    · have : ¬ (i - 22 < 10) := by omega
      simp [h3, this]
  · simp [h]

theorem superpage_pa_eq (pde la : Nat) :
    superpage_pa pde la = pde % 4294967296 / 4194304 * 4194304 + la % 4194304 := by
  have h := Nat.and_pow_two_sub_one_eq_mod la 22
  have h2 : (la &&& 0x3FFFFF) = la % 4194304 := by simpa using h
  have h3 : la % 4194304 < 2 ^ 22 := by omega
  have h4 := Nat.mul_add_lt_is_or h3 (pde % 4294967296 / 4194304)
  norm_num at h4
  unfold superpage_pa
  rw [superpage_base_eq, h2, Nat.mul_comm, ← h4]

/-- What a bootstrap entry is to the MMU. -/
theorem boot_pde_facts (i : Nat) (hi : i < NPDENTRIES) :
    boot_pde i = (i <<< PDXSHIFT) ||| PTE_P ||| PTE_W ||| PTE_PS ||| PTE_G ∧
      boot_pde i &&& PTE_P ≠ 0 ∧ boot_pde i &&& PTE_W ≠ 0 ∧ boot_pde i &&& PTE_PS ≠ 0 ∧
      boot_pde i &&& PTE_G ≠ 0 ∧
      ∀ la, la < 2 ^ 32 → PDX la = i → superpage_pa (boot_pde i) la = la := by
  have hb := boot_pde_eq i hi
  simp only [NPDENTRIES] at hi
  refine ⟨?_, ?_, ?_, ?_, ?_, ?_⟩
  · rw [hb, boot_word_eq]
  · rw [and_PTE_P, hb]; omega
  · exact and_two_pow_ne _ 1 (by rw [hb]; omega)
  · exact and_two_pow_ne _ 7 (by rw [hb]; omega)
  · exact and_two_pow_ne _ 8 (by rw [hb]; omega)
  · intro la hla hpdx
    rw [PDX_eq] at hpdx
    rw [superpage_pa_eq, hb]
    omega

/-- Without the order of the two constants the loop need not end: when
`PDX(PMAP_LINHIGH) < PDX(PMAP_LINUSER)` the index is thrown back each time
it reaches `PDX(PMAP_LINUSER)`, and no bound on the tests suffices. -/
theorem init_loop_diverges (LU LH pdir : Nat) (hHU : PDX LH < PDX LU) :
    ∀ (fuel i : Nat) (s : State) (w : List Nat), i ≤ PDX LU →
      pmap_init_loop LU LH pdir fuel i s w = none := by
  have hU : PDX LU < NPDENTRIES := PDX_lt LU
  intro fuel
  induction fuel with
  | zero => intro i s w _; rfl
  | succ f ih =>
    intro i s w hi
    unfold pmap_init_loop
    rw [if_pos (by omega)]
    dsimp only
    by_cases h : i = PDX LU
    · rw [if_pos h]
      exact ih _ _ _ (by omega)
    · rw [if_neg h]
      exact ih _ _ _ (by omega)

/-! ## Words an operation does not depend on -/

theorem sameoff_write (K : Nat → Prop) (s s2 : State) (h : SameOff K s s2) (a v : Nat) :
    SameOff K (s.write a v) (s2.write a v) := by
  refine ⟨?_, h.refcount, h.freelist, h.npage, h.cur, h.log⟩
  intro x hx
  simp only [write_mem]
  rw [h.mem x hx]

theorem sameoff_incref (K : Nat → Prop) (s s2 : State) (h : SameOff K s s2) (p : Nat) :
    SameOff K (mem_incref s p) (mem_incref s2 p) := by
  refine ⟨h.mem, ?_, h.freelist, h.npage, h.cur, h.log⟩
  funext q
  simp only [incref_refcount, h.refcount]

theorem sameoff_invl (K : Nat → Prop) (L : Nat) (s s2 : State) (h : SameOff K s s2)
    (d a : Nat) : SameOff K (pmap_invl L s d a) (pmap_invl L s2 d a) := by
  have hc := h.cur
  have hl := h.log
  refine ⟨by simpa using h.mem, by simpa using h.refcount, by simpa using h.freelist,
    by simpa using h.npage, by simpa using h.cur, ?_⟩
  unfold pmap_invl
  rw [hc]
  cases s.proc_cur with
  | none => simp [hl]
  | some p =>
    by_cases hp : p = d
    · simp [hp, hl]
    · simp [hp, hl]

theorem sameoff_decref (K : Nat → Prop) (s s2 : State) (h : SameOff K s s2) (p : Nat) :
    SameOff K (mem_decref s p) (mem_decref s2 p) := by
  refine ⟨by simpa using h.mem, ?_, ?_, by simpa using h.npage, by simpa using h.cur,
    by simpa using h.log⟩
  · funext q
    simp only [decref_refcount, h.refcount]
  · rw [decref_freelist, decref_freelist, h.refcount, h.freelist]

theorem sameoff_walk_created (K : Nat → Prop) (L : Nat) (s s2 : State) (h : SameOff K s s2)
    (pdir uva t : Nat) (r : List Nat) :
    SameOff K (walk_created L s pdir uva t r) (walk_created L s2 pdir uva t r) := by
  refine ⟨?_, ?_, ?_, ?_, h.cur, h.log⟩
  rotate_left 2
  · rw [walk_created_freelist, walk_created_freelist]
  · rw [walk_created_npage, walk_created_npage, h.npage]
  · intro x hx
    simp only [walk_created_mem]
    rw [h.mem x hx]
  · funext q
    simp only [walk_created_refcount, h.refcount]

/-- The walk depends on no word but the directory entry of `uva`. -/
theorem sameoff_walk (K : Nat → Prop) (L : Nat) (s s2 : State) (pdir uva : Nat) (c : Bool)
    (h : SameOff K s s2) (hp : ¬ K (pde_ptr L pdir uva)) :
    (pmap_walk L s2 pdir uva c).2 = (pmap_walk L s pdir uva c).2 ∧
      SameOff K (pmap_walk L s pdir uva c).1 (pmap_walk L s2 pdir uva c).1 := by
  have e := h.mem _ hp
  by_cases hP : s.mem (pde_ptr L pdir uva) &&& PTE_P ≠ 0
  · rw [walk_present L s pdir uva c hP, walk_present L s2 pdir uva c (by rw [e]; exact hP),
      slot_ptr_congr L s s2 pdir uva e]
    exact ⟨rfl, h⟩
  · have hP0 : s.mem (pde_ptr L pdir uva) &&& PTE_P = 0 := not_not.mp hP
    have hP2 : s2.mem (pde_ptr L pdir uva) &&& PTE_P = 0 := by rw [e]; exact hP0
    cases c with
    | false =>
      rw [walk_absent_nocreate L s pdir uva hP0, walk_absent_nocreate L s2 pdir uva hP2]
      exact ⟨rfl, h⟩
    | true =>
      cases hf : s.mem_freelist with
      | nil =>
        rw [walk_absent_nil L s pdir uva hP0 hf,
          walk_absent_nil L s2 pdir uva hP2 (by rw [h.freelist, hf])]
        exact ⟨rfl, h⟩
      | cons t r =>
        rw [walk_absent_cons L s pdir uva t r hP0 hf,
          walk_absent_cons L s2 pdir uva t r hP2 (by rw [h.freelist, hf])]
        exact ⟨rfl, sameoff_walk_created K L s s2 h pdir uva t r⟩

/-- The lookup depends on no word but the directory entry of `uva` and the
slot it leads to. -/
theorem sameoff_lookup (K : Nat → Prop) (L : Nat) (s s2 : State) (pdir uva : Nat)
    (h : SameOff K s s2) (hp : ¬ K (pde_ptr L pdir uva))
    (hs : s.mem (pde_ptr L pdir uva) &&& PTE_P ≠ 0 → ¬ K (slot_ptr L s pdir uva)) :
    pmap_lookup L s2 pdir uva = pmap_lookup L s pdir uva :=
  lookup_congr_words L s s2 pdir uva (h.mem _ hp) (fun hP => h.mem _ (hs hP)) h.npage

theorem sameoff_remove (K : Nat → Prop) (L : Nat) (s s2 : State) (pdir uva : Nat)
    (h : SameOff K s s2) (hp : ¬ K (pde_ptr L pdir uva))
    (hs : s.mem (pde_ptr L pdir uva) &&& PTE_P ≠ 0 → ¬ K (slot_ptr L s pdir uva)) :
    SameOff K (pmap_remove L s pdir uva) (pmap_remove L s2 pdir uva) := by
  have hl := sameoff_lookup K L s s2 pdir uva h hp hs
  cases hg : (pmap_lookup L s pdir uva).1 with
  | none =>
    rw [remove_of_none L s pdir uva hg, remove_of_none L s2 pdir uva (by rw [hl]; exact hg)]
    exact h
  | some g =>
    obtain ⟨_, _, _, _, he⟩ := lookup_some L s pdir uva g hg
    rw [remove_of_lookup L s pdir uva g _ he, remove_of_lookup L s2 pdir uva g _ (by rw [hl]; exact he)]
    exact sameoff_decref K _ _ (sameoff_invl K L _ _ (sameoff_write K s s2 h _ _) _ _) _

/-- The insertion depends on no word but the directory entry of `uva` and
the slot it leads to. -/
theorem sameoff_insert (K : Nat → Prop) (L : Nat) (s s2 : State) (pdir pi uva perm : Nat)
    (h : SameOff K s s2) (hp : ¬ K (pde_ptr L pdir uva))
    (hs : s.mem (pde_ptr L pdir uva) &&& PTE_P ≠ 0 → ¬ K (slot_ptr L s pdir uva))
    (hal : pdir % 4096 = 0)
    (hfr : ∀ t ∈ s.mem_freelist, t < 1048576 ∧ t * 4096 ≠ pdir) :
    (pmap_insert L s2 pdir pi uva perm).2 = (pmap_insert L s pdir pi uva perm).2 ∧
      SameOff K (pmap_insert L s pdir pi uva perm).1 (pmap_insert L s2 pdir pi uva perm).1 := by
  have e := h.mem _ hp
  have hl := sameoff_lookup K L s s2 pdir uva h hp hs
  have hsl := slot_ptr_congr L s s2 pdir uva e
  by_cases hP : s.mem (pde_ptr L pdir uva) &&& PTE_P ≠ 0
  · have hP2 : s2.mem (pde_ptr L pdir uva) &&& PTE_P ≠ 0 := by rw [e]; exact hP
    by_cases hnz : slot_ptr L s pdir uva = 0
    · rw [insert_null L s pdir pi uva perm hP hnz,
        insert_null L s2 pdir pi uva perm hP2 (by rw [hsl]; exact hnz)]
      exact ⟨rfl, h⟩
    cases hg : (pmap_lookup L s pdir uva).1 with
    | none =>
      rw [insert_present_unmapped L s pdir pi uva perm hP hnz hg,
        insert_present_unmapped L s2 pdir pi uva perm hP2 (by rw [hsl]; exact hnz)
          (by rw [hl]; exact hg), hsl]
      exact ⟨rfl, sameoff_write K _ _ (sameoff_incref K s s2 h _) _ _⟩
    | some g =>
      rw [insert_present_mapped L s pdir pi uva perm g hg,
        insert_present_mapped L s2 pdir pi uva perm g (by rw [hl]; exact hg), hsl]
      exact ⟨rfl, sameoff_write K _ _ (sameoff_decref K _ _ (sameoff_invl K L _ _
        (sameoff_write K _ _ (sameoff_incref K s s2 h _) _ _) _ _) _) _ _⟩
  · have hP0 : s.mem (pde_ptr L pdir uva) &&& PTE_P = 0 := not_not.mp hP
    have hP2 : s2.mem (pde_ptr L pdir uva) &&& PTE_P = 0 := by rw [e]; exact hP0
    cases hf : s.mem_freelist with
    | nil =>
      rw [insert_nomem L s pdir pi uva perm hP0 hf,
        insert_nomem L s2 pdir pi uva perm hP2 (by rw [h.freelist, hf])]
      exact ⟨rfl, h⟩
    | cons t r =>
      obtain ⟨ht, hne⟩ := hfr t (by simp [hf])
      have hphys : mem_pi2phys t = t * 4096 := by rw [mem_pi2phys_eq]; omega
      have hptr : mem_pi2ptr t = t * 4096 := by rw [mem_pi2ptr, mem_ptr, hphys]
      by_cases hnz : t * 4096 + 4 * PTX (linaddr L uva) = 0
      · rw [insert_created_null L s pdir pi uva perm t r hP0 hf (by rw [hptr]; exact hnz),
          insert_created_null L s2 pdir pi uva perm t r hP2 (by rw [h.freelist, hf])
            (by rw [hptr]; exact hnz)]
        exact ⟨rfl, sameoff_walk_created K L s s2 h pdir uva t r⟩
      rw [(insert_created_min L s pdir pi uva perm t r ht hne hal hP0 hf hnz).1,
        (insert_created_min L s2 pdir pi uva perm t r ht hne hal hP2
          (by rw [h.freelist, hf]) hnz).1]
      exact ⟨rfl, sameoff_write K _ _ (sameoff_incref K _ _
        (sameoff_walk_created K L s s2 h pdir uva t r) _) _ _⟩

/-- For a user address below `PMAP_LINHIGH - PMAP_LINUSER` the sum
`uva + PMAP_LINUSER` does not wrap and its directory index lies in the user
range. -/
theorem user_range (L LH uva : Nat) (hLH : LH % 4194304 = 0) (h32 : LH < 2 ^ 32)
    (hu : uva < LH - L) :
    uva + L < 2 ^ 32 ∧ linaddr L uva = uva + L ∧
      PDX L ≤ PDX (linaddr L uva) ∧ PDX (linaddr L uva) < PDX LH := by
  have h1 : uva + L < 2 ^ 32 := by omega
  have h2 : linaddr L uva = uva + L := by unfold linaddr; exact Nat.mod_eq_of_lt h1
  refine ⟨h1, h2, ?_, ?_⟩
  · rw [h2, PDX_eq, PDX_eq]; omega
  · rw [h2, PDX_eq, PDX_eq]; omega

/-- A slot reached through a present entry that does not name the directory
page is no word of the directory. -/
theorem slot_not_dir (L : Nat) (s : State) (pdir uva : Nat) (hal : pdir % 4096 = 0)
    (hns : PTE_ADDR (s.mem (pde_ptr L pdir uva)) ≠ pdir) (i : Nat) (hi : i < 1024) :
    slot_ptr L s pdir uva ≠ pdir + 4 * i := by
  have h1 := PTE_ADDR_mod (s.mem (pde_ptr L pdir uva))
  have h2 := PTX_lt (linaddr L uva)
  unfold slot_ptr mem_ptr
  omega

/-- The operations on `uva` leave every other entry of the directory as it
is. -/
theorem ops_keep_dir (L : Nat) (s : State) (pdir uva : Nat) (hal : pdir % 4096 = 0)
    (hfr : ∀ t ∈ s.mem_freelist, t < 1048576 ∧ t * 4096 ≠ pdir)
    (hns : s.mem (pde_ptr L pdir uva) &&& PTE_P ≠ 0 →
      PTE_ADDR (s.mem (pde_ptr L pdir uva)) ≠ pdir)
    (i : Nat) (hi : i < 1024) (hne : i ≠ PDX (linaddr L uva)) (c : Bool) (pi perm : Nat) :
    (pmap_walk L s pdir uva c).1.mem (pdir + 4 * i) = s.mem (pdir + 4 * i) ∧
      (pmap_insert L s pdir pi uva perm).1.mem (pdir + 4 * i) = s.mem (pdir + 4 * i) ∧
      (pmap_remove L s pdir uva).mem (pdir + 4 * i) = s.mem (pdir + 4 * i) := by
  have h2 := PTX_lt (linaddr L uva)
  by_cases hP : s.mem (pde_ptr L pdir uva) &&& PTE_P ≠ 0
  · have hsl := slot_not_dir L s pdir uva hal (hns hP) i hi
    refine ⟨by rw [walk_present L s pdir uva c hP], ?_,
      remove_mem_of_ne L s pdir uva _ hsl.symm⟩
    by_cases hnz : slot_ptr L s pdir uva = 0
    · rw [insert_null L s pdir pi uva perm hP hnz]
    cases hg : (pmap_lookup L s pdir uva).1 with
    | none =>
      rw [insert_present_unmapped L s pdir pi uva perm hP hnz hg]
      simp only [write_mem, incref_mem]
      rw [if_neg hsl.symm]
    | some g =>
      rw [insert_present_mapped L s pdir pi uva perm g hg]
      simp only [write_mem, incref_mem, decref_mem, invl_mem]
      rw [if_neg hsl.symm, if_neg hsl.symm]
  · have hP0 : s.mem (pde_ptr L pdir uva) &&& PTE_P = 0 := not_not.mp hP
    have hrm : pmap_remove L s pdir uva = s :=
      remove_of_none L s pdir uva (by rw [lookup_absent L s pdir uva hP0])
    rw [hrm]
    cases hf : s.mem_freelist with
    | nil =>
      rw [insert_nomem L s pdir pi uva perm hP0 hf]
      refine ⟨?_, rfl, rfl⟩
      cases c with
      | false => rw [walk_absent_nocreate L s pdir uva hP0]
      | true => rw [walk_absent_nil L s pdir uva hP0 hf]
    | cons t r =>
      obtain ⟨ht, htd⟩ := hfr t (by simp [hf])
      have hwc := walk_created_other L s pdir uva t r pdir i ht hal hal htd hi (Or.inr hne)
      have hphys : mem_pi2phys t = t * 4096 := by rw [mem_pi2phys_eq]; omega
      have hptr : mem_pi2ptr t = t * 4096 := by rw [mem_pi2ptr, mem_ptr, hphys]
      have hw : (pmap_walk L s pdir uva c).1.mem (pdir + 4 * i) = s.mem (pdir + 4 * i) := by
        cases c with
        | false => rw [walk_absent_nocreate L s pdir uva hP0]
        | true => rw [walk_absent_cons L s pdir uva t r hP0 hf]; exact hwc
      refine ⟨hw, ?_, rfl⟩
      by_cases hnz : t * 4096 + 4 * PTX (linaddr L uva) = 0
      · rw [insert_created_null L s pdir pi uva perm t r hP0 hf (by rw [hptr]; exact hnz)]
        exact hwc
      rw [(insert_created_min L s pdir pi uva perm t r ht htd hal hP0 hf hnz).1]
      simp only [write_mem, incref_mem]
      rw [if_neg (by omega), hwc]

/-! ## The layout is kept -/

/-- The layout conditions depend on the directory words, the number of
frames and the free list only. -/
theorem dirsok_of_dirs_eq (lo hi : Nat) (s s2 : State) (D : List Nat) (hs : DirsOK lo hi s D)
    (hw : ∀ d ∈ D, ∀ i, i < 1024 → s2.mem (d + 4 * i) = s.mem (d + 4 * i))
    (hn : s2.mem_npage = s.mem_npage)
    (h1 : ∀ t ∈ s2.mem_freelist, t < s2.mem_npage) (h2 : s2.mem_freelist.Nodup)
    (h3 : ∀ t ∈ s2.mem_freelist, ∀ d ∈ D, mem_pi2phys t ≠ d) : DirsOK lo hi s2 D := by
  have hhi := hs.hi_le
  refine ⟨hs.hi_le, by rw [hn]; exact hs.npage_le, hs.aligned, hs.nodup, h1, h2, h3, ?_, ?_⟩
  · intro d hd i hl hh hp
    rw [hw d hd i (by omega)] at hp ⊢
    exact hs.table_not_dir d hd i hl hh hp
  · intro d hd d2 hd2 i i2 hl hh hl2 hh2 hp hp2 hne
    rw [hw d hd i (by omega)] at hp ⊢
    rw [hw d2 hd2 i2 (by omega)] at hp2 ⊢
    exact hs.tables_distinct d hd d2 hd2 i i2 hl hh hl2 hh2 hp hp2 hne

/-- A frame with a positive count may join the free list. -/
theorem push_free_ok (lo hi : Nat) (s : State) (D : List Nat) (hs : DirsOK lo hi s D)
    (hinv : RefInv lo hi s D) (hnd : NoDirRef s D) (g : Nat) (hg : g < s.mem_npage)
    (hc : 0 < s.refcount g) :
    (∀ t ∈ g :: s.mem_freelist, t < s.mem_npage) ∧ (g :: s.mem_freelist).Nodup ∧
      ∀ t ∈ g :: s.mem_freelist, ∀ d ∈ D, mem_pi2phys t ≠ d := by
  refine ⟨?_, ?_, ?_⟩
  · intro t ht
    rcases List.mem_cons.mp ht with rfl | ht
    · exact hg
    · exact hs.free_lt t ht
  · exact List.nodup_cons.mpr ⟨fun hm => (hinv.free g hm).1 hc, hs.free_nodup⟩
  · intro t ht d hd
    rcases List.mem_cons.mp ht with rfl | ht
    · intro he
      have := hnd t hg d hd he
      omega
    · exact hs.free_not_dir t ht d hd

/-- A step that stores to one table slot only and frees at most one frame
that had a positive count keeps the layout. -/
theorem inv_slot_step (lo hi : Nat) (s s2 : State) (D : List Nat) (slot : Nat)
    (hs : DirsOK lo hi s D) (hinv : RefInv lo hi s D) (hnd : NoDirRef s D)
    (hinv2 : RefInv lo hi s2 D)
    (hslot : ∀ d ∈ D, ∀ i, i < 1024 → slot ≠ d + 4 * i)
    (hmem : ∀ x, x ≠ slot → s2.mem x = s.mem x) (hn : s2.mem_npage = s.mem_npage)
    (hfl : s2.mem_freelist = s.mem_freelist ∨
      ∃ g, s2.mem_freelist = g :: s.mem_freelist ∧ g < s.mem_npage ∧ 0 < s.refcount g)
    (hrc : ∀ q, (∃ d ∈ D, mem_pi2phys q = d) → s2.refcount q ≤ s.refcount q) :
    DirsOK lo hi s2 D ∧ NoDirRef s2 D ∧
      ∀ d ∈ D, ∀ i, i < 1024 → s2.mem (d + 4 * i) = s.mem (d + 4 * i) := by
  have hw : ∀ d ∈ D, ∀ i, i < 1024 → s2.mem (d + 4 * i) = s.mem (d + 4 * i) :=
    fun d hd i hi => hmem _ (fun h => hslot d hd i hi h.symm)
  refine ⟨?_, ?_, hw⟩
  · rcases hfl with hfl | ⟨g, hfl, hg, hc⟩
    · exact dirsok_of_dirs_eq lo hi s s2 D hs hw hn (by rw [hfl, hn]; exact hs.free_lt)
        (by rw [hfl]; exact hs.free_nodup) (by rw [hfl]; exact hs.free_not_dir)
    · obtain ⟨a, b, c⟩ := push_free_ok lo hi s D hs hinv hnd g hg hc
      exact dirsok_of_dirs_eq lo hi s s2 D hs hw hn (by rw [hfl, hn]; exact a)
        (by rw [hfl]; exact b) (by rw [hfl]; exact c)
  · intro q hq d hd he
    have h1 := hrc q ⟨d, hd, he⟩
    have h2 := hnd q (by rw [← hn]; exact hq) d hd he
    have h3 := hinv2.count q hq
    omega

/-- The slot of a user address in a directory of the layout is no directory
word. -/
theorem slot_not_any_dir (lo hi L : Nat) (s : State) (D : List Nat) (pdir uva : Nat)
    (hs : DirsOK lo hi s D) (hd : pdir ∈ D)
    (hlo : lo ≤ PDX (linaddr L uva)) (hhi : PDX (linaddr L uva) < hi)
    (hp : s.mem (pde_ptr L pdir uva) &&& PTE_P ≠ 0) :
    ∀ d ∈ D, ∀ i, i < 1024 → slot_ptr L s pdir uva ≠ d + 4 * i := by
  intro d hd2 i hi
  have h1 := hs.table_not_dir pdir hd _ hlo hhi hp d hd2
  have h2 := hs.aligned d hd2
  have h3 := PTE_ADDR_mod (s.mem (pdir + 4 * PDX (linaddr L uva)))
  have h4 := PTX_lt (linaddr L uva)
  unfold slot_ptr mem_ptr pde_ptr
  omega

/-- The removal keeps the layout and every directory word. -/
theorem inv_remove (lo hi L : Nat) (s : State) (D : List Nat) (pdir uva : Nat)
    (hs : DirsOK lo hi s D) (hinv : RefInv lo hi s D) (hnd : NoDirRef s D) (hd : pdir ∈ D)
    (hlo : lo ≤ PDX (linaddr L uva)) (hhi : PDX (linaddr L uva) < hi) :
    DirsOK lo hi (pmap_remove L s pdir uva) D ∧ NoDirRef (pmap_remove L s pdir uva) D ∧
      ∀ d ∈ D, ∀ i, i < 1024 →
        (pmap_remove L s pdir uva).mem (d + 4 * i) = s.mem (d + 4 * i) := by
  have hinv2 := refinv_remove lo hi L s D pdir uva hs hinv hd hlo hhi
  cases hg : (pmap_lookup L s pdir uva).1 with
  | none =>
    rw [remove_of_none L s pdir uva hg]
    exact ⟨hs, hnd, fun _ _ _ _ => rfl⟩
  | some g =>
    obtain ⟨hp, _, _, _, he⟩ := lookup_some L s pdir uva g hg
    have hgl := lookup_some_lt L s pdir uva g hg
    have hpos := total_refs_pos_of_lookup lo hi L s D pdir uva g hs hd hlo hhi hg
    have hcg := hinv.count g hgl
    rw [remove_of_lookup L s pdir uva g _ he] at hinv2 ⊢
    refine inv_slot_step lo hi s _ D (slot_ptr L s pdir uva) hs hinv hnd hinv2
      (slot_not_any_dir lo hi L s D pdir uva hs hd hlo hhi hp) ?_ (by simp) ?_ ?_
    · intro x hx
      simp only [decref_mem, invl_mem, write_mem]
      rw [if_neg hx]
    · rw [decref_freelist]
      simp only [invl_refcount, write_refcount, invl_freelist, write_freelist]
      by_cases h1 : s.refcount g = 1
      · rw [if_pos h1]
        exact Or.inr ⟨g, rfl, hgl, by omega⟩
      · rw [if_neg h1]
        exact Or.inl rfl
    · intro q _
      simp only [decref_refcount, invl_refcount, write_refcount]
      split_ifs <;> omega

/-- The insertion over a present directory entry keeps the layout and every
directory word. -/
theorem inv_insert_present (lo hi L : Nat) (s : State) (D : List Nat) (pdir f uva perm : Nat)
    (hs : DirsOK lo hi s D) (hinv : RefInv lo hi s D) (hnd : NoDirRef s D) (hd : pdir ∈ D)
    (hlo : lo ≤ PDX (linaddr L uva)) (hhi : PDX (linaddr L uva) < hi)
    (hf : f < s.mem_npage) (hfree : f ∉ s.mem_freelist) (hfd : ∀ d ∈ D, mem_pi2phys f ≠ d)
    (hperm : perm < 4096) (hp : s.mem (pde_ptr L pdir uva) &&& PTE_P ≠ 0) :
    DirsOK lo hi (pmap_insert L s pdir f uva perm).1 D ∧
      NoDirRef (pmap_insert L s pdir f uva perm).1 D ∧
      ∀ d ∈ D, ∀ i, i < 1024 →
        (pmap_insert L s pdir f uva perm).1.mem (d + 4 * i) = s.mem (d + 4 * i) := by
  have hinv2 := refinv_insert lo hi L s D pdir f uva perm hs hinv hd hlo hhi hf hfree hperm
  have hsl := slot_not_any_dir lo hi L s D pdir uva hs hd hlo hhi hp
  by_cases hnz : slot_ptr L s pdir uva = 0
  · rw [insert_null L s pdir f uva perm hp hnz]
    exact ⟨hs, hnd, fun _ _ _ _ => rfl⟩
  cases hg : (pmap_lookup L s pdir uva).1 with
  | none =>
    rw [insert_present_unmapped L s pdir f uva perm hp hnz hg] at hinv2 ⊢
    refine inv_slot_step lo hi s _ D (slot_ptr L s pdir uva) hs hinv hnd hinv2 hsl ?_
      (by simp) (Or.inl (by simp)) ?_
    · intro x hx
      simp only [write_mem, incref_mem]
      rw [if_neg hx]
    · rintro q ⟨d, hd2, he⟩
      have hqf : q ≠ f := fun h => hfd d hd2 (h ▸ he)
      simp only [write_refcount, incref_refcount]
      rw [if_neg hqf]
  | some g =>
    have hgl := lookup_some_lt L s pdir uva g hg
    have hpos := total_refs_pos_of_lookup lo hi L s D pdir uva g hs hd hlo hhi hg
    have hcg := hinv.count g hgl
    rw [insert_present_mapped L s pdir f uva perm g hg] at hinv2 ⊢
    refine inv_slot_step lo hi s _ D (slot_ptr L s pdir uva) hs hinv hnd hinv2 hsl ?_
      (by simp) ?_ ?_
    · intro x hx
      simp only [write_mem, incref_mem, decref_mem, invl_mem]
      rw [if_neg hx, if_neg hx]
    · simp only [write_freelist]
      rw [decref_freelist]
      simp only [invl_refcount, write_refcount, invl_freelist, write_freelist,
        incref_refcount, incref_freelist]
      split_ifs
      · exact Or.inr ⟨g, rfl, hgl, by omega⟩
      · exact Or.inl rfl
      · exact Or.inr ⟨g, rfl, hgl, by omega⟩
      · exact Or.inl rfl
    · rintro q ⟨d, hd2, he⟩
      have hqf : q ≠ f := fun h => hfd d hd2 (h ▸ he)
      simp only [write_refcount, decref_refcount, invl_refcount, incref_refcount]
      rw [if_neg hqf]
      split_ifs <;> omega

/-- A creating walk that takes frame `t` keeps the layout, the invariant
and every directory entry but the one it fills. -/
theorem inv_walk_created (lo hi L : Nat) (s : State) (D : List Nat) (pdir uva t : Nat)
    (r : List Nat) (hs : DirsOK lo hi s D) (hinv : RefInv lo hi s D) (hnd : NoDirRef s D)
    (hd : pdir ∈ D) (hlo : lo ≤ PDX (linaddr L uva)) (hhi : PDX (linaddr L uva) < hi)
    (habs : s.mem (pde_ptr L pdir uva) &&& PTE_P = 0) (hf : s.mem_freelist = t :: r) :
    DirsOK lo hi (walk_created L s pdir uva t r) D ∧
      RefInv lo hi (walk_created L s pdir uva t r) D ∧
      NoDirRef (walk_created L s pdir uva t r) D ∧
      (∀ d ∈ D, ∀ i, i < 1024 → d ≠ pdir ∨ i ≠ PDX (linaddr L uva) →
        (walk_created L s pdir uva t r).mem (d + 4 * i) = s.mem (d + 4 * i)) ∧
      (walk_created L s pdir uva t r).mem (pde_ptr L pdir uva) = t * 4096 + 7 := by
  have htm : t ∈ s.mem_freelist := by simp [hf]
  have hnp := hs.npage_le
  have htn : t < s.mem_npage := hs.free_lt t htm
  have ht : t < 1048576 := by
    have : s.mem_npage ≤ 1048576 := by simpa using hnp
    omega
  have hphys : mem_pi2phys t = t * 4096 := by rw [mem_pi2phys_eq]; omega
  have htd : ∀ d ∈ D, t * 4096 ≠ d := fun d hd2 => hphys ▸ hs.free_not_dir t htm d hd2
  have htt := free_not_table lo hi s D t hs.hi_le (hinv.free t htm).2
  have hother : ∀ d ∈ D, ∀ i, i < 1024 → d ≠ pdir ∨ i ≠ PDX (linaddr L uva) →
      (walk_created L s pdir uva t r).mem (d + 4 * i) = s.mem (d + 4 * i) :=
    fun d hd2 i hi hne => walk_created_other L s pdir uva t r d i ht (hs.aligned d hd2)
      (hs.aligned pdir hd) (htd d hd2) hi hne
  have hpde : (walk_created L s pdir uva t r).mem (pde_ptr L pdir uva) = t * 4096 + 7 := by
    rw [walk_created_mem, if_pos rfl, pde_word_eq t (by simpa using ht)]
  have hpde2 : (walk_created L s pdir uva t r).mem (pdir + 4 * PDX (linaddr L uva))
      = t * 4096 + 7 := hpde
  have haddr : PTE_ADDR (t * 4096 + 7) = t * 4096 := by rw [PTE_ADDR_eq]; omega
  have hsub : ∀ q ∈ r, q ∈ s.mem_freelist := fun q hq => by simp [hf, hq]
  have hnd2 : t ∉ r ∧ r.Nodup := by
    have := hs.free_nodup
    rw [hf] at this
    exact List.nodup_cons.mp this
  have hhi2 := hs.hi_le
  refine ⟨⟨hs.hi_le, hs.npage_le, hs.aligned, hs.nodup, ?_, ?_, ?_, ?_, ?_⟩, ⟨?_, ?_⟩, ?_,
    hother, hpde⟩
  · intro q hq
    exact hs.free_lt q (hsub q hq)
  · exact hnd2.2
  · intro q hq
    exact hs.free_not_dir q (hsub q hq)
  · intro d hd2 i hl hh hp d2 hd3
    by_cases hc : d = pdir ∧ i = PDX (linaddr L uva)
    · obtain ⟨rfl, rfl⟩ := hc
      rw [hpde2, haddr]
      exact htd d2 hd3
    · have hne : d ≠ pdir ∨ i ≠ PDX (linaddr L uva) := by
        by_contra hcc
        push_neg at hcc
        exact hc hcc
      rw [hother d hd2 i (by omega) hne] at hp ⊢
      exact hs.table_not_dir d hd2 i hl hh hp d2 hd3
  · intro d hd2 d2 hd3 i i2 hl hh hl2 hh2 hp hp2 hne
    by_cases hc : d = pdir ∧ i = PDX (linaddr L uva)
    · obtain ⟨rfl, rfl⟩ := hc
      have hne2 : d2 ≠ d ∨ i2 ≠ PDX (linaddr L uva) := by
        rcases hne with h | h
        · exact Or.inl (fun e => h e.symm)
        · exact Or.inr (fun e => h e.symm)
      rw [hother d2 hd3 i2 (by omega) hne2] at hp2 ⊢
      rw [hpde2, haddr]
      exact fun e => htt d2 hd3 i2 hl2 hh2 hp2 e.symm
    · have hne1 : d ≠ pdir ∨ i ≠ PDX (linaddr L uva) := by
        by_contra hcc
        push_neg at hcc
        exact hc hcc
      rw [hother d hd2 i (by omega) hne1] at hp ⊢
      by_cases hc2 : d2 = pdir ∧ i2 = PDX (linaddr L uva)
      · obtain ⟨rfl, rfl⟩ := hc2
        rw [hpde2, haddr]
        exact htt d hd2 i hl hh hp
      · have hne2 : d2 ≠ pdir ∨ i2 ≠ PDX (linaddr L uva) := by
          by_contra hcc
          push_neg at hcc
          exact hc2 hcc
        rw [hother d2 hd3 i2 (by omega) hne2] at hp2 ⊢
        exact hs.tables_distinct d hd2 d2 hd3 i i2 hl hh hl2 hh2 hp hp2 hne
  · intro q hq
    rw [walk_created_npage] at hq
    rw [walk_created_refcount, total_refs_walk_created lo hi L s D pdir uva t r q hs.hi_le
      hs.nodup hs.aligned hd hlo hhi habs ht htd htt hs.table_not_dir, hinv.count q hq]
    split_ifs <;> simp
  · intro q hq
    rw [walk_created_freelist] at hq
    have hqt : q ≠ t := fun e => hnd2.1 (e ▸ hq)
    obtain ⟨h1, h2⟩ := hinv.free q (hsub q hq)
    rw [walk_created_refcount, total_refs_walk_created lo hi L s D pdir uva t r q hs.hi_le
      hs.nodup hs.aligned hd hlo hhi habs ht htd htt hs.table_not_dir, if_neg hqt, if_neg hqt]
    exact ⟨h1, by omega⟩
  · intro q hq d hd2 he
    rw [walk_created_npage] at hq
    have hqt : q ≠ t := fun e => hs.free_not_dir t htm d hd2 (e ▸ he)
    rw [walk_created_refcount, if_neg hqt]
    exact hnd q hq d hd2 he

/-- The insertion keeps the layout and every present directory entry. -/
theorem inv_insert (lo hi L : Nat) (s : State) (D : List Nat) (pdir f uva perm : Nat)
    (hs : DirsOK lo hi s D) (hinv : RefInv lo hi s D) (hnd : NoDirRef s D) (hd : pdir ∈ D)
    (hlo : lo ≤ PDX (linaddr L uva)) (hhi : PDX (linaddr L uva) < hi)
    (hf : f < s.mem_npage) (hfree : f ∉ s.mem_freelist) (hfd : ∀ d ∈ D, mem_pi2phys f ≠ d)
    (hperm : perm < 4096) :
    DirsOK lo hi (pmap_insert L s pdir f uva perm).1 D ∧
      NoDirRef (pmap_insert L s pdir f uva perm).1 D ∧
      ∀ d ∈ D, ∀ i, i < 1024 → s.mem (d + 4 * i) &&& PTE_P ≠ 0 →
        (pmap_insert L s pdir f uva perm).1.mem (d + 4 * i) = s.mem (d + 4 * i) := by
  have hinv2 := refinv_insert lo hi L s D pdir f uva perm hs hinv hd hlo hhi hf hfree hperm
  by_cases hp : s.mem (pde_ptr L pdir uva) &&& PTE_P ≠ 0
  · obtain ⟨a, b, c⟩ := inv_insert_present lo hi L s D pdir f uva perm hs hinv hnd hd hlo
      hhi hf hfree hfd hperm hp
    exact ⟨a, b, fun d hd2 i hi2 _ => c d hd2 i hi2⟩
  · have hp0 : s.mem (pde_ptr L pdir uva) &&& PTE_P = 0 := not_not.mp hp
    cases hfl : s.mem_freelist with
    | nil =>
      rw [insert_nomem L s pdir f uva perm hp0 hfl]
      exact ⟨hs, hnd, fun _ _ _ _ _ => rfl⟩
    | cons t r =>
      have htm : t ∈ s.mem_freelist := by simp [hfl]
      have htn : t < s.mem_npage := hs.free_lt t htm
      have ht : t < 1048576 := by
        have : s.mem_npage ≤ 1048576 := by simpa using hs.npage_le
        omega
      have hphys : mem_pi2phys t = t * 4096 := by rw [mem_pi2phys_eq]; omega
      have htd : ∀ d ∈ D, t * 4096 ≠ d := fun d hd2 => hphys ▸ hs.free_not_dir t htm d hd2
      obtain ⟨a, b, c, d2, _⟩ :=
        inv_walk_created lo hi L s D pdir uva t r hs hinv hnd hd hlo hhi hp0 hfl
      have hkeep : ∀ d ∈ D, ∀ i, i < 1024 → s.mem (d + 4 * i) &&& PTE_P ≠ 0 →
          (walk_created L s pdir uva t r).mem (d + 4 * i) = s.mem (d + 4 * i) := by
        intro d hd2 i hi2 hpi
        refine d2 d hd2 i hi2 ?_
        by_contra hcc
        push_neg at hcc
        obtain ⟨rfl, rfl⟩ := hcc
        exact hpi hp0
      have hptr : mem_pi2ptr t = t * 4096 := by rw [mem_pi2ptr, mem_ptr, hphys]
      by_cases hnz : t * 4096 + 4 * PTX (linaddr L uva) = 0
      · rw [insert_created_null L s pdir f uva perm t r hp0 hfl (by rw [hptr]; exact hnz)]
        exact ⟨a, c, hkeep⟩
      have hcl := (insert_created_min L s pdir f uva perm t r ht (htd pdir hd)
        (hs.aligned pdir hd) hp0 hfl hnz).1
      rw [hcl] at hinv2 ⊢
      have h4 := PTX_lt (linaddr L uva)
      obtain ⟨a2, b2, c3⟩ := inv_slot_step lo hi (walk_created L s pdir uva t r) _ D
        (t * 4096 + 4 * PTX (linaddr L uva)) a b c hinv2
        (by
          intro d hd2 i hi2
          have := htd d hd2
          have := hs.aligned d hd2
          omega)
        (by
          intro x hx
          simp only [write_mem, incref_mem]
          rw [if_neg hx])
        (by simp) (Or.inl (by simp))
        (by
          rintro q ⟨d, hd2, he⟩
          have hqf : q ≠ f := fun h => hfd d hd2 (h ▸ he)
          simp only [write_refcount, incref_refcount]
          rw [if_neg hqf])
      refine ⟨a2, b2, ?_⟩
      intro d hd2 i hi2 hpi
      rw [c3 d hd2 i hi2]
      refine d2 d hd2 i hi2 ?_
      by_contra hcc
      push_neg at hcc
      obtain ⟨rfl, rfl⟩ := hcc
      exact hpi hp0

/-- The walk keeps the machine well formed and every present directory
entry. -/
theorem inv_walk (lo hi L : Nat) (s : State) (D : List Nat) (pdir uva : Nat) (cr : Bool)
    (hs : DirsOK lo hi s D) (hinv : RefInv lo hi s D) (hnd : NoDirRef s D) (hd : pdir ∈ D)
    (hlo : lo ≤ PDX (linaddr L uva)) (hhi : PDX (linaddr L uva) < hi) :
    DirsOK lo hi (pmap_walk L s pdir uva cr).1 D ∧ RefInv lo hi (pmap_walk L s pdir uva cr).1 D ∧
      NoDirRef (pmap_walk L s pdir uva cr).1 D ∧
      ∀ d ∈ D, ∀ i, i < 1024 → s.mem (d + 4 * i) &&& PTE_P ≠ 0 →
        (pmap_walk L s pdir uva cr).1.mem (d + 4 * i) = s.mem (d + 4 * i) := by
  by_cases hp : s.mem (pde_ptr L pdir uva) &&& PTE_P ≠ 0
  · rw [walk_present L s pdir uva cr hp]
    exact ⟨hs, hinv, hnd, fun _ _ _ _ _ => rfl⟩
  · have hp0 : s.mem (pde_ptr L pdir uva) &&& PTE_P = 0 := not_not.mp hp
    cases cr with
    | false =>
      rw [walk_absent_nocreate L s pdir uva hp0]
      exact ⟨hs, hinv, hnd, fun _ _ _ _ _ => rfl⟩
    | true =>
      cases hf : s.mem_freelist with
      | nil =>
        rw [walk_absent_nil L s pdir uva hp0 hf]
        exact ⟨hs, hinv, hnd, fun _ _ _ _ _ => rfl⟩
      | cons t r =>
        rw [walk_absent_cons L s pdir uva t r hp0 hf]
        obtain ⟨a, b, c2, d2, _⟩ :=
          inv_walk_created lo hi L s D pdir uva t r hs hinv hnd hd hlo hhi hp0 hf
        refine ⟨a, b, c2, ?_⟩
        intro d hd2 i hi2 hpi
        refine d2 d hd2 i hi2 ?_
        by_contra hcc
        push_neg at hcc
        obtain ⟨rfl, rfl⟩ := hcc
        exact hpi hp0

/-! ## The claims -/

/-- C1 (as stated, refuted): with permission value `0x5000`, which has bits
above the low 12, inserting frame 2 at user address 0 succeeds, yet the
lookup returns frame 7 and the low 12 bits of the stored entry are `PTE_P`
alone, not `perm | PTE_P`. -/
theorem pmap_insert_lookup_high_perm :
    (pmap_insert 0x40000000 exEmpty 0x3000 2 0 0x5000).2 = some 0x5000 ∧
    (pmap_lookup 0x40000000 (pmap_insert 0x40000000 exEmpty 0x3000 2 0 0x5000).1
        0x3000 0).1 = some 7 ∧
    (pmap_lookup 0x40000000 (pmap_insert 0x40000000 exEmpty 0x3000 2 0 0x5000).1
        0x3000 0).1 ≠ some 2 ∧
    (pmap_insert 0x40000000 exEmpty 0x3000 2 0 0x5000).1.mem 0x5000 &&& 0xFFF
      ≠ 0x5000 ||| PTE_P := by
  decide

/-- C1 (amended): for a well-formed allocator and directory, a known frame
`pi` and a permission value confined to the low 12 bits, a successful
`pmap_insert(pdir, pi, uva, perm)` makes `pmap_lookup(pdir, uva)` return
`pi`; the slot it returns is the slot of `uva`, and the low 12 bits of the
table entry stored there equal `perm | PTE_P`. -/
theorem pmap_insert_lookup (L : Nat) (s : State) (pdir pi uva perm : Nat)
    (hm : MemOK s) (hd : PdirOK s pdir) (hpi : pi < s.mem_npage) (hperm : perm < 4096)
    (hok : (pmap_insert L s pdir pi uva perm).2 ≠ none) :
    (pmap_lookup L (pmap_insert L s pdir pi uva perm).1 pdir uva).1 = some pi ∧
    (pmap_insert L s pdir pi uva perm).2 =
      some (slot_ptr L (pmap_insert L s pdir pi uva perm).1 pdir uva) ∧
    (pmap_insert L s pdir pi uva perm).1.mem
        (slot_ptr L (pmap_insert L s pdir pi uva perm).1 pdir uva) &&& 0xFFF
      = perm ||| PTE_P := by
  obtain ⟨h1, h2, h3, h4, _⟩ := insert_post L s pdir pi uva perm hm hd hok
  have hn : (pmap_insert L s pdir pi uva perm).1.mem_npage ≤ 2 ^ 20 := by
    rw [h4]; exact hm.npage_le
  have hz := insert_some_ne L s pdir pi uva perm _ h1
  refine ⟨?_, h1, ?_⟩
  · rw [lookup_of_word L _ pdir uva pi perm hn (by rw [h4]; exact hpi) hperm h2 hz h3]
  · rw [h3]
    exact (pte_word_facts pi perm (Nat.lt_of_lt_of_le hpi hm.npage_le) hperm).2.2

/-- C1 (amended), at a concrete machine: frame 2 inserted at user address 0
with permissions `PTE_W | PTE_U`. -/
theorem pmap_insert_lookup_witness :
    (pmap_lookup 0x40000000 (pmap_insert 0x40000000 exEmpty 0x3000 2 0 6).1 0x3000 0).1
        = some 2 ∧
    (pmap_insert 0x40000000 exEmpty 0x3000 2 0 6).1.mem
        (slot_ptr 0x40000000 (pmap_insert 0x40000000 exEmpty 0x3000 2 0 6).1 0x3000 0)
        &&& 0xFFF = 6 ||| PTE_P :=
  have h := pmap_insert_lookup 0x40000000 exEmpty 0x3000 2 0 6 exEmpty_MemOK exEmpty_PdirOK
    (by decide) (by decide) (by decide)
  ⟨h.1, h.2.2⟩

/-- C2 (as stated, refuted): with `p1 = 0x5000` the first insert of frame 2
stores an entry naming frame 7; the second insert then counts frame 2 once
more and releases frame 7 instead, so the count of frame 2 after the second
insert (2) is not its value after the first (1). -/
theorem pmap_reinsert_high_perm :
    (pmap_insert 0x40000000 exEmpty 0x3000 2 0 0x5000).2 ≠ none ∧
    (pmap_insert 0x40000000 exEmpty 0x3000 2 0 0x5000).1.refcount 2 = 1 ∧
    (pmap_insert 0x40000000 (pmap_insert 0x40000000 exEmpty 0x3000 2 0 0x5000).1
        0x3000 2 0 0).1.refcount 2 = 2 := by
  decide

/-- C2 (amended): for a well-formed allocator and directory, a known frame
`f` and permission values `p1`, `p2` confined to the low 12 bits, let `s1`
be the state after a successful insert of `f` at `uva` with `p1` and `s2`
the state after an insert of `f` at `uva` with `p2` right after it.  The
second insert succeeds with the same slot, leaves the reference count of
every frame (in particular of `f`) as it was in `s1`, leaves
`pmap_lookup(pdir, uva) = f`, and changes no word of memory except the slot
of `uva`, whose frame base stays and whose low 12 bits become
`p2 | PTE_P`. -/
theorem pmap_reinsert (L : Nat) (s s1 s2 : State) (pdir f uva p1 p2 : Nat)
    (e1 : s1 = (pmap_insert L s pdir f uva p1).1)
    (e2 : s2 = (pmap_insert L s1 pdir f uva p2).1)
    (hm : MemOK s) (hd : PdirOK s pdir) (hf : f < s.mem_npage)
    (hp1 : p1 < 4096) (hp2 : p2 < 4096)
    (hok : (pmap_insert L s pdir f uva p1).2 ≠ none) :
    (pmap_insert L s1 pdir f uva p2).2 = some (slot_ptr L s1 pdir uva) ∧
    (pmap_insert L s pdir f uva p1).2 = some (slot_ptr L s1 pdir uva) ∧
    (∀ q, s2.refcount q = s1.refcount q) ∧
    (pmap_lookup L s2 pdir uva).1 = some f ∧
    (∀ x, x ≠ slot_ptr L s1 pdir uva → s2.mem x = s1.mem x) ∧
    PTE_ADDR (s2.mem (slot_ptr L s1 pdir uva)) = PTE_ADDR (s1.mem (slot_ptr L s1 pdir uva)) ∧
    s2.mem (slot_ptr L s1 pdir uva) &&& 0xFFF = p2 ||| PTE_P := by
  obtain ⟨h1, h2, h3, h4, h5⟩ := insert_post L s pdir f uva p1 hm hd hok
  rw [← e1] at h1 h2 h3 h4 h5
  have hn : s1.mem_npage ≤ 2 ^ 20 := by rw [h4]; exact hm.npage_le
  have hf1 : f < s1.mem_npage := by rw [h4]; exact hf
  have hf2 : f < 2 ^ 20 := Nat.lt_of_lt_of_le hf1 hn
  have hz : slot_ptr L s1 pdir uva ≠ 0 := insert_some_ne L s pdir f uva p1 _ h1
  have hl := lookup_of_word L s1 pdir uva f p1 hn hf1 hp1 h2 hz h3
  have hl1 : (pmap_lookup L s1 pdir uva).1 = some f := by rw [hl]
  have hs0 : pde_ptr L pdir uva ≠ slot_ptr L s1 pdir uva :=
    Ne.symm (h5 _ (PDX_lt _))
  have hins := insert_present_mapped L s1 pdir f uva p2 f hl1
  have hs2 : s2 = (mem_decref (pmap_invl L ((mem_incref s1 f).write (slot_ptr L s1 pdir uva) 0)
      pdir uva) f).write (slot_ptr L s1 pdir uva) (pte_word f p2) := by
    rw [e2, hins]
  have hpde : s2.mem (pde_ptr L pdir uva) = s1.mem (pde_ptr L pdir uva) := by
    rw [hs2, write_mem, if_neg hs0, decref_mem, invl_mem, write_mem, if_neg hs0, incref_mem]
  have hsl := slot_ptr_congr L s1 s2 pdir uva hpde
  have hw : s2.mem (slot_ptr L s1 pdir uva) = pte_word f p2 := by
    rw [hs2, write_mem, if_pos rfl]
  refine ⟨by rw [hins], h1, ?_, ?_, ?_, ?_, ?_⟩
  · intro q
    rw [hs2]
    simp only [write_refcount, decref_refcount, invl_refcount, incref_refcount]
    split <;> omega
  · rw [lookup_of_word L s2 pdir uva f p2 (by rw [hs2]; simpa using hn)
      (by rw [hs2]; simpa using hf1) hp2 (by rw [hpde]; exact h2) (by rw [hsl]; exact hz)
      (by rw [hsl]; exact hw)]
  · intro x hx
    rw [hs2]
    simp [hx]
  · rw [hw, h3, (pte_word_facts f p2 hf2 hp2).2.1, (pte_word_facts f p1 hf2 hp1).2.1]
  · rw [hw]
    exact (pte_word_facts f p2 hf2 hp2).2.2

/-- C2 (amended), at a concrete machine: frame 2 inserted at user address 0
with `PTE_W`, then again with `PTE_W | PTE_U`. -/
theorem pmap_reinsert_witness :
    (pmap_insert 0x40000000 (pmap_insert 0x40000000 exEmpty 0x3000 2 0 2).1
        0x3000 2 0 6).1.refcount 2 =
      (pmap_insert 0x40000000 exEmpty 0x3000 2 0 2).1.refcount 2 ∧
    (pmap_lookup 0x40000000 (pmap_insert 0x40000000
        (pmap_insert 0x40000000 exEmpty 0x3000 2 0 2).1 0x3000 2 0 6).1 0x3000 0).1 = some 2 :=
  have h := pmap_reinsert 0x40000000 exEmpty _ _ 0x3000 2 0 2 6 rfl rfl exEmpty_MemOK
    exEmpty_PdirOK (by decide) (by decide) (by decide) (by decide)
  ⟨h.2.2.1 2, h.2.2.2.1⟩

/-- C3: when `pmap_insert` re-inserts frame `f` at an address where `f` is
already mapped, `f` has reference count exactly 1 and is not on the free
list, then in every state the operation passes through the count of `f` is
not 0 and `f` is not on the free list; the counts along the steps are
1 (after the walk), 2 (after the increment), 2, 2 (slot cleared,
translation invalidated), 1, 1 (decrement in the nested `pmap_remove`) and 1
(new entry stored), so the increment precedes the decrement; and the last
step is the state `pmap_insert` returns. -/
theorem pmap_reinsert_never_zero (L : Nat) (s : State) (pdir f uva perm : Nat)
    (hmap : (pmap_lookup L s pdir uva).1 = some f) (hone : s.refcount f = 1)
    (hfree : f ∉ s.mem_freelist) :
    (∀ st ∈ pmap_insert_steps L s pdir f uva perm,
        st.refcount f ≠ 0 ∧ f ∉ st.mem_freelist) ∧
    (pmap_insert_steps L s pdir f uva perm).map (fun st => st.refcount f) =
        [1, 2, 2, 2, 1, 1, 1] ∧
    (pmap_insert_steps L s pdir f uva perm).getLast? =
        some (pmap_insert L s pdir f uva perm).1 ∧
    f ∉ (pmap_insert L s pdir f uva perm).1.mem_freelist := by
  obtain ⟨h, hP, _, _, he⟩ := lookup_some L s pdir uva f hmap
  have hl : pmap_lookup L (mem_incref s f) pdir uva = (some f, some (slot_ptr L s pdir uva)) := by
    rw [lookup_congr L s (mem_incref s f) pdir uva rfl rfl, he]
  have hsteps : pmap_insert_steps L s pdir f uva perm =
      [s, mem_incref s f, (mem_incref s f).write (slot_ptr L s pdir uva) 0,
        pmap_invl L ((mem_incref s f).write (slot_ptr L s pdir uva) 0) pdir uva,
        mem_decref_dec (pmap_invl L ((mem_incref s f).write (slot_ptr L s pdir uva) 0)
          pdir uva) f,
        mem_decref (pmap_invl L ((mem_incref s f).write (slot_ptr L s pdir uva) 0)
          pdir uva) f,
        (mem_decref (pmap_invl L ((mem_incref s f).write (slot_ptr L s pdir uva) 0)
          pdir uva) f).write (slot_ptr L s pdir uva) (pte_word f perm)] := by
    unfold pmap_insert_steps
    rw [walk_present L s pdir uva true h]
    dsimp only
    rw [if_neg (lookup_some_ne L s pdir uva f hmap), if_pos (by simpa using hP)]
    unfold pmap_remove_steps
    rw [hl]
    simp
  have hfl : (mem_decref (pmap_invl L ((mem_incref s f).write (slot_ptr L s pdir uva) 0)
      pdir uva) f).mem_freelist = s.mem_freelist := by
    rw [decref_freelist, if_neg]
    · simp
    · simp [hone]
  have hlast := pmap_insert_steps_last L s pdir f uva perm
  refine ⟨?_, ?_, hlast, ?_⟩
  · intro st hst
    rw [hsteps] at hst
    simp only [List.mem_cons, List.mem_singleton, List.not_mem_nil, or_false] at hst
    rcases hst with rfl | rfl | rfl | rfl | rfl | rfl | rfl
    · exact ⟨by omega, hfree⟩
    · exact ⟨by simp [hone], hfree⟩
    · exact ⟨by simp [hone], hfree⟩
    · exact ⟨by simp [hone], by simpa using hfree⟩
    · exact ⟨by simp [mem_decref_dec, hone], by simpa [mem_decref_dec] using hfree⟩
    · exact ⟨by simp [hone], by rw [hfl]; exact hfree⟩
    · exact ⟨by simp [hone], by rw [write_freelist, hfl]; exact hfree⟩
  · rw [hsteps]
    simp [mem_decref_dec, hone]
  · rw [hsteps] at hlast
    simp only [List.getLast?_cons_cons, List.getLast?_singleton, Option.some.injEq] at hlast
    rw [← hlast, write_freelist, hfl]
    exact hfree

/-- C3, at a concrete machine: frame 2 is mapped once at user address 0 and
is inserted there again. -/
theorem pmap_reinsert_never_zero_witness :
    (pmap_insert_steps 0x40000000 exMapped 0x3000 2 0 6).map (fun st => st.refcount 2) =
        [1, 2, 2, 2, 1, 1, 1] ∧
    2 ∉ (pmap_insert 0x40000000 exMapped 0x3000 2 0 6).1.mem_freelist :=
  have h := pmap_reinsert_never_zero 0x40000000 exMapped 0x3000 2 0 6
    (by decide) (by decide) (by decide)
  ⟨h.2.1, h.2.2.2⟩

/-- C4 (as stated, refuted): user address 0 is mapped to frame 2; inserting
frame 1 there with permission value `0x6000` succeeds, yet the lookup
returns frame 7, not frame 1. -/
theorem pmap_replace_high_perm :
    (pmap_lookup 0x40000000 exMapped 0x3000 0).1 = some 2 ∧
    (pmap_insert 0x40000000 exMapped 0x3000 1 0 0x6000).2 = some 0x5000 ∧
    (pmap_lookup 0x40000000 (pmap_insert 0x40000000 exMapped 0x3000 1 0 0x6000).1
        0x3000 0).1 = some 7 ∧
    (pmap_lookup 0x40000000 (pmap_insert 0x40000000 exMapped 0x3000 1 0 0x6000).1
        0x3000 0).1 ≠ some 1 := by
  decide

/-- C4 (amended): in a well-formed directory where `uva` is mapped to frame
`g`, for a known frame `f` different from `g` and a permission value
confined to the low 12 bits, `pmap_insert(pdir, f, uva, perm)` succeeds,
decreases the count of `g` by exactly one, increases the count of `f` by
exactly one, makes `pmap_lookup(pdir, uva)` return `f`; if the count of `g`
reaches zero, `g` is on the free list and is the frame the next `mem_alloc`
returns; and the low 12 bits of the new entry are `perm | PTE_P`, none kept
from the old entry. -/
theorem pmap_replace (L : Nat) (s : State) (pdir f g uva perm : Nat)
    (hn : s.mem_npage ≤ 2 ^ 20) (hd : PdirOK s pdir) (hf : f < s.mem_npage)
    (hperm : perm < 4096) (hfg : f ≠ g)
    (hmap : (pmap_lookup L s pdir uva).1 = some g) :
    (pmap_insert L s pdir f uva perm).2 = some (slot_ptr L s pdir uva) ∧
    (pmap_insert L s pdir f uva perm).1.refcount g = s.refcount g - 1 ∧
    (pmap_insert L s pdir f uva perm).1.refcount f = s.refcount f + 1 ∧
    (pmap_lookup L (pmap_insert L s pdir f uva perm).1 pdir uva).1 = some f ∧
    ((pmap_insert L s pdir f uva perm).1.refcount g = 0 →
      g ∈ (pmap_insert L s pdir f uva perm).1.mem_freelist ∧
      (mem_alloc (pmap_insert L s pdir f uva perm).1).2 = some g) ∧
    (pmap_insert L s pdir f uva perm).1.mem (slot_ptr L s pdir uva) &&& 0xFFF
      = perm ||| PTE_P := by
  obtain ⟨h, _, _, _, _⟩ := lookup_some L s pdir uva g hmap
  have hs0 : pde_ptr L pdir uva ≠ slot_ptr L s pdir uva :=
    Ne.symm (slot_ne_pde L s pdir uva hd h _ (PDX_lt _))
  have hgf : g ≠ f := Ne.symm hfg
  rw [insert_present_mapped L s pdir f uva perm g hmap]
  dsimp only
  have e1 : ((mem_decref (pmap_invl L ((mem_incref s f).write (slot_ptr L s pdir uva) 0)
      pdir uva) g).write (slot_ptr L s pdir uva) (pte_word f perm)).mem (pde_ptr L pdir uva)
      = s.mem (pde_ptr L pdir uva) := by
    rw [write_mem, if_neg hs0, decref_mem, invl_mem, write_mem, if_neg hs0, incref_mem]
  have e2 := slot_ptr_congr L s _ pdir uva e1
  have hrg : ((mem_decref (pmap_invl L ((mem_incref s f).write (slot_ptr L s pdir uva) 0)
      pdir uva) g).write (slot_ptr L s pdir uva) (pte_word f perm)).refcount g
      = s.refcount g - 1 := by
    simp [hgf]
  refine ⟨rfl, hrg, ?_, ?_, ?_, ?_⟩
  · simp [hfg]
  · have hw : ((mem_decref (pmap_invl L ((mem_incref s f).write (slot_ptr L s pdir uva) 0)
        pdir uva) g).write (slot_ptr L s pdir uva) (pte_word f perm)).mem
        (slot_ptr L ((mem_decref (pmap_invl L ((mem_incref s f).write
          (slot_ptr L s pdir uva) 0) pdir uva) g).write (slot_ptr L s pdir uva)
          (pte_word f perm)) pdir uva) = pte_word f perm := by
      rw [e2, write_mem, if_pos rfl]
    rw [lookup_of_word L _ pdir uva f perm (by simpa using hn) (by simpa using hf) hperm
      (by rw [e1]; exact h) (by rw [e2]; exact lookup_some_ne L s pdir uva g hmap) hw]
  · intro hz
    rw [hrg] at hz
    have hfl : ((mem_decref (pmap_invl L ((mem_incref s f).write (slot_ptr L s pdir uva) 0)
        pdir uva) g).write (slot_ptr L s pdir uva) (pte_word f perm)).mem_freelist
        = g :: s.mem_freelist := by
      rw [write_freelist, decref_freelist, if_pos]
      · simp
      · simp [hgf]; omega
    rw [hfl]
    exact ⟨by simp, mem_alloc_of_cons _ g s.mem_freelist hfl⟩
  · rw [write_mem, if_pos rfl]
    exact (pte_word_facts f perm (Nat.lt_of_lt_of_le hf hn) hperm).2.2

/-- C4 (amended), at a concrete machine: user address 0 is mapped to frame
2, whose only reference this is, and frame 1 is inserted there. -/
theorem pmap_replace_witness :
    (pmap_insert 0x40000000 exMapped 0x3000 1 0 4).1.refcount 2 = exMapped.refcount 2 - 1 ∧
    (pmap_insert 0x40000000 exMapped 0x3000 1 0 4).1.refcount 1 = exMapped.refcount 1 + 1 ∧
    (pmap_lookup 0x40000000 (pmap_insert 0x40000000 exMapped 0x3000 1 0 4).1 0x3000 0).1
      = some 1 :=
  have h := pmap_replace 0x40000000 exMapped 0x3000 1 2 0 4 (by decide) exMapped_PdirOK
    (by decide) (by decide) (by decide) (by decide)
  ⟨h.2.1, h.2.2.1, h.2.2.2.1⟩

/-- C5 (as stated, refuted): the claim takes every frame `f`.  In the empty
machine frame 5 is at the head of the free list and nothing is mapped at
user address 0; `pmap_insert` of frame 5 there succeeds, and its creating
walk takes the same frame 5 as the table, so the count of `f` goes from 0
to 2, not up by one. -/
theorem pmap_insert_free_frame_counts :
    (pmap_lookup 0x40000000 exEmpty 0x3000 0).1 = none ∧
    exEmpty.mem_freelist = [5, 6] ∧
    (pmap_insert 0x40000000 exEmpty 0x3000 5 0 6).2 = some 0x5000 ∧
    exEmpty.refcount 5 = 0 ∧
    (pmap_insert 0x40000000 exEmpty 0x3000 5 0 6).1.refcount 5 = 2 ∧
    (pmap_insert 0x40000000 exEmpty 0x3000 5 0 6).1.refcount 5 ≠ exEmpty.refcount 5 + 1 := by
  decide

/-- C5 (amended): in a well-formed allocator and directory, for an address
`uva` at which nothing is mapped (no table, or no valid present entry) and
a frame `f` that is not on the free list: a successful
`pmap_insert(pdir, f, uva, perm)` increases the count of `f` by exactly
one, and the count of any other frame `q` is unchanged unless the directory
entry of `uva` was absent and `q` is the frame taken from the head of the
free list, which the directory entry of `uva` now names as its table and
whose count is now 1.  A failed `pmap_insert` leaves the count of `f`
unchanged; it returns the state unchanged, except when its creating walk
installed a table and computed the null pointer as the slot. -/
theorem pmap_insert_unmapped_counts (L : Nat) (s : State) (pdir f uva perm : Nat)
    (hm : MemOK s) (hd : PdirOK s pdir) (hfree : f ∉ s.mem_freelist)
    (hun : (pmap_lookup L s pdir uva).1 = none) :
    ((pmap_insert L s pdir f uva perm).2 ≠ none →
      (pmap_insert L s pdir f uva perm).1.refcount f = s.refcount f + 1 ∧
      ∀ q, q ≠ f →
        (pmap_insert L s pdir f uva perm).1.refcount q = s.refcount q ∨
        (s.mem (pde_ptr L pdir uva) &&& PTE_P = 0 ∧ s.mem_freelist.head? = some q ∧
          PTE_ADDR ((pmap_insert L s pdir f uva perm).1.mem (pde_ptr L pdir uva))
            = mem_pi2phys q ∧
          (pmap_insert L s pdir f uva perm).1.mem (pde_ptr L pdir uva) &&& PTE_P ≠ 0 ∧
          s.refcount q = 0 ∧
          (pmap_insert L s pdir f uva perm).1.refcount q = 1)) ∧
    ((pmap_insert L s pdir f uva perm).2 = none →
      (pmap_insert L s pdir f uva perm).1.refcount f = s.refcount f ∧
      ((pmap_insert L s pdir f uva perm).1 = s ∨
        (s.mem (pde_ptr L pdir uva) &&& PTE_P = 0 ∧
          ∃ t r, s.mem_freelist = t :: r ∧ mem_pi2ptr t + 4 * PTX (linaddr L uva) = 0 ∧
            (pmap_insert L s pdir f uva perm).1 = walk_created L s pdir uva t r))) := by
  by_cases h : s.mem (pde_ptr L pdir uva) &&& PTE_P = 0
  · cases hf : s.mem_freelist with
    | nil =>
      rw [insert_nomem L s pdir f uva perm h hf]
      exact ⟨fun hc => absurd rfl hc, fun _ => ⟨rfl, Or.inl rfl⟩⟩
    | cons t r =>
      have ht : t < 1048576 := by
        have := Nat.lt_of_lt_of_le (hm.free_lt t (by simp [hf])) hm.npage_le
        simpa using this
      have hphys : mem_pi2phys t = t * 4096 := by rw [mem_pi2phys_eq]; omega
      have hptr : mem_pi2ptr t = t * 4096 := by rw [mem_pi2ptr, mem_ptr, hphys]
      have hft : f ≠ t := by
        intro hc; apply hfree; rw [hf, hc]; simp
      have hrt : s.refcount t = 0 := hm.free_ref t (by simp [hf])
      by_cases hnz : t * 4096 + 4 * PTX (linaddr L uva) = 0
      · have hnull := insert_created_null L s pdir f uva perm t r h hf (by rw [hptr]; exact hnz)
        rw [hnull]
        refine ⟨fun hc => absurd rfl hc, fun _ => ⟨?_, Or.inr ⟨h, t, r, rfl, ?_, rfl⟩⟩⟩
        · rw [walk_created_refcount, if_neg hft]
        · rw [hptr]; exact hnz
      obtain ⟨he, hslot, hpde⟩ := insert_created L s pdir f uva perm t r hm hd h hf hnz
      rw [he]
      dsimp only
      refine ⟨fun _ => ⟨?_, ?_⟩, fun hc => by cases hc⟩
      · simp [walk_created, hft]
      · intro q hq
        by_cases hqt : q = t
        · right
          subst hqt
          refine ⟨h, by simp, ?_, ?_, hrt, ?_⟩
          · rw [write_mem, if_neg (Ne.symm hslot), incref_mem, hpde, hphys, PTE_ADDR_eq]
            omega
          · rw [write_mem, if_neg (Ne.symm hslot), incref_mem, hpde, and_PTE_P]
            omega
          · simp [walk_created, hq, hrt]
        · left
          simp [walk_created, hq, hqt]
  · by_cases hnz : slot_ptr L s pdir uva = 0
    · rw [insert_null L s pdir f uva perm h hnz]
      exact ⟨fun hc => absurd rfl hc, fun _ => ⟨rfl, Or.inl rfl⟩⟩
    rw [insert_present_unmapped L s pdir f uva perm h hnz hun]
    dsimp only
    refine ⟨fun _ => ⟨by simp, ?_⟩, fun hc => by cases hc⟩
    intro q hq
    left
    simp [hq]

/-- C5 (amended), at a concrete machine: in `exMapped` frame 2 is mapped once
and has count 1, frame 6 is free and user address `0x400000` has no table.
Inserting frame 2 there succeeds, raises its count to 2, makes frame 6 the
table with count 1, and leaves the count of frame 5 as it was. -/
theorem pmap_insert_unmapped_counts_witness :
    exMapped.refcount 2 = 1 ∧ exMapped.refcount 6 = 0 ∧
    (pmap_insert 0x40000000 exMapped 0x3000 2 0x400000 6).2 = some 0x6000 ∧
    (pmap_insert 0x40000000 exMapped 0x3000 2 0x400000 6).1.refcount 2
      = exMapped.refcount 2 + 1 ∧
    (pmap_insert 0x40000000 exMapped 0x3000 2 0x400000 6).1.refcount 6 = 1 ∧
    (pmap_insert 0x40000000 exMapped 0x3000 2 0x400000 6).1.refcount 5
      = exMapped.refcount 5 :=
  have h := (pmap_insert_unmapped_counts 0x40000000 exMapped 0x3000 2 0x400000 6
    exMapped_MemOK exMapped_PdirOK (by decide) (by decide)).1 (by decide)
  ⟨by decide, by decide, by decide, h.1,
    (h.2 6 (by decide)).elim (fun e => absurd e (by decide)) (fun r => r.2.2.2.2.2),
    (h.2 5 (by decide)).elim id (fun r => absurd r.2.1 (by decide))⟩

/-- C6: when `uva` is mapped to frame `f`, after `pmap_remove(pdir, uva)` the
lookup of `uva` returns absent, the count of `f` is one less than before,
and `f` is pushed on the allocator's free list exactly when that count has
reached zero, which is when the removed mapping was its only reference;
otherwise the free list is as before. -/
theorem pmap_remove_mapped (L : Nat) (s : State) (pdir uva f : Nat)
    (hmap : (pmap_lookup L s pdir uva).1 = some f) :
    (pmap_lookup L (pmap_remove L s pdir uva) pdir uva).1 = none ∧
    (pmap_remove L s pdir uva).refcount f = s.refcount f - 1 ∧
    ((pmap_remove L s pdir uva).refcount f = 0 ↔ s.refcount f = 1) ∧
    ((pmap_remove L s pdir uva).refcount f = 0 →
      (pmap_remove L s pdir uva).mem_freelist = f :: s.mem_freelist) ∧
    ((pmap_remove L s pdir uva).refcount f ≠ 0 →
      (pmap_remove L s pdir uva).mem_freelist = s.mem_freelist) := by
  obtain ⟨h, _, _, _, he⟩ := lookup_some L s pdir uva f hmap
  rw [remove_of_lookup L s pdir uva f _ he]
  have hr : (mem_decref (pmap_invl L (s.write (slot_ptr L s pdir uva) 0) pdir uva) f).refcount f
      = s.refcount f - 1 := by simp
  have hfl : (mem_decref (pmap_invl L (s.write (slot_ptr L s pdir uva) 0) pdir uva)
      f).mem_freelist = if s.refcount f = 1 then f :: s.mem_freelist else s.mem_freelist := by
    rw [decref_freelist]
    simp
  refine ⟨?_, hr, ?_, ?_, ?_⟩
  · rw [lookup_congr L (s.write (slot_ptr L s pdir uva) 0) _ pdir uva (by simp) (by simp)]
    by_cases hc : pde_ptr L pdir uva = slot_ptr L s pdir uva
    · rw [lookup_absent L _ pdir uva (by rw [write_mem, if_pos hc]; simp)]
    · have e1 : (s.write (slot_ptr L s pdir uva) 0).mem (pde_ptr L pdir uva)
          = s.mem (pde_ptr L pdir uva) := by rw [write_mem, if_neg hc]
      have e2 := slot_ptr_congr L s _ pdir uva e1
      rw [lookup_present L _ pdir uva (by rw [e1]; exact h)
        (by rw [e2]; exact lookup_some_ne L s pdir uva f hmap), e2, if_pos]
      rw [write_mem, if_pos rfl]
  · rw [hr]; omega
  · intro hz
    rw [hr] at hz
    rw [hfl, if_pos (by omega)]
  · intro hz
    rw [hr] at hz
    rw [hfl, if_neg (by omega)]

/-- C6, at a concrete machine: user address 0 holds the only reference to
frame 2. -/
theorem pmap_remove_mapped_witness :
    (pmap_lookup 0x40000000 (pmap_remove 0x40000000 exMapped 0x3000 0) 0x3000 0).1 = none ∧
    (pmap_remove 0x40000000 exMapped 0x3000 0).refcount 2 = exMapped.refcount 2 - 1 :=
  have h := pmap_remove_mapped 0x40000000 exMapped 0x3000 0 2 (by decide)
  ⟨h.1, h.2.1⟩

/-- C7: when the lookup of `uva` returns absent, `pmap_remove(pdir, uva)`
returns the state it was given, so no directory word, table word or
reference count changes, the free list is as before and nothing is added
to the log of invalidations; and it passes through no intermediate state. -/
theorem pmap_remove_unmapped (L : Nat) (s : State) (pdir uva : Nat)
    (hun : (pmap_lookup L s pdir uva).1 = none) :
    pmap_remove L s pdir uva = s ∧
    (pmap_remove L s pdir uva).invlpg_log = s.invlpg_log ∧
    pmap_remove_steps L s pdir uva = [] := by
  have e := remove_of_none L s pdir uva hun
  refine ⟨e, by rw [e], ?_⟩
  unfold pmap_remove_steps
  split
  · rename_i heq
    rw [heq] at hun
    cases hun
  · rfl

/-- C7, at a concrete machine: user address `0x1000` is not mapped. -/
theorem pmap_remove_unmapped_witness :
    pmap_remove 0x40000000 exMapped 0x3000 0x1000 = exMapped :=
  (pmap_remove_unmapped 0x40000000 exMapped 0x3000 0x1000 (by decide)).1

/-- C8: in a well-formed directory, for addresses `a` and `b` on different
linear pages, `pmap_remove(pdir, a)` leaves the lookup of `b`, the
directory entry of `b` and (when that entry is present) the slot of `b` and
the word stored in it as they were; and when `a` and `b` map the same frame
`f`, which is not free and carries a reference for each of the two
mappings, the count of `f` is reduced by one and `f` is still not on the
free list. -/
theorem pmap_remove_other_page (L : Nat) (s : State) (pdir a b : Nat)
    (hd : PdirOK s pdir) (hab : PPN (linaddr L a) ≠ PPN (linaddr L b)) :
    pmap_lookup L (pmap_remove L s pdir a) pdir b = pmap_lookup L s pdir b ∧
    (pmap_remove L s pdir a).mem (pde_ptr L pdir b) = s.mem (pde_ptr L pdir b) ∧
    (s.mem (pde_ptr L pdir b) &&& PTE_P ≠ 0 →
      slot_ptr L (pmap_remove L s pdir a) pdir b = slot_ptr L s pdir b ∧
      (pmap_remove L s pdir a).mem (slot_ptr L s pdir b) = s.mem (slot_ptr L s pdir b)) ∧
    (∀ f, (pmap_lookup L s pdir a).1 = some f → (pmap_lookup L s pdir b).1 = some f →
      2 ≤ s.refcount f → f ∉ s.mem_freelist →
      (pmap_remove L s pdir a).refcount f = s.refcount f - 1 ∧
      f ∉ (pmap_remove L s pdir a).mem_freelist) := by
  by_cases ha : s.mem (pde_ptr L pdir a) &&& PTE_P = 0
  · have hn : (pmap_lookup L s pdir a).1 = none := by rw [lookup_absent L s pdir a ha]
    rw [remove_of_none L s pdir a hn]
    refine ⟨rfl, rfl, fun _ => ⟨rfl, rfl⟩, ?_⟩
    intro f hf
    rw [hn] at hf
    cases hf
  · have hpb : pde_ptr L pdir b ≠ slot_ptr L s pdir a :=
      Ne.symm (slot_ne_pde L s pdir a hd ha _ (PDX_lt _))
    have e1 : (pmap_remove L s pdir a).mem (pde_ptr L pdir b) = s.mem (pde_ptr L pdir b) :=
      remove_mem_of_ne L s pdir a _ hpb
    have e2 : s.mem (pde_ptr L pdir b) &&& PTE_P ≠ 0 →
        (pmap_remove L s pdir a).mem (slot_ptr L s pdir b) = s.mem (slot_ptr L s pdir b) :=
      fun hb => remove_mem_of_ne L s pdir a _ (Ne.symm (slot_ne_slot L s pdir a b hd hab ha hb))
    refine ⟨lookup_congr_words L s _ pdir b e1 e2 (remove_npage L s pdir a), e1,
      fun hb => ⟨slot_ptr_congr L s _ pdir b e1, e2 hb⟩, ?_⟩
    intro f hfa _ h2 hfree
    obtain ⟨_, _, _, _, he⟩ := lookup_some L s pdir a f hfa
    rw [remove_of_lookup L s pdir a f _ he]
    refine ⟨by simp, ?_⟩
    rw [decref_freelist, if_neg]
    · simpa using hfree
    · simp; omega

/-- C8, at a concrete machine: user addresses 0 and `0x1000` both map frame
2; the mapping at 0 is removed. -/
theorem pmap_remove_other_page_witness :
    pmap_lookup 0x40000000 (pmap_remove 0x40000000 exShared 0x3000 0) 0x3000 0x1000
      = pmap_lookup 0x40000000 exShared 0x3000 0x1000 ∧
    (pmap_remove 0x40000000 exShared 0x3000 0).refcount 2 = exShared.refcount 2 - 1 ∧
    2 ∉ (pmap_remove 0x40000000 exShared 0x3000 0).mem_freelist :=
  have h := pmap_remove_other_page 0x40000000 exShared 0x3000 0 0x1000 exShared_PdirOK
    (by decide)
  ⟨h.1, h.2.2.2 2 (by decide) (by decide) (by decide) (by decide)⟩

theorem exOne_mem : exOne.mem = fun x =>
    if x = 0x5000 then 0x2007 else if x = 0x3400 then 0x5007
    else if 0x5000 ≤ x ∧ x < 0x5000 + 4096 then 0 else 0 := rfl

/-- C10: when the free list is empty and the directory entry of `uva` is
absent, `pmap_insert(pdir, f, uva, perm)` returns `NULL` and the state it
was given (memory, every reference count including that of `f`, free list),
passing through no other state, and `pmap_lookup(pdir, uva)` returns absent
before and after. -/
theorem pmap_insert_nomem_atomic (L : Nat) (s : State) (pdir f uva perm : Nat)
    (hempty : s.mem_freelist = []) (habs : s.mem (pde_ptr L pdir uva) &&& PTE_P = 0) :
    pmap_insert L s pdir f uva perm = (s, none) ∧
    pmap_insert_steps L s pdir f uva perm = [s] ∧
    (pmap_insert L s pdir f uva perm).1.refcount f = s.refcount f ∧
    (pmap_lookup L s pdir uva).1 = none ∧
    (pmap_lookup L (pmap_insert L s pdir f uva perm).1 pdir uva).1 = none := by
  have e := insert_nomem L s pdir f uva perm habs hempty
  have hl : (pmap_lookup L s pdir uva).1 = none := by rw [lookup_absent L s pdir uva habs]
  refine ⟨e, ?_, by rw [e], hl, by rw [e]; exact hl⟩
  unfold pmap_insert_steps
  rw [walk_absent_nil L s pdir uva habs hempty]

/-- C10, at a concrete machine: an empty directory and no free frame. -/
theorem pmap_insert_nomem_atomic_witness :
    pmap_insert 0x40000000 exNoMem 0x3000 2 0 6 = (exNoMem, none) ∧
    (pmap_lookup 0x40000000 (pmap_insert 0x40000000 exNoMem 0x3000 2 0 6).1 0x3000 0).1
      = none :=
  have h := pmap_insert_nomem_atomic 0x40000000 exNoMem 0x3000 2 0 6 (by decide) (by decide)
  ⟨h.1, h.2.2.2.2⟩

/-- C11 (as stated, refuted): in `exKernel` entry 0 of the directory at
`0x3000` is the present large-page entry `0x183` and frame 6 is free.  User
address `0xC0000000` is taken to linear address 0, so the creating walk
returns slot 0 of the "table" at physical address 0: the null pointer.
`pmap_insert` returns `NULL` and leaves the machine as it was, although the
directory entry is present and the allocator could supply a frame. -/
theorem pmap_insert_null_slot_fails :
    linaddr 0x40000000 0xC0000000 = 0 ∧
    exKernel.mem (pde_ptr 0x40000000 0x3000 0xC0000000) = 0x183 ∧
    exKernel.mem (pde_ptr 0x40000000 0x3000 0xC0000000) &&& PTE_P ≠ 0 ∧
    (mem_alloc exKernel).2 = some 6 ∧
    (pmap_walk 0x40000000 exKernel 0x3000 0xC0000000 true).2 = some 0 ∧
    (pmap_insert 0x40000000 exKernel 0x3000 2 0xC0000000 6).2 = none ∧
    (pmap_insert 0x40000000 exKernel 0x3000 2 0xC0000000 6).1.refcount 2
      = exKernel.refcount 2 := by
  decide

/-- C11 (amended): `pmap_insert(pdir, f, uva, perm)` returns `NULL` if and
only if either the directory entry of `uva` is absent and `mem_alloc`
returns no frame, or the slot computed by its creating walk is the null
pointer; the walk computes the null pointer exactly when the table (the
one named by a present entry, or the frame just taken from the free list)
lies at address 0 and the table index of `uva` is 0.  When the directory
entry is present and the slot is not the null pointer the insert returns
the slot of `uva` whatever the free list holds (also when it is empty),
and leaves the free list untouched unless the nested `pmap_remove` frees
the old occupant; with the entry present it makes no call of `mem_alloc`
in either case. -/
theorem pmap_insert_fails_iff (L : Nat) (s : State) (pdir f uva perm : Nat) :
    ((pmap_insert L s pdir f uva perm).2 = none ↔
      (s.mem (pde_ptr L pdir uva) &&& PTE_P = 0 ∧ (mem_alloc s).2 = none) ∨
      (pmap_walk L s pdir uva true).2 = some 0) ∧
    ((pmap_walk L s pdir uva true).2 = some 0 ↔
      (s.mem (pde_ptr L pdir uva) &&& PTE_P ≠ 0 ∧ slot_ptr L s pdir uva = 0) ∨
      (s.mem (pde_ptr L pdir uva) &&& PTE_P = 0 ∧
        ∃ t r, s.mem_freelist = t :: r ∧ mem_pi2ptr t + 4 * PTX (linaddr L uva) = 0)) ∧
    (s.mem (pde_ptr L pdir uva) &&& PTE_P ≠ 0 →
      pmap_insert_allocs L s pdir f uva = 0 ∧
      (slot_ptr L s pdir uva ≠ 0 →
        (pmap_insert L s pdir f uva perm).2 = some (slot_ptr L s pdir uva) ∧
        ((pmap_lookup L s pdir uva).1 = none →
          (pmap_insert L s pdir f uva perm).1.mem_freelist = s.mem_freelist))) := by
  refine ⟨?_, ?_, ?_⟩
  · by_cases h : s.mem (pde_ptr L pdir uva) &&& PTE_P = 0
    · cases hf : s.mem_freelist with
      | nil =>
        rw [insert_nomem L s pdir f uva perm h hf, walk_absent_nil L s pdir uva h hf]
        simp [h, mem_alloc, hf]
      | cons t r =>
        rw [walk_absent_cons L s pdir uva t r h hf, mem_alloc_of_cons s t r hf]
        by_cases hz : mem_pi2ptr t + 4 * PTX (linaddr L uva) = 0
        · rw [insert_created_null L s pdir f uva perm t r h hf hz]
          simp [hz]
        · have e : (pmap_insert L s pdir f uva perm).2
              = some (mem_pi2ptr t + 4 * PTX (linaddr L uva)) := by
            unfold pmap_insert
            rw [walk_absent_cons L s pdir uva t r h hf]
            dsimp only
            rw [if_neg hz]
          rw [e]
          simp [hz]
    · rw [walk_present L s pdir uva true h]
      by_cases hz : slot_ptr L s pdir uva = 0
      · rw [insert_null L s pdir f uva perm h hz]
        simp [hz]
      · rw [insert_present L s pdir f uva perm h hz]
        simp [h, hz]
  · by_cases h : s.mem (pde_ptr L pdir uva) &&& PTE_P = 0
    · cases hf : s.mem_freelist with
      | nil =>
        rw [walk_absent_nil L s pdir uva h hf]
        simp [h]
      | cons t r =>
        rw [walk_absent_cons L s pdir uva t r h hf]
        simp [h]
    · rw [walk_present L s pdir uva true h]
      simp [h]
  · intro h
    refine ⟨?_, fun hz => ⟨by rw [insert_present L s pdir f uva perm h hz], ?_⟩⟩
    · unfold pmap_insert_allocs
      have e1 := pmap_walk_counted_fst L s pdir uva true
      have e2 := walk_counted_present L s pdir uva true h
      rw [walk_present L s pdir uva true h] at e1
      have e3 : pmap_walk_counted L s pdir uva true = ((s, some (slot_ptr L s pdir uva)), 0) := by
        rw [← e1, ← e2]
      rw [e3]
      dsimp only
      rw [walk_counted_nocreate]
      simp
    · intro hn
      rw [insert_present_unmapped L s pdir f uva perm h hz hn]
      simp

/-- C11 (amended), at concrete machines: in `exFull` no frame is free, the
directory entry of user address `0x1000` is present and the slot is at
`0x5004`; a frame is inserted there without a call of `mem_alloc`.  In
`exNoMem` no frame is free and the directory entry is absent: the insert
fails. -/
theorem pmap_insert_fails_iff_witness :
    exFull.mem_freelist = [] ∧
    (pmap_insert 0x40000000 exFull 0x3000 1 0x1000 6).2 = some 0x5004 ∧
    pmap_insert_allocs 0x40000000 exFull 0x3000 1 0x1000 = 0 ∧
    (pmap_insert 0x40000000 exNoMem 0x3000 2 0 6).2 = none :=
  have h := (pmap_insert_fails_iff 0x40000000 exFull 0x3000 1 0x1000 6).2.2 (by decide)
  ⟨rfl, (h.2 (by decide)).1, h.1,
    (pmap_insert_fails_iff 0x40000000 exNoMem 0x3000 2 0 6).1.mpr
      (Or.inl ⟨by decide, by decide⟩)⟩

/-- C12: when the directory entry of `uva` is absent, `pmap_walk` with
`create = 0` returns `NULL`, makes no call of `mem_alloc`, and returns the
state it was given: memory (the directory and all tables), all reference
counts and the free list are unchanged. -/
theorem pmap_walk_nocreate_absent (L : Nat) (s : State) (pdir uva : Nat)
    (habs : s.mem (pde_ptr L pdir uva) &&& PTE_P = 0) :
    pmap_walk L s pdir uva false = (s, none) ∧
    (pmap_walk_counted L s pdir uva false).2 = 0 ∧
    (pmap_walk_counted L s pdir uva false).1 = pmap_walk L s pdir uva false :=
  ⟨walk_absent_nocreate L s pdir uva habs, walk_counted_nocreate L s pdir uva,
    pmap_walk_counted_fst L s pdir uva false⟩

/-- C12, at a concrete machine: an empty directory. -/
theorem pmap_walk_nocreate_absent_witness :
    pmap_walk 0x40000000 exEmpty 0x3000 0 false = (exEmpty, none) :=
  (pmap_walk_nocreate_absent 0x40000000 exEmpty 0x3000 0 (by decide)).1

/-- C13: when the directory entry of `uva` is present, `pmap_walk` returns,
for either value of `create`, the address of slot
`PTX(uva + PMAP_LINUSER)` of the table at `PTE_ADDR` of that entry, makes
no call of `mem_alloc`, and returns the state it was given, so the
directory entry, every table word and every reference count are
unchanged. -/
theorem pmap_walk_present (L : Nat) (s : State) (pdir uva : Nat) (create : Bool)
    (hpres : s.mem (pde_ptr L pdir uva) &&& PTE_P ≠ 0) :
    pmap_walk L s pdir uva create =
      (s, some (mem_ptr (PTE_ADDR (s.mem (pde_ptr L pdir uva))) + 4 * PTX (uva + L))) ∧
    (pmap_walk_counted L s pdir uva create).2 = 0 ∧
    (pmap_walk_counted L s pdir uva create).1 = pmap_walk L s pdir uva create := by
  refine ⟨?_, walk_counted_present L s pdir uva create hpres,
    pmap_walk_counted_fst L s pdir uva create⟩
  rw [walk_present L s pdir uva create hpres, ← PTX_linaddr]
  rfl

/-- C13, at a concrete machine: the slot of user address `0x1000` in the
table at `0x5000`, found with `create = 1`. -/
theorem pmap_walk_present_witness :
    pmap_walk 0x40000000 exMapped 0x3000 0x1000 true = (exMapped, some 0x5004) :=
  (pmap_walk_present 0x40000000 exMapped 0x3000 0x1000 true (by decide)).1

/-- C16: `pmap_lookup(pdir, uva)` returns frame `f` if and only if the
non-creating walk returns a slot (a pointer that is not null), the entry in
the slot has the presence bit set, its frame number is below `mem_npage`,
and `f` is the frame at the physical base of the entry; it returns `NULL`
whenever the walk returns `NULL` (explicitly, or as the pointer `0`), the
entry is zero, the presence bit is clear or the frame number is not below
`mem_npage`; and a frame it returns is below `mem_npage`. -/
theorem pmap_lookup_iff (L : Nat) (s : State) (pdir uva : Nat) :
    (∀ f, (pmap_lookup L s pdir uva).1 = some f ↔
      ∃ pte, (pmap_walk L s pdir uva false).2 = some pte ∧ pte ≠ 0 ∧
        s.mem pte &&& PTE_P ≠ 0 ∧ PPN (PTE_ADDR (s.mem pte)) < s.mem_npage ∧
        f = mem_phys2pi (PTE_ADDR (s.mem pte))) ∧
    ((pmap_walk L s pdir uva false).2 = none → (pmap_lookup L s pdir uva).1 = none) ∧
    ((pmap_walk L s pdir uva false).2 = some 0 → pmap_lookup L s pdir uva = (none, none)) ∧
    (∀ pte, (pmap_walk L s pdir uva false).2 = some pte →
      (s.mem pte = 0 ∨ s.mem pte &&& PTE_P = 0 ∨
        s.mem_npage ≤ PPN (PTE_ADDR (s.mem pte))) →
      (pmap_lookup L s pdir uva).1 = none) ∧
    (∀ f, (pmap_lookup L s pdir uva).1 = some f → f < s.mem_npage) := by
  have key : ∀ f, (pmap_lookup L s pdir uva).1 = some f ↔
      ∃ pte, (pmap_walk L s pdir uva false).2 = some pte ∧ pte ≠ 0 ∧
        s.mem pte &&& PTE_P ≠ 0 ∧ PPN (PTE_ADDR (s.mem pte)) < s.mem_npage ∧
        f = mem_phys2pi (PTE_ADDR (s.mem pte)) := by
    intro f
    constructor
    · intro hf
      obtain ⟨h, hP, hr, he, _⟩ := lookup_some L s pdir uva f hf
      exact ⟨slot_ptr L s pdir uva, by rw [walk_present L s pdir uva false h],
        lookup_some_ne L s pdir uva f hf, hP, hr, he⟩
    · rintro ⟨pte, hw, hz, hP, hr, he⟩
      by_cases h : s.mem (pde_ptr L pdir uva) &&& PTE_P = 0
      · rw [walk_absent_nocreate L s pdir uva h] at hw
        cases hw
      · rw [walk_present L s pdir uva false h] at hw
        have hpte : slot_ptr L s pdir uva = pte := by simpa using hw
        subst hpte
        rw [lookup_of_entry L s pdir uva h hz hP hr, he]
  refine ⟨key, ?_, ?_, ?_, ?_⟩
  · intro hw
    cases hl : (pmap_lookup L s pdir uva).1 with
    | none => rfl
    | some f =>
      obtain ⟨pte, hw2, _⟩ := (key f).mp hl
      rw [hw] at hw2
      cases hw2
  · intro hw
    by_cases h : s.mem (pde_ptr L pdir uva) &&& PTE_P = 0
    · exact lookup_absent L s pdir uva h
    · rw [walk_present L s pdir uva false h] at hw
      exact lookup_null L s pdir uva h (by simpa using hw)
  · intro pte hw hbad
    cases hl : (pmap_lookup L s pdir uva).1 with
    | none => rfl
    | some f =>
      obtain ⟨pte2, hw2, _, hP, hr, _⟩ := (key f).mp hl
      rw [hw] at hw2
      have e : pte = pte2 := by simpa using hw2
      subst e
      rcases hbad with h0 | h1 | h2
      · rw [h0] at hP; simp at hP
      · exact absurd h1 hP
      · omega
  · intro f hf
    obtain ⟨_, _, hr, he, _⟩ := lookup_some L s pdir uva f hf
    rw [he, mem_phys2pi_eq]
    rw [PPN_eq] at hr
    exact hr

/-- C16, at concrete machines: a valid entry is returned, an entry naming a
frame outside the known frames and a non-present entry are not. -/
theorem pmap_lookup_iff_witness :
    (pmap_lookup 0x40000000 exMapped 0x3000 0).1 = some 2 ∧
    (pmap_lookup 0x40000000 exBogus 0x3000 0).1 = none ∧
    (pmap_lookup 0x40000000 exStale 0x3000 0).1 = none :=
  ⟨((pmap_lookup_iff 0x40000000 exMapped 0x3000 0).1 2).mpr
      ⟨0x5000, by decide, by decide, by decide, by decide, by decide⟩,
    (pmap_lookup_iff 0x40000000 exBogus 0x3000 0).2.2.2.1 0x5000 (by decide) (by decide),
    (pmap_lookup_iff 0x40000000 exStale 0x3000 0).2.2.2.1 0x5000 (by decide) (by decide)⟩

/-- C18 (as stated, refuted): no process is running and the bootstrap
directory is at `0x3000`, so the directory at `0x4000` is not the one the
spec calls active; `pmap_invl` on the directory at `0x4000` still hands the
linear address to `invlpg`. -/
theorem pmap_invl_no_process :
    exEmpty.proc_cur = none ∧
    spec_active_pdir 0x3000 exEmpty ≠ 0x4000 ∧
    (pmap_invl 0x40000000 exEmpty 0x4000 0x1000).invlpg_log = [0x40001000] ∧
    (pmap_invl 0x40000000 exEmpty 0x4000 0x1000).invlpg_log ≠ exEmpty.invlpg_log := by
  decide

/-- C18 (amended): `pmap_invl(pdir, uva)` flushes if and only if no process
is running or `pdir` is the directory of the current process; when it
flushes it hands exactly the one linear address `PMAP_LINUSER + uva` (in
32-bit arithmetic) to `invlpg`, otherwise the log of flushes is unchanged;
and it changes nothing else.  For a running process this is the claim as
stated; with no process running it flushes for every directory, not only
for the bootstrap directory. -/
theorem pmap_invl_flushes (L : Nat) (s : State) (pdir uva : Nat) :
    ((pmap_invl L s pdir uva).invlpg_log ≠ s.invlpg_log ↔
      (s.proc_cur = none ∨ s.proc_cur = some pdir)) ∧
    ((s.proc_cur = none ∨ s.proc_cur = some pdir) →
      (pmap_invl L s pdir uva).invlpg_log = ((L + uva) % 2 ^ 32) :: s.invlpg_log) ∧
    (¬ (s.proc_cur = none ∨ s.proc_cur = some pdir) → pmap_invl L s pdir uva = s) ∧
    (∀ pmap_bootpdir, s.proc_cur ≠ none →
      ((pmap_invl L s pdir uva).invlpg_log ≠ s.invlpg_log ↔
        pdir = spec_active_pdir pmap_bootpdir s)) ∧
    (pmap_invl L s pdir uva).mem = s.mem ∧
    (pmap_invl L s pdir uva).refcount = s.refcount ∧
    (pmap_invl L s pdir uva).mem_freelist = s.mem_freelist := by
  have hne : ∀ (a : Nat) (l : List Nat), a :: l ≠ l := by
    intro a l hc
    have := congrArg List.length hc
    simp at this
  refine ⟨?_, ?_, ?_, ?_, by simp, by simp, by simp⟩
  · unfold pmap_invl
    cases hc : s.proc_cur with
    | none => simp [mem_ptr, hne]
    | some p =>
      by_cases hp : p = pdir
      · simp [hp, mem_ptr, hne]
      · simp [hp]
  · intro h
    unfold pmap_invl
    rcases h with h | h
    · rw [h]; rfl
    · rw [h]; simp [mem_ptr]
  · intro h
    unfold pmap_invl
    cases hc : s.proc_cur with
    | none => exact absurd (Or.inl hc) h
    | some p =>
      have hp : p ≠ pdir := by
        intro hp; apply h; right; rw [hc, hp]
      simp [hp]
  · intro b hcur
    unfold pmap_invl spec_active_pdir
    cases hc : s.proc_cur with
    | none => exact absurd hc hcur
    | some p =>
      by_cases hp : p = pdir
      · simp [hp, mem_ptr, hne]
      · have hp2 : ¬ pdir = p := fun h => hp h.symm
        simp [hp, hp2]

/-- C18 (amended), at a concrete machine: the process whose directory is at
`0x3000` is running; its directory is flushed, the one at `0x4000` is not. -/
theorem pmap_invl_flushes_witness :
    (pmap_invl 0x40000000 exBogus 0x3000 0x1000).invlpg_log = [0x40001000] ∧
    pmap_invl 0x40000000 exBogus 0x4000 0x1000 = exBogus :=
  ⟨(pmap_invl_flushes 0x40000000 exBogus 0x3000 0x1000).2.1 (by decide),
    (pmap_invl_flushes 0x40000000 exBogus 0x4000 0x1000).2.2.1 (by decide)⟩

/-- C14: in a well-formed machine, when `pmap_walk` with `create = 1` finds
the directory entry of `uva` absent and the allocator supplies frame `t`,
then afterwards the directory entry names `t` as the table, every one of
the 1024 slots of `t` is zero (so its presence bit is clear) whatever the
frame held before, the returned slot is one of them, and `pmap_lookup`
returns absent for every address of the region. -/
theorem pmap_walk_new_table_cleared (L : Nat) (s : State) (pdir uva t : Nat) (r : List Nat)
    (hm : MemOK s) (hd : PdirOK s pdir)
    (habs : s.mem (pde_ptr L pdir uva) &&& PTE_P = 0) (hf : s.mem_freelist = t :: r) :
    (pmap_walk L s pdir uva true).2 = some (mem_pi2ptr t + 4 * PTX (linaddr L uva)) ∧
    (pmap_walk L s pdir uva true).1.mem (pde_ptr L pdir uva) &&& PTE_P ≠ 0 ∧
    mem_ptr (PTE_ADDR ((pmap_walk L s pdir uva true).1.mem (pde_ptr L pdir uva)))
      = mem_pi2ptr t ∧
    (∀ j, j < NPTENTRIES → (pmap_walk L s pdir uva true).1.mem (mem_pi2ptr t + 4 * j) = 0) ∧
    (∀ j, j < NPTENTRIES →
      (pmap_walk L s pdir uva true).1.mem (mem_pi2ptr t + 4 * j) &&& PTE_P = 0) ∧
    (pmap_walk L s pdir uva true).1.mem (mem_pi2ptr t + 4 * PTX (linaddr L uva)) = 0 ∧
    (∀ b, PDX (linaddr L b) = PDX (linaddr L uva) →
      (pmap_lookup L (pmap_walk L s pdir uva true).1 pdir b).1 = none) := by
  obtain ⟨ht, hphys, hptr, hne, hal⟩ := free_frame_facts s pdir t hm hd (by simp [hf])
  have h5 := PDX_lt (linaddr L uva)
  rw [walk_absent_cons L s pdir uva t r habs hf]
  dsimp only
  have hpde : (walk_created L s pdir uva t r).mem (pde_ptr L pdir uva) = t * 4096 + 7 := by
    rw [walk_created_mem, if_pos rfl, pde_word_eq t (by simpa using ht)]
  have hslots : ∀ j, j < 1024 → (walk_created L s pdir uva t r).mem (mem_pi2ptr t + 4 * j) = 0 := by
    intro j hj
    rw [walk_created_mem, if_neg, if_pos]
    · unfold PAGESIZE; omega
    · rw [hptr]; unfold pde_ptr; omega
  have hP : (walk_created L s pdir uva t r).mem (pde_ptr L pdir uva) &&& PTE_P ≠ 0 := by
    rw [hpde, and_PTE_P]; omega
  have htab : mem_ptr (PTE_ADDR ((walk_created L s pdir uva t r).mem (pde_ptr L pdir uva)))
      = mem_pi2ptr t := by
    rw [hpde, hptr, mem_ptr, PTE_ADDR_eq]; omega
  refine ⟨rfl, hP, htab, hslots, ?_, hslots _ (PTX_lt _), ?_⟩
  · intro j hj
    rw [hslots j hj]
    simp
  · intro b hb
    have hpb : pde_ptr L pdir b = pde_ptr L pdir uva := by unfold pde_ptr; rw [hb]
    have hPb : (walk_created L s pdir uva t r).mem (pde_ptr L pdir b) &&& PTE_P ≠ 0 := by
      rw [hpb]; exact hP
    have hsb : slot_ptr L (walk_created L s pdir uva t r) pdir b
        = mem_pi2ptr t + 4 * PTX (linaddr L b) := by
      unfold slot_ptr
      rw [hpb, htab]
    by_cases hz : slot_ptr L (walk_created L s pdir uva t r) pdir b = 0
    · rw [lookup_null L _ pdir b hPb hz]
    · rw [lookup_present L _ pdir b hPb hz, hsb, if_pos (hslots _ (PTX_lt _))]

/-- C14, at a concrete machine whose free frames are not clear: every word
of frame 5 holds `0x2007`, a present mapping of frame 2, before the walk
takes frame 5 as the table; afterwards slot 2 and the returned slot are
zero, and the lookup of `0x2000` in the region returns absent. -/
theorem pmap_walk_new_table_cleared_witness :
    exDirty.mem 0x5000 = 0x2007 ∧ exDirty.mem 0x5008 = 0x2007 ∧
    (pmap_walk 0x40000000 exDirty 0x3000 0 true).2 = some 0x5000 ∧
    (pmap_walk 0x40000000 exDirty 0x3000 0 true).1.mem 0x5008 = 0 ∧
    (pmap_walk 0x40000000 exDirty 0x3000 0 true).1.mem 0x5000 = 0 ∧
    (pmap_lookup 0x40000000 (pmap_walk 0x40000000 exDirty 0x3000 0 true).1
      0x3000 0x2000).1 = none :=
  have h := pmap_walk_new_table_cleared 0x40000000 exDirty 0x3000 0 5 [6]
    exDirty_MemOK exDirty_PdirOK (by decide) rfl
  ⟨by decide, by decide, h.1, h.2.2.2.1 2 (by decide), h.2.2.2.2.2.1,
    h.2.2.2.2.2.2 0x2000 (by decide)⟩

/-- C15: in a well-formed machine, when `pmap_walk` with `create = 1` finds
the directory entry of `uva` absent and the allocator supplies frame `t`
(whose count is 0 while it is free), then afterwards the count of `t` is
exactly 1 and no other count has changed, `t` has left the free list, the
directory entry of `uva` equals `mem_pi2phys(t) | PTE_P | PTE_W | PTE_U`,
every other entry of the directory is unchanged, and the returned slot is
slot `PTX(uva + PMAP_LINUSER)` of `t`. -/
theorem pmap_walk_new_table_linked (L : Nat) (s : State) (pdir uva t : Nat) (r : List Nat)
    (hm : MemOK s) (hd : PdirOK s pdir)
    (habs : s.mem (pde_ptr L pdir uva) &&& PTE_P = 0) (hf : s.mem_freelist = t :: r) :
    s.refcount t = 0 ∧
    (pmap_walk L s pdir uva true).1.refcount t = 1 ∧
    (∀ q, q ≠ t → (pmap_walk L s pdir uva true).1.refcount q = s.refcount q) ∧
    (pmap_walk L s pdir uva true).1.mem_freelist = r ∧
    (pmap_walk L s pdir uva true).1.mem (pde_ptr L pdir uva)
      = mem_pi2phys t ||| PTE_P ||| PTE_W ||| PTE_U ∧
    (∀ i, i < NPDENTRIES → i ≠ PDX (linaddr L uva) →
      (pmap_walk L s pdir uva true).1.mem (pdir + 4 * i) = s.mem (pdir + 4 * i)) ∧
    (pmap_walk L s pdir uva true).2 = some (mem_pi2ptr t + 4 * PTX (uva + L)) := by
  obtain ⟨ht, hphys, hptr, hne, hal⟩ := free_frame_facts s pdir t hm hd (by simp [hf])
  have h0 : s.refcount t = 0 := hm.free_ref t (by simp [hf])
  rw [walk_absent_cons L s pdir uva t r habs hf]
  dsimp only
  refine ⟨h0, ?_, ?_, rfl, ?_, ?_, by rw [PTX_linaddr]⟩
  · rw [walk_created_refcount, if_pos rfl, h0]; rfl
  · intro q hq
    rw [walk_created_refcount, if_neg hq]
  · rw [walk_created_mem, if_pos rfl]
    have e := pde_word_eq t (by simpa using ht)
    rw [e]
    have e2 : (mem_pi2phys t ||| PTE_P ||| PTE_W ||| PTE_U) % 2 ^ 32
        = mem_pi2phys t ||| PTE_P ||| PTE_W ||| PTE_U := by
      apply Nat.mod_eq_of_lt
      have a1 : mem_pi2phys t < 2 ^ 32 := by rw [hphys]; omega
      exact Nat.or_lt_two_pow (Nat.or_lt_two_pow (Nat.or_lt_two_pow a1 (by decide))
        (by decide)) (by decide)
    rw [← e2, e]
  · intro i hi hne2
    unfold NPDENTRIES at hi
    rw [walk_created_mem, if_neg, if_neg]
    · rw [hptr]; unfold PAGESIZE; omega
    · unfold pde_ptr; omega

/-- C15, at a concrete machine: the first walk in an empty directory takes
frame 5 as the table. -/
theorem pmap_walk_new_table_linked_witness :
    (pmap_walk 0x40000000 exEmpty 0x3000 0 true).1.refcount 5 = 1 ∧
    (pmap_walk 0x40000000 exEmpty 0x3000 0 true).1.mem (pde_ptr 0x40000000 0x3000 0)
      = mem_pi2phys 5 ||| PTE_P ||| PTE_W ||| PTE_U :=
  have h := pmap_walk_new_table_linked 0x40000000 exEmpty 0x3000 0 5 [6]
    exEmpty_MemOK exEmpty_PdirOK (by decide) rfl
  ⟨h.2.1, h.2.2.2.2.1⟩

/-- C19 (as stated, refuted): the directory at `0x3000` is the one of the
running process and the slot of user address 0 holds the present entry
`0xFFFFF001`, whose frame number is not below `mem_npage`.  `pmap_insert`
of frame 2 finds the presence bit set and calls `pmap_remove`, whose
`pmap_lookup` returns `NULL` for the out-of-range frame; the entry is then
overwritten, and in no state the operation passes through has any address
been handed to `invlpg`. -/
theorem pmap_insert_bogus_no_invl :
    exBogus.proc_cur = some 0x3000 ∧
    exBogus.mem 0x5000 &&& PTE_P ≠ 0 ∧
    (pmap_insert 0x40000000 exBogus 0x3000 2 0 6).2 = some 0x5000 ∧
    (pmap_insert 0x40000000 exBogus 0x3000 2 0 6).1.mem 0x5000 = 0x2007 ∧
    (pmap_insert 0x40000000 exBogus 0x3000 2 0 6).1.invlpg_log = [] ∧
    (pmap_insert_steps 0x40000000 exBogus 0x3000 2 0 6).map (fun st => st.invlpg_log)
      = [[], [], []] := by
  decide

/-- C19 (amended): let `pdir` be the active directory (no process is
running, or the running process has `pdir`).  When the page table of `uva`
exists, the slot pointer is not null and the entry in the slot has the
presence bit set and names a known frame (its frame number is below
`mem_npage`), then `pmap_insert` overwrites the entry and `pmap_remove`
clears it, and each hands the linear address of `uva` to `invlpg` during
the operation.  `pmap_remove` either returns the machine it was given or
clears a present entry and hands the address to `invlpg`.  A present entry
whose frame number is not below `mem_npage` is overwritten by `pmap_insert`
with nothing handed to `invlpg`, and `pmap_remove` leaves it in place. -/
theorem pmap_change_invalidates (L : Nat) (s : State) (pdir f uva perm : Nat)
    (hact : s.proc_cur = none ∨ s.proc_cur = some pdir) :
    ((s.mem (pde_ptr L pdir uva) &&& PTE_P ≠ 0 ∧ slot_ptr L s pdir uva ≠ 0 ∧
        s.mem (slot_ptr L s pdir uva) &&& PTE_P ≠ 0 ∧
        PPN (PTE_ADDR (s.mem (slot_ptr L s pdir uva))) < s.mem_npage) →
      (pmap_insert L s pdir f uva perm).2 = some (slot_ptr L s pdir uva) ∧
      (pmap_insert L s pdir f uva perm).1.mem (slot_ptr L s pdir uva) = pte_word f perm ∧
      (pmap_insert L s pdir f uva perm).1.invlpg_log
        = ((L + uva) % 2 ^ 32) :: s.invlpg_log ∧
      (pmap_remove L s pdir uva).mem (slot_ptr L s pdir uva) = 0 ∧
      (pmap_remove L s pdir uva).invlpg_log = ((L + uva) % 2 ^ 32) :: s.invlpg_log) ∧
    (pmap_remove L s pdir uva = s ∨
      (s.mem (slot_ptr L s pdir uva) &&& PTE_P ≠ 0 ∧
        (pmap_remove L s pdir uva).mem (slot_ptr L s pdir uva) = 0 ∧
        (pmap_remove L s pdir uva).invlpg_log = ((L + uva) % 2 ^ 32) :: s.invlpg_log)) ∧
    ((s.mem (pde_ptr L pdir uva) &&& PTE_P ≠ 0 ∧ slot_ptr L s pdir uva ≠ 0 ∧
        s.mem (slot_ptr L s pdir uva) &&& PTE_P ≠ 0 ∧
        s.mem_npage ≤ PPN (PTE_ADDR (s.mem (slot_ptr L s pdir uva)))) →
      (pmap_insert L s pdir f uva perm).2 = some (slot_ptr L s pdir uva) ∧
      (pmap_insert L s pdir f uva perm).1.mem (slot_ptr L s pdir uva) = pte_word f perm ∧
      (pmap_insert L s pdir f uva perm).1.invlpg_log = s.invlpg_log ∧
      pmap_remove L s pdir uva = s) := by
  have hrm : ∀ g, (pmap_lookup L s pdir uva).1 = some g →
      (pmap_remove L s pdir uva).mem (slot_ptr L s pdir uva) = 0 := by
    intro g hg
    obtain ⟨_, _, _, _, he⟩ := lookup_some L s pdir uva g hg
    rw [remove_of_lookup L s pdir uva g _ he]
    simp
  refine ⟨?_, ?_, ?_⟩
  · rintro ⟨htab, hnz, hP, hr⟩
    have hg : (pmap_lookup L s pdir uva).1
        = some (mem_phys2pi (PTE_ADDR (s.mem (slot_ptr L s pdir uva)))) := by
      rw [lookup_of_entry L s pdir uva htab hnz hP hr]
    obtain ⟨v1, v2⟩ := valid_entry_invalidated L s pdir f uva perm _ hg hact
    refine ⟨?_, ?_, v2, hrm _ hg, v1⟩
    · rw [insert_present_mapped L s pdir f uva perm _ hg]
    · rw [insert_present_mapped L s pdir f uva perm _ hg]
      simp
  · cases hl : (pmap_lookup L s pdir uva).1 with
    | none => exact Or.inl (remove_of_none L s pdir uva hl)
    | some g =>
      obtain ⟨_, hP, _, _, _⟩ := lookup_some L s pdir uva g hl
      exact Or.inr ⟨hP, hrm g hl, (valid_entry_invalidated L s pdir f uva perm g hl hact).1⟩
  · rintro ⟨htab, hnz, hP, hr⟩
    have hn : (pmap_lookup L s pdir uva).1 = none := by
      cases hl : (pmap_lookup L s pdir uva).1 with
      | none => rfl
      | some g =>
        obtain ⟨_, _, hr2, _, _⟩ := lookup_some L s pdir uva g hl
        omega
    rw [insert_present_unmapped L s pdir f uva perm htab hnz hn]
    exact ⟨rfl, by simp, rfl, remove_of_none L s pdir uva hn⟩

/-- C19 (amended), at concrete machines: in `exActive` the directory at
`0x3000` is the one of the running process and user address 0 is mapped to
frame 2; inserting frame 4 there and removing the mapping each hand the
linear address `0x40000000` to `invlpg`.  In `exBogus` the entry names a
frame that is not known and `pmap_remove` leaves the machine as it is. -/
theorem pmap_change_invalidates_witness :
    exActive.mem 0x5000 = 0x2001 ∧ exActive.invlpg_log = [0x7000] ∧
    (pmap_insert 0x40000000 exActive 0x3000 4 0 6).1.mem 0x5000 = 0x4007 ∧
    (pmap_insert 0x40000000 exActive 0x3000 4 0 6).1.invlpg_log = [0x40000000, 0x7000] ∧
    (pmap_remove 0x40000000 exActive 0x3000 0).mem 0x5000 = 0 ∧
    (pmap_remove 0x40000000 exActive 0x3000 0).invlpg_log = [0x40000000, 0x7000] ∧
    pmap_remove 0x40000000 exBogus 0x3000 0 = exBogus :=
  have h := (pmap_change_invalidates 0x40000000 exActive 0x3000 4 0 6 (Or.inr rfl)).1
    ⟨by decide, by decide, by decide, by decide⟩
  ⟨by decide, rfl, h.2.1.trans (by decide), h.2.2.1, h.2.2.2.1, h.2.2.2.2,
    ((pmap_change_invalidates 0x40000000 exBogus 0x3000 2 0 6 (Or.inr rfl)).2.2
      ⟨by decide, by decide, by decide, by decide⟩).2.2.2⟩

/-- C20 (as stated, refuted): the table of user address 0 exists and its slot
holds the non-zero entry `0x2006`, whose presence bit is clear; after
`pmap_remove` the entry is still `0x2006`, not 0. -/
theorem pmap_remove_stale_entry_kept :
    exStale.mem (pde_ptr 0x40000000 0x3000 0) &&& PTE_P ≠ 0 ∧
    slot_ptr 0x40000000 exStale 0x3000 0 = 0x5000 ∧
    exStale.mem 0x5000 = 0x2006 ∧
    (pmap_remove 0x40000000 exStale 0x3000 0).mem 0x5000 = 0x2006 ∧
    (pmap_remove 0x40000000 exStale 0x3000 0).mem 0x5000 ≠ 0 := by
  decide

/-- C20 (amended): let the page table of `uva` exist (its directory entry is
present).  After `pmap_remove(pdir, uva)` the table entry of `uva` is 0
whenever it was 0 before or `pmap_lookup` found a frame there (the slot
pointer is not null and the entry was present and named a known frame); an
entry whose presence bit is clear is left with its prior value,
`pmap_remove` returning the state it was given, as it does when the slot
pointer is null. -/
theorem pmap_remove_entry_after (L : Nat) (s : State) (pdir uva : Nat)
    (htab : s.mem (pde_ptr L pdir uva) &&& PTE_P ≠ 0) :
    (s.mem (slot_ptr L s pdir uva) = 0 →
      (pmap_remove L s pdir uva).mem (slot_ptr L s pdir uva) = 0) ∧
    (∀ f, (pmap_lookup L s pdir uva).1 = some f →
      (pmap_remove L s pdir uva).mem (slot_ptr L s pdir uva) = 0) ∧
    ((slot_ptr L s pdir uva ≠ 0 ∧ s.mem (slot_ptr L s pdir uva) &&& PTE_P ≠ 0 ∧
        PPN (PTE_ADDR (s.mem (slot_ptr L s pdir uva))) < s.mem_npage) →
      (pmap_remove L s pdir uva).mem (slot_ptr L s pdir uva) = 0) ∧
    (s.mem (slot_ptr L s pdir uva) &&& PTE_P = 0 →
      pmap_remove L s pdir uva = s ∧
      (pmap_remove L s pdir uva).mem (slot_ptr L s pdir uva)
        = s.mem (slot_ptr L s pdir uva)) ∧
    (slot_ptr L s pdir uva = 0 → pmap_remove L s pdir uva = s) := by
  have hnone : s.mem (slot_ptr L s pdir uva) &&& PTE_P = 0 →
      (pmap_lookup L s pdir uva).1 = none := by
    intro hz
    cases hl : (pmap_lookup L s pdir uva).1 with
    | none => rfl
    | some f =>
      obtain ⟨_, hP, _⟩ := lookup_some L s pdir uva f hl
      exact absurd hz hP
  have hsome : ∀ f, (pmap_lookup L s pdir uva).1 = some f →
      (pmap_remove L s pdir uva).mem (slot_ptr L s pdir uva) = 0 := by
    intro f hf
    obtain ⟨_, _, _, _, he⟩ := lookup_some L s pdir uva f hf
    rw [remove_of_lookup L s pdir uva f _ he]
    simp
  refine ⟨?_, hsome, ?_, ?_, ?_⟩
  · intro h0
    have hz : s.mem (slot_ptr L s pdir uva) &&& PTE_P = 0 := by rw [h0]; simp
    rw [remove_of_none L s pdir uva (hnone hz)]
    exact h0
  · rintro ⟨hnz, hP, hr⟩
    have he := lookup_of_entry L s pdir uva htab hnz hP hr
    exact hsome _ (by rw [he])
  · intro hz
    have e := remove_of_none L s pdir uva (hnone hz)
    exact ⟨e, by rw [e]⟩
  · intro hz
    exact remove_of_none L s pdir uva (by rw [lookup_null L s pdir uva htab hz])

/-- C20 (amended), at concrete machines: a valid entry is cleared, a non-zero
entry with the presence bit clear is kept. -/
theorem pmap_remove_entry_after_witness :
    (pmap_remove 0x40000000 exMapped 0x3000 0).mem (slot_ptr 0x40000000 exMapped 0x3000 0)
      = 0 ∧
    pmap_remove 0x40000000 exStale 0x3000 0 = exStale :=
  ⟨(pmap_remove_entry_after 0x40000000 exMapped 0x3000 0 (by decide)).2.1 2 (by decide),
    ((pmap_remove_entry_after 0x40000000 exStale 0x3000 0 (by decide)).2.2.2.1
      (by decide)).1⟩

theorem walk_npage (L : Nat) (s : State) (pdir uva : Nat) (c : Bool) :
    (pmap_walk L s pdir uva c).1.mem_npage = s.mem_npage := by
  by_cases h : s.mem (pde_ptr L pdir uva) &&& PTE_P = 0
  · cases c with
    | false => rw [walk_absent_nocreate L s pdir uva h]
    | true =>
      cases hf : s.mem_freelist with
      | nil => rw [walk_absent_nil L s pdir uva h hf]
      | cons t r => rw [walk_absent_cons L s pdir uva t r h hf]; rfl
  · rw [walk_present L s pdir uva c h]

theorem insert_npage (L : Nat) (s : State) (pdir f uva perm : Nat) :
    (pmap_insert L s pdir f uva perm).1.mem_npage = s.mem_npage := by
  have hw := walk_npage L s pdir uva true
  unfold pmap_insert
  split
  · rename_i s1 heq
    rw [heq] at hw
    exact hw
  · rename_i s1 pte heq
    rw [heq] at hw
    dsimp only
    split
    · exact hw
    · rw [write_npage]
      split
      · rw [remove_npage, incref_npage]; exact hw
      · rw [incref_npage]; exact hw

/-- Directories without a present entry hold no reference. -/
theorem total_refs_of_absent (lo hi : Nat) (s : State) (D : List Nat) (q : Nat)
    (h : ∀ d ∈ D, ∀ i, i < 1024 → s.mem (d + 4 * i) &&& PTE_P = 0) :
    total_refs lo hi s D q = 0 := by
  unfold total_refs
  apply sum_map_zero
  intro d hd
  unfold pdir_refs
  apply sum_map_zero
  intro i hi'
  exact pde_refs_absent lo hi s d i q (h d hd i (by simpa [NPDENTRIES] using hi'))

theorem exEmpty_DirsOK : DirsOK 256 960 exEmpty [0x3000] := by
  refine ⟨by decide, by decide, by decide, by decide, by decide, by decide, by decide, ?_, ?_⟩
  · intro d _ i _ _ h
    simp [exEmpty] at h
  · intro d _ d2 _ i i2 _ _ _ _ h
    simp [exEmpty] at h

theorem exEmpty_RefInv : RefInv 256 960 exEmpty [0x3000] := by
  have hz : ∀ q, total_refs 256 960 exEmpty [0x3000] q = 0 := by
    intro q
    apply total_refs_of_absent
    intro d _ i _
    simp [exEmpty]
  constructor
  · intro q _
    rw [hz q]
    rfl
  · intro q _
    rw [hz q]
    exact ⟨by simp [exEmpty], rfl⟩

theorem exOne_pde (i : Nat) (hi : i < 1024) :
    exOne.mem (0x3000 + 4 * i) = if i = 256 then 0x5007 else 0 := by
  rw [exOne_mem]
  dsimp only
  by_cases h : i = 256
  · subst h; rfl
  · rw [if_neg (by omega), if_neg (by omega), if_neg h]
    simp

theorem exOne_DirsOK : DirsOK 256 960 exOne [0x3000] := by
  have a5 : PTE_ADDR 0x5007 = 0x5000 := by decide
  refine ⟨by decide, by decide, by decide, by decide, by decide, by decide, by decide, ?_, ?_⟩
  · intro d hd i _ h2 h d2 hd2
    simp only [List.mem_singleton] at hd hd2
    subst hd; subst hd2
    have hi' : i < 1024 := by omega
    rw [exOne_pde i hi'] at h ⊢
    by_cases h0 : i = 256
    · rw [if_pos h0, a5]; decide
    · rw [if_neg h0] at h; simp at h
  · intro d hd d2 hd2 i i2 _ h2 _ h4 h5 h6 hne
    simp only [List.mem_singleton] at hd hd2
    subst hd; subst hd2
    rw [exOne_pde i (by omega)] at h5
    rw [exOne_pde i2 (by omega)] at h6
    by_cases h0 : i = 256
    · by_cases h1 : i2 = 256
      · rcases hne with hne | hne
        · exact absurd rfl hne
        · omega
      · rw [if_neg h1] at h6; simp at h6
    · rw [if_neg h0] at h5; simp at h5

theorem exEmpty_PmapOK : PmapOK 256 960 exEmpty [0x3000] :=
  ⟨exEmpty_DirsOK, exEmpty_RefInv, fun _ _ _ _ _ => rfl⟩

/-- The empty machine is well formed for every index range. -/
theorem exEmpty_PmapOK_range (lo hi : Nat) (h : hi ≤ 1024) :
    PmapOK lo hi exEmpty [0x3000] := by
  have hz : ∀ q, total_refs lo hi exEmpty [0x3000] q = 0 := by
    intro q
    apply total_refs_of_absent
    intro d _ i _
    simp [exEmpty]
  refine ⟨⟨h, by decide, by decide, by decide, by decide, by decide, by decide, ?_, ?_⟩,
    ⟨?_, ?_⟩, fun _ _ _ _ _ => rfl⟩
  · intro d _ i _ _ h
    simp [exEmpty] at h
  · intro d _ d2 _ i i2 _ _ _ _ h
    simp [exEmpty] at h
  · intro q _
    rw [hz q]
    rfl
  · intro q _
    rw [hz q]
    exact ⟨by simp [exEmpty], rfl⟩

/-- The machine after frame 3 has been inserted at user address 0 of the
empty directory at `0x3000`: frame 5 is the table, the layout of the
directory is well formed and the counts are the numbers of references,
over every index range that holds index 256. -/
theorem exSelf_facts (lo hi : Nat) (h : hi ≤ 1024) (hlo : lo ≤ 256) (hhi : 256 < hi) :
    DirsOK lo hi (pmap_insert 0x40000000 exEmpty 0x3000 3 0 6).1 [0x3000] ∧
    RefInv lo hi (pmap_insert 0x40000000 exEmpty 0x3000 3 0 6).1 [0x3000] := by
  have h0 := exEmpty_PmapOK_range lo hi h
  have hpdx : PDX (linaddr 0x40000000 0) = 256 := by decide
  have e := (insert_created 0x40000000 exEmpty 0x3000 3 0 6 5 [6] exEmpty_MemOK exEmpty_PdirOK
    (by decide) rfl (by decide)).1
  obtain ⟨hW, _, _, hdir, _⟩ := inv_walk_created lo hi 0x40000000 exEmpty [0x3000] 0x3000 0 5
    [6] h0.dirs h0.refs h0.nodir (by decide) (by rw [hpdx]; exact hlo) (by rw [hpdx]; exact hhi)
    (by decide) rfl
  refine ⟨?_, ?_⟩
  · rw [e]
    refine dirsok_of_dirs_eq lo hi _ _ [0x3000] hW ?_ rfl hW.free_lt hW.free_nodup
      hW.free_not_dir
    intro d hd i hi
    simp only [List.mem_singleton] at hd
    subst hd
    have h4 := PTX_lt (linaddr 0x40000000 0)
    rw [write_mem, if_neg (by omega), incref_mem]
  · exact refinv_insert lo hi 0x40000000 exEmpty [0x3000] 0x3000 3 0 6 h0.dirs
      h0.refs (by decide) (by rw [hpdx]; exact hlo) (by rw [hpdx]; exact hhi) (by decide)
      (by decide) (by decide)

theorem exFreed_RefInv (lo hi : Nat) (h : hi ≤ 1024) (hlo : lo ≤ 256) (hhi : 256 < hi) :
    RefInv lo hi exFreed [0x3000] :=
  have hpdx : PDX (linaddr 0x40000000 0) = 256 := by decide
  refinv_remove lo hi 0x40000000 (pmap_insert 0x40000000 exEmpty 0x3000 3 0 6).1 [0x3000]
    0x3000 0 (exSelf_facts lo hi h hlo hhi).1 (exSelf_facts lo hi h hlo hhi).2 (by decide)
    (by rw [hpdx]; exact hlo) (by rw [hpdx]; exact hhi)

set_option maxRecDepth 1000000 in
/-- C17 (as stated, refuted): the invariant of the claim holds in `exFreed`,
the machine reached from the empty one by inserting frame 3, the page of
the directory at `0x3000`, at user address 0 and removing it again; frame 3
then heads the free list.  This is so whether the references are counted
over all 1024 directory entries or over those of user addresses.  Frame 2
is a known frame off the free list and 6 a permission value within the low
12 bits.  Inserting frame 2 at user address `0x400000` allocates frame 3 as
the table of entry 257 and clears it, which wipes the directory:
afterwards frame 5, the table of the wiped entry 256, has count 1 and no
reference, and the invariant no longer holds, under either way of
counting. -/
theorem refcount_invariant_not_kept :
    RefInv 0 1024 exFreed [0x3000] ∧ RefInv 256 960 exFreed [0x3000] ∧
    exFreed.mem_freelist = [3, 6] ∧ mem_pi2phys 3 = 0x3000 ∧
    2 < exFreed.mem_npage ∧ 2 ∉ exFreed.mem_freelist ∧ 6 < 4096 ∧
    (pmap_insert 0x40000000 exFreed 0x3000 2 0x400000 6).2 = some 0x3000 ∧
    exFreed.mem (0x3000 + 4 * 256) = 0x5007 ∧
    (pmap_insert 0x40000000 exFreed 0x3000 2 0x400000 6).1.mem (0x3000 + 4 * 256) = 0 ∧
    (pmap_insert 0x40000000 exFreed 0x3000 2 0x400000 6).1.refcount 5 = 1 ∧
    total_refs 0 1024 (pmap_insert 0x40000000 exFreed 0x3000 2 0x400000 6).1 [0x3000] 5 = 0 ∧
    total_refs 256 960 (pmap_insert 0x40000000 exFreed 0x3000 2 0x400000 6).1 [0x3000] 5 = 0 ∧
    ¬ RefInv 0 1024 (pmap_insert 0x40000000 exFreed 0x3000 2 0x400000 6).1 [0x3000] ∧
    ¬ RefInv 256 960 (pmap_insert 0x40000000 exFreed 0x3000 2 0x400000 6).1 [0x3000] := by
  have ht0 : total_refs 0 1024 (pmap_insert 0x40000000 exFreed 0x3000 2 0x400000 6).1
      [0x3000] 5 = 0 := by decide
  have ht : total_refs 256 960 (pmap_insert 0x40000000 exFreed 0x3000 2 0x400000 6).1
      [0x3000] 5 = 0 := by decide
  have hc : (pmap_insert 0x40000000 exFreed 0x3000 2 0x400000 6).1.refcount 5 = 1 := by decide
  refine ⟨exFreed_RefInv 0 1024 (by decide) (by decide) (by decide),
    exFreed_RefInv 256 960 (by decide) (by decide) (by decide),
    by decide, by decide, by decide, by decide, by decide, by decide,
    by decide, by decide, hc, ht0, ht, ?_, ?_⟩
  · intro h
    have h5 := h.count 5 (by decide)
    rw [hc, ht0] at h5
    exact absurd h5 (by decide)
  · intro h
    have h5 := h.count 5 (by decide)
    rw [hc, ht] at h5
    exact absurd h5 (by decide)

/-- C17 (amended): let `D` be a list of directories with a well-formed
layout (`DirsOK`) for the directory indices `[lo, hi)` reached by user
addresses, let the reference-count invariant hold (`RefInv`): the count of
every known frame equals the number of present table entries naming it,
over all directories of `D`, plus one for every present directory entry
naming it as its table, and no frame on the free list has a positive count
or a reference; and let no page of a directory carry a count (`NoDirRef`).
Then all three conditions hold again after
`pmap_insert(pdir, f, uva, perm)`, successful or failed, for a directory of
`D`, an address whose directory index lies in `[lo, hi)`, a known frame `f`
that is not on the free list and not the page of a directory, and a
permission value below `2 ^ 12`, and they hold again after
`pmap_remove(pdir, uva)`; hence after either operation a frame that is
still referenced has a count different from zero and is not on the free
list. -/
theorem refcount_invariant (L lo hi : Nat) (s : State) (D : List Nat)
    (pdir f uva perm : Nat)
    (h : PmapOK lo hi s D) (hd : pdir ∈ D)
    (hlo : lo ≤ PDX (linaddr L uva)) (hhi : PDX (linaddr L uva) < hi)
    (hf : f < s.mem_npage) (hfree : f ∉ s.mem_freelist)
    (hfd : ∀ d ∈ D, mem_pi2phys f ≠ d) (hperm : perm < 4096) :
    PmapOK lo hi (pmap_insert L s pdir f uva perm).1 D ∧
    PmapOK lo hi (pmap_remove L s pdir uva) D ∧
    (∀ q, q < s.mem_npage →
      0 < total_refs lo hi (pmap_insert L s pdir f uva perm).1 D q →
      (pmap_insert L s pdir f uva perm).1.refcount q ≠ 0 ∧
      q ∉ (pmap_insert L s pdir f uva perm).1.mem_freelist) ∧
    (∀ q, q < s.mem_npage →
      0 < total_refs lo hi (pmap_remove L s pdir uva) D q →
      (pmap_remove L s pdir uva).refcount q ≠ 0 ∧
      q ∉ (pmap_remove L s pdir uva).mem_freelist) := by
  obtain ⟨hs, hinv, hnd⟩ := h
  have hi1 := refinv_insert lo hi L s D pdir f uva perm hs hinv hd hlo hhi hf hfree hperm
  have hr1 := refinv_remove lo hi L s D pdir uva hs hinv hd hlo hhi
  obtain ⟨a1, a2, _⟩ := inv_insert lo hi L s D pdir f uva perm hs hinv hnd hd hlo hhi hf hfree
    hfd hperm
  obtain ⟨b1, b2, _⟩ := inv_remove lo hi L s D pdir uva hs hinv hnd hd hlo hhi
  refine ⟨⟨a1, hi1, a2⟩, ⟨b1, hr1, b2⟩, ?_, ?_⟩
  · intro q hq hpos
    have h1 := hi1.count q (by rw [insert_npage]; exact hq)
    refine ⟨by omega, fun hc => ?_⟩
    have h2 := (hi1.free q hc).2
    omega
  · intro q hq hpos
    have h1 := hr1.count q (by rw [remove_npage]; exact hq)
    refine ⟨by omega, fun hc => ?_⟩
    have h2 := (hr1.free q hc).2
    omega

/-- C17 (amended), at concrete machines: the three conditions hold after
frame 2 has been inserted at user address 0 of the empty directory
(`exOne`), and in `exOne` they hold again after frame 4 has been inserted at
user address `0x1000` and after the mapping of user address 0 has been
removed; frame 4 is referenced after its insertion, and has a count and
is not free. -/
theorem refcount_invariant_witness :
    PmapOK 256 960 exOne [0x3000] ∧
    PmapOK 256 960 (pmap_insert 0x40000000 exOne 0x3000 4 0x1000 6).1 [0x3000] ∧
    PmapOK 256 960 (pmap_remove 0x40000000 exOne 0x3000 0) [0x3000] ∧
    (pmap_insert 0x40000000 exOne 0x3000 4 0x1000 6).1.refcount 4 ≠ 0 ∧
    4 ∉ (pmap_insert 0x40000000 exOne 0x3000 4 0x1000 6).1.mem_freelist :=
  have h1 := refcount_invariant 0x40000000 256 960 exEmpty [0x3000] 0x3000 2 0 6
    exEmpty_PmapOK (by decide) (by decide) (by decide) (by decide) (by decide) (by decide)
    (by decide)
  have h2 := refcount_invariant 0x40000000 256 960 exOne [0x3000] 0x3000 4 0x1000 6
    h1.1 (by decide) (by decide) (by decide) (by decide) (by decide) (by decide) (by decide)
  have h3 := refcount_invariant 0x40000000 256 960 exOne [0x3000] 0x3000 2 0 6
    h1.1 (by decide) (by decide) (by decide) (by decide) (by decide) (by decide) (by decide)
  ⟨h1.1, h2.1, h3.2.1,
    h2.2.2.1 4 (by decide)
      (Nat.lt_of_lt_of_le Nat.zero_lt_one
        (total_refs_pos_of_lookup 256 960 0x40000000 _ [0x3000] 0x3000 0x1000 4 h2.1.dirs
          (by decide) (by decide) (by decide) (by decide)))⟩

/-- C21: on the boot processor, from a bootstrap directory of zero words,
the loop of `pmap_init` ends (`PDX(PMAP_LINUSER) ≤ PDX(PMAP_LINHIGH)`, and
room for its 1025 tests) and leaves in every entry `i` outside
`[PDX(PMAP_LINUSER), PDX(PMAP_LINHIGH))` the word
`(i << 22) | PTE_P | PTE_W | PTE_PS | PTE_G`: a present, writable, global
large-page entry through which the MMU takes every linear address of the
4MB region to the same physical address.  Every entry inside the range is
still zero, so absent. -/
theorem pmap_init_identity_map (LU LH pdir : Nat) (s : State) (fuel : Nat)
    (hUH : PDX LU ≤ PDX LH) (hfuel : NPDENTRIES < fuel)
    (hzero : ∀ i, i < NPDENTRIES → s.mem (pdir + 4 * i) = 0) :
    ∃ s1, pmap_init LU LH pdir true fuel s = some s1 ∧
      (∀ i, i < NPDENTRIES → ¬ (PDX LU ≤ i ∧ i < PDX LH) →
        s1.mem (pdir + 4 * i) = (i <<< PDXSHIFT) ||| PTE_P ||| PTE_W ||| PTE_PS ||| PTE_G ∧
        s1.mem (pdir + 4 * i) &&& PTE_P ≠ 0 ∧ s1.mem (pdir + 4 * i) &&& PTE_W ≠ 0 ∧
        s1.mem (pdir + 4 * i) &&& PTE_PS ≠ 0 ∧ s1.mem (pdir + 4 * i) &&& PTE_G ≠ 0 ∧
        ∀ la, la < 2 ^ 32 → PDX la = i → superpage_pa (s1.mem (pdir + 4 * i)) la = la) ∧
      (∀ i, PDX LU ≤ i → i < PDX LH →
        s1.mem (pdir + 4 * i) = 0 ∧ s1.mem (pdir + 4 * i) &&& PTE_P = 0) := by
  obtain ⟨s1, h1, h2, h3, _⟩ := init_loop_run LU LH pdir s fuel hUH hfuel
  have hH : PDX LH < NPDENTRIES := PDX_lt LH
  refine ⟨s1, ?_, ?_, ?_⟩
  · simp [pmap_init, h1]
  · intro i hi hn
    rw [h2 i hi hn]
    exact boot_pde_facts i hi
  · intro i hi1 hi2
    have e : s1.mem (pdir + 4 * i) = 0 := by
      rw [h3 _ (by intro j hj hn; omega)]
      exact hzero i (by omega)
    rw [e]
    exact ⟨rfl, rfl⟩

/-- C21, at a concrete layout: user range `[0x40000000, 0xF0000000)`,
directory at `0x3000` of the empty machine. -/
theorem pmap_init_identity_map_witness :
    ∃ s1, pmap_init 0x40000000 0xF0000000 0x3000 true 1025 exEmpty = some s1 ∧
      s1.mem (0x3000 + 4 * 3) = 0xC00183 ∧
      superpage_pa (s1.mem (0x3000 + 4 * 3)) 0xC01234 = 0xC01234 ∧
      s1.mem (0x3000 + 4 * 960) = 0xF0000183 ∧
      s1.mem (0x3000 + 4 * 256) = 0 ∧ s1.mem (0x3000 + 4 * 959) = 0 :=
  have ⟨s1, h1, h2, h3⟩ := pmap_init_identity_map 0x40000000 0xF0000000 0x3000 exEmpty 1025
    (by decide) (by decide) (fun _ _ => rfl)
  ⟨s1, h1, (h2 3 (by decide) (by decide)).1,
    (h2 3 (by decide) (by decide)).2.2.2.2.2 0xC01234 (by decide) (by decide),
    (h2 960 (by decide) (by decide)).1, (h3 256 (by decide) (by decide)).1,
    (h3 959 (by decide) (by decide)).1⟩

/-- The stores of the loop are those of the indices it appends to its
list, in that order: one store of `boot_pde k` to entry `k` for every
occurrence of `k`. -/
theorem init_loop_stores (LU LH pdir : Nat) :
    ∀ (fuel i : Nat) (s : State) (w : List Nat) (s1 : State) (w1 : List Nat),
    pmap_init_loop LU LH pdir fuel i s w = some (s1, w1) →
    ∃ w2, w1 = w ++ w2 ∧
      s1 = w2.foldl (fun st k => st.write (pdir + 4 * k) (boot_pde k)) s := by
  intro fuel
  induction fuel with
  | zero =>
    intro i s w s1 w1 h
    simp [pmap_init_loop] at h
  | succ f ih =>
    intro i s w s1 w1 h
    unfold pmap_init_loop at h
    by_cases hi : i < NPDENTRIES
    · rw [if_pos hi] at h
      dsimp only at h
      obtain ⟨w2, e1, e2⟩ := ih _ _ _ _ _ h
      refine ⟨(if i = PDX LU then PDX LH else i) :: w2, ?_, ?_⟩
      · rw [e1]; simp
      · rw [e2]; rfl
    · rw [if_neg hi] at h
      simp only [Option.some.injEq, Prod.mk.injEq] at h
      obtain ⟨rfl, rfl⟩ := h
      exact ⟨[], by simp, rfl⟩

/-- C23: when `PDX(PMAP_LINUSER) < PDX(PMAP_LINHIGH)` (and the latter is
below 1024, as every `PDX` is) the loop of `pmap_init` ends within 1025
tests of its condition.  The indices it stores to are
`0 .. PDX(PMAP_LINUSER) - 1` followed by `PDX(PMAP_LINHIGH) .. 1023`: all
are below `NPDENTRIES`, every index outside the user range occurs exactly
once, no index inside it occurs; the machine it leaves is the one obtained
by storing `boot_pde i` to entry `i` for these indices in this order, one
store each, so that every entry outside the user range holds its word,
every entry inside the range holds what it held before, and no word outside
the array and no other field of the machine changes. -/
theorem pmap_init_loop_terminates (LU LH pdir : Nat) (s : State) (fuel : Nat)
    (hUH : PDX LU < PDX LH) (hfuel : NPDENTRIES < fuel) :
    PDX LH < NPDENTRIES ∧
    ∃ s1 w, pmap_init_loop LU LH pdir fuel 0 s [] = some (s1, w) ∧
      w = List.range (PDX LU) ++ List.range' (PDX LH) (NPDENTRIES - PDX LH) ∧
      (∀ i, i ∈ w → i < NPDENTRIES) ∧
      (∀ i, i < NPDENTRIES → ¬ (PDX LU ≤ i ∧ i < PDX LH) → w.count i = 1) ∧
      (∀ i, PDX LU ≤ i → i < PDX LH → w.count i = 0) ∧
      (∀ x, (∀ i, i < NPDENTRIES → x ≠ pdir + 4 * i) → s1.mem x = s.mem x) ∧
      s1 = { s with mem := s1.mem } ∧
      s1 = w.foldl (fun st k => st.write (pdir + 4 * k) (boot_pde k)) s ∧
      (∀ i, i < NPDENTRIES → ¬ (PDX LU ≤ i ∧ i < PDX LH) →
        s1.mem (pdir + 4 * i) = boot_pde i) ∧
      (∀ i, PDX LU ≤ i → i < PDX LH → s1.mem (pdir + 4 * i) = s.mem (pdir + 4 * i)) := by
  obtain ⟨s1, h1, h2, h3, h4⟩ := init_loop_run LU LH pdir s fuel (le_of_lt hUH) hfuel
  obtain ⟨w2, e1, e2⟩ := init_loop_stores LU LH pdir fuel 0 s [] s1 _ h1
  have hH : PDX LH < NPDENTRIES := PDX_lt LH
  have hmem : ∀ i, i ∈ List.range (PDX LU) ++ List.range' (PDX LH) (NPDENTRIES - PDX LH) ↔
      i < NPDENTRIES ∧ ¬ (PDX LU ≤ i ∧ i < PDX LH) := by
    intro i
    simp only [List.mem_append, List.mem_range, List.mem_range'_1]
    omega
  have hnd : (List.range (PDX LU) ++ List.range' (PDX LH) (NPDENTRIES - PDX LH)).Nodup := by
    refine List.Nodup.append (List.nodup_range _) (List.nodup_range' _ _) ?_
    intro i hi1 hi2
    simp only [List.mem_range, List.mem_range'_1] at hi1 hi2
    omega
  refine ⟨hH, s1, _, h1, rfl, ?_, ?_, ?_, ?_, h4, ?_, h2, ?_⟩
  · intro i hi
    exact ((hmem i).1 hi).1
  · intro i hi hn
    exact List.count_eq_one_of_mem hnd ((hmem i).2 ⟨hi, hn⟩)
  · intro i hi1 hi2
    exact List.count_eq_zero_of_not_mem (fun hc => ((hmem i).1 hc).2 ⟨hi1, hi2⟩)
  · intro x hx
    exact h3 x (fun j hj _ => hx j hj)
  · rw [List.nil_append] at e1
    rw [e1]
    exact e2
  · intro i hi1 hi2
    exact h3 _ (fun j _ hn e => hn (by omega))

/-- C23, at a concrete layout: user range `[0x40000000, 0xF0000000)`, so
256 stores below the range and 64 from index 960 on, in the machine
`exMapped`, whose directory at `0x3000` holds `0x5007` in entry 256.
Entries 255 and 960 receive their words, entries 256 and 959 keep what they
held. -/
theorem pmap_init_loop_terminates_witness :
    PDX 0x40000000 < PDX 0xF0000000 ∧
    ∃ s1 w, pmap_init_loop 0x40000000 0xF0000000 0x3000 1025 0 exMapped [] = some (s1, w) ∧
      w = List.range (PDX 0x40000000) ++ List.range' (PDX 0xF0000000)
        (NPDENTRIES - PDX 0xF0000000) ∧
      w.count 255 = 1 ∧ w.count 256 = 0 ∧ w.count 959 = 0 ∧ w.count 960 = 1 ∧
      s1 = w.foldl (fun st k => st.write (0x3000 + 4 * k) (boot_pde k)) exMapped ∧
      s1.mem (0x3000 + 4 * 255) = 0x3FC00183 ∧ s1.mem (0x3000 + 4 * 960) = 0xF0000183 ∧
      s1.mem (0x3000 + 4 * 256) = 0x5007 ∧ s1.mem (0x3000 + 4 * 959) = 0 :=
  have ⟨_, s1, w, h1, h2, _, h4, h5, _, _, h8, h9, h10⟩ :=
    pmap_init_loop_terminates 0x40000000 0xF0000000 0x3000 exMapped 1025 (by decide) (by decide)
  ⟨by decide, s1, w, h1, h2, h4 255 (by decide) (by decide), h5 256 (by decide) (by decide),
    h5 959 (by decide) (by decide), h4 960 (by decide) (by decide), h8,
    (h9 255 (by decide) (by decide)).trans (by decide),
    (h9 960 (by decide) (by decide)).trans (by decide),
    (h10 256 (by decide) (by decide)).trans (by decide),
    (h10 959 (by decide) (by decide)).trans (by decide)⟩

/-- C24: `pmap_walk` adds `PMAP_LINUSER` to `uva` in 32-bit arithmetic and
checks nothing.  For `PMAP_LINHIGH` a 4MB-aligned 32-bit constant and every
`uva` below `PMAP_LINHIGH - PMAP_LINUSER` the sum does not wrap and its
directory index lies in `[PDX(PMAP_LINUSER), PDX(PMAP_LINHIGH))`, so the
entry used is no kernel entry.  In a machine whose free frames are known
frames off the directory page, with the entry of `uva` not naming the
directory page as its table, walk, insert and remove on `uva` leave every
kernel entry of the directory as it is, and the outcome of walk, lookup,
insert and remove is the same in any machine that differs only in the
kernel entries: none is read. -/
theorem pmap_user_range (L LH : Nat) (s : State) (pdir uva : Nat)
    (hLH : LH % 4194304 = 0) (h32 : LH < 2 ^ 32) (hu : uva < LH - L)
    (hm : MemOK s) (hal : pdir % 4096 = 0)
    (hnf : ∀ t ∈ s.mem_freelist, mem_pi2phys t ≠ pdir)
    (hns : s.mem (pde_ptr L pdir uva) &&& PTE_P ≠ 0 →
      PTE_ADDR (s.mem (pde_ptr L pdir uva)) ≠ pdir) :
    uva + L < 2 ^ 32 ∧ linaddr L uva = uva + L ∧
    PDX L ≤ PDX (uva + L) ∧ PDX (uva + L) < PDX LH ∧
    ¬ kernel_pde L LH pdir (pde_ptr L pdir uva) ∧
    (∀ x, kernel_pde L LH pdir x → ∀ (c : Bool) (pi perm : Nat),
      (pmap_walk L s pdir uva c).1.mem x = s.mem x ∧
      (pmap_insert L s pdir pi uva perm).1.mem x = s.mem x ∧
      (pmap_remove L s pdir uva).mem x = s.mem x) ∧
    (∀ s2, SameOff (kernel_pde L LH pdir) s s2 → ∀ (c : Bool) (pi perm : Nat),
      (pmap_walk L s2 pdir uva c).2 = (pmap_walk L s pdir uva c).2 ∧
      SameOff (kernel_pde L LH pdir) (pmap_walk L s pdir uva c).1
        (pmap_walk L s2 pdir uva c).1 ∧
      pmap_lookup L s2 pdir uva = pmap_lookup L s pdir uva ∧
      (pmap_insert L s2 pdir pi uva perm).2 = (pmap_insert L s pdir pi uva perm).2 ∧
      SameOff (kernel_pde L LH pdir) (pmap_insert L s pdir pi uva perm).1
        (pmap_insert L s2 pdir pi uva perm).1 ∧
      SameOff (kernel_pde L LH pdir) (pmap_remove L s pdir uva)
        (pmap_remove L s2 pdir uva)) := by
  obtain ⟨h1, h2, h3, h4⟩ := user_range L LH uva hLH h32 hu
  have hfr : ∀ t ∈ s.mem_freelist, t < 1048576 ∧ t * 4096 ≠ pdir := by
    intro t ht
    have ht1 : t < 1048576 := lt_of_lt_of_le (hm.free_lt t ht) (by simpa using hm.npage_le)
    have e := hnf t ht
    rw [mem_pi2phys_eq] at e
    exact ⟨ht1, by omega⟩
  have hpde : ¬ kernel_pde L LH pdir (pde_ptr L pdir uva) := by
    rintro ⟨i, _, hn, hx⟩
    unfold pde_ptr at hx
    have : i = PDX (linaddr L uva) := by omega
    subst this
    exact hn ⟨h3, h4⟩
  have hslot : s.mem (pde_ptr L pdir uva) &&& PTE_P ≠ 0 →
      ¬ kernel_pde L LH pdir (slot_ptr L s pdir uva) := by
    rintro hP ⟨i, hi, _, hx⟩
    exact slot_not_dir L s pdir uva hal (hns hP) i hi hx
  rw [h2] at h3 h4
  refine ⟨h1, h2, h3, h4, hpde, ?_, ?_⟩
  · rintro x ⟨i, hi, hn, rfl⟩ c pi perm
    exact ops_keep_dir L s pdir uva hal hfr hns i hi (by rintro rfl; rw [h2] at hn; exact hn ⟨h3, h4⟩) c pi perm
  · intro s2 hs c pi perm
    obtain ⟨w1, w2⟩ := sameoff_walk _ L s s2 pdir uva c hs hpde
    obtain ⟨i1, i2⟩ := sameoff_insert _ L s s2 pdir pi uva perm hs hpde hslot hal hfr
    exact ⟨w1, w2, sameoff_lookup _ L s s2 pdir uva hs hpde hslot, i1, i2,
      sameoff_remove _ L s s2 pdir uva hs hpde hslot⟩

theorem exKernel_sameoff : SameOff (kernel_pde 0x40000000 0xF0000000 0x3000) exKernel exMapped := by
  refine ⟨?_, rfl, rfl, rfl, rfl, rfl⟩
  intro x hx
  unfold exKernel
  dsimp only
  have h0 : x ≠ 0x3000 := fun h => hx ⟨0, by decide, by decide, by omega⟩
  have h1 : x ≠ 0x3004 := fun h => hx ⟨1, by decide, by decide, by omega⟩
  rw [if_neg h0, if_neg h1]

/-- C24, at a concrete machine: user range `[0x40000000, 0xF0000000)`; an
insertion at user address `0x1000` keeps the kernel entry 1 of `exKernel`,
and the lookup there gives what it gives in `exMapped`, which has no kernel
entry. -/
theorem pmap_user_range_witness :
    0x1000 < 0xF0000000 - 0x40000000 ∧
    PDX (0x1000 + 0x40000000) = 256 ∧
    (pmap_insert 0x40000000 exKernel 0x3000 2 0x1000 6).1.mem 0x3004 = 0x400183 ∧
    pmap_lookup 0x40000000 exMapped 0x3000 0x1000
      = pmap_lookup 0x40000000 exKernel 0x3000 0x1000 :=
  have h := pmap_user_range 0x40000000 0xF0000000 exKernel 0x3000 0x1000 (by decide) (by decide)
    (by decide) ⟨by decide, by decide, by decide⟩ (by decide) (by decide) (fun _ => by decide)
  ⟨by decide, by decide,
    ((h.2.2.2.2.2.1 0x3004 ⟨1, by decide, by decide, by decide⟩ true 2 6).2.1).trans rfl,
    (h.2.2.2.2.2.2 exMapped exKernel_sameoff true 2 6).2.2.1⟩

/-- One call with sound arguments keeps the machine well formed and every
present directory entry as it is. -/
theorem inv_exec (L lo hi : Nat) (s : State) (D : List Nat) (c : Call)
    (h : PmapOK lo hi s D) (hc : c.ok L lo hi D s) :
    PmapOK lo hi (c.exec L s) D ∧ (c.exec L s).mem_npage = s.mem_npage ∧
      ∀ d ∈ D, ∀ i, i < 1024 → s.mem (d + 4 * i) &&& PTE_P ≠ 0 →
        (c.exec L s).mem (d + 4 * i) = s.mem (d + 4 * i) := by
  obtain ⟨hs, hinv, hnd⟩ := h
  cases c with
  | walk pdir uva cr =>
    obtain ⟨hd, hlo, hhi⟩ := hc
    obtain ⟨a, b, c2, d2⟩ := inv_walk lo hi L s D pdir uva cr hs hinv hnd hd hlo hhi
    exact ⟨⟨a, b, c2⟩, walk_npage L s pdir uva cr, d2⟩
  | lookup pdir uva =>
    have e : Call.exec L s (Call.lookup pdir uva) = s := pmap_walk_nocreate_state L s pdir uva
    rw [e]
    exact ⟨⟨hs, hinv, hnd⟩, rfl, fun _ _ _ _ _ => rfl⟩
  | remove pdir uva =>
    obtain ⟨hd, hlo, hhi⟩ := hc
    obtain ⟨a, b, c2⟩ := inv_remove lo hi L s D pdir uva hs hinv hnd hd hlo hhi
    exact ⟨⟨a, refinv_remove lo hi L s D pdir uva hs hinv hd hlo hhi, b⟩,
      remove_npage L s pdir uva, fun d hd2 i hi2 _ => c2 d hd2 i hi2⟩
  | insert pdir f uva perm =>
    obtain ⟨hd, hlo, hhi, hf, hfree, hfd, hperm⟩ := hc
    obtain ⟨a, b, c2⟩ := inv_insert lo hi L s D pdir f uva perm hs hinv hnd hd hlo hhi hf hfree
      hfd hperm
    exact ⟨⟨a, refinv_insert lo hi L s D pdir f uva perm hs hinv hd hlo hhi hf hfree hperm, b⟩,
      insert_npage L s pdir f uva perm, c2⟩

theorem run_calls_append (L : Nat) : ∀ (cs1 cs2 : List Call) (s : State),
    run_calls L s (cs1 ++ cs2) = run_calls L (run_calls L s cs1) cs2 := by
  intro cs1
  induction cs1 with
  | nil => intro cs2 s; rfl
  | cons c cs ih => intro cs2 s; exact ih cs2 (c.exec L s)

theorem calls_ok_append (L lo hi : Nat) (D : List Nat) : ∀ (cs1 cs2 : List Call) (s : State),
    calls_ok L lo hi D s (cs1 ++ cs2) →
      calls_ok L lo hi D s cs1 ∧ calls_ok L lo hi D (run_calls L s cs1) cs2 := by
  intro cs1
  induction cs1 with
  | nil => intro cs2 s h; exact ⟨trivial, h⟩
  | cons c cs ih =>
    intro cs2 s h
    obtain ⟨h1, h2⟩ := h
    obtain ⟨h3, h4⟩ := ih cs2 (c.exec L s) h2
    exact ⟨⟨h1, h3⟩, h4⟩

/-- A sequence of calls with sound arguments keeps the machine well formed
and every present directory entry as it is. -/
theorem inv_run (L lo hi : Nat) (D : List Nat) : ∀ (cs : List Call) (s : State),
    PmapOK lo hi s D → calls_ok L lo hi D s cs →
    PmapOK lo hi (run_calls L s cs) D ∧ (run_calls L s cs).mem_npage = s.mem_npage ∧
      ∀ d ∈ D, ∀ i, i < 1024 → s.mem (d + 4 * i) &&& PTE_P ≠ 0 →
        (run_calls L s cs).mem (d + 4 * i) = s.mem (d + 4 * i) := by
  intro cs
  induction cs with
  | nil => intro s h _; exact ⟨h, rfl, fun _ _ _ _ _ => rfl⟩
  | cons c cs ih =>
    intro s h hc
    obtain ⟨h1, h2⟩ := hc
    obtain ⟨a, b, c2⟩ := inv_exec L lo hi s D c h h1
    obtain ⟨a2, b2, c3⟩ := ih (c.exec L s) a h2
    refine ⟨a2, b2.trans b, ?_⟩
    intro d hd i hi2 hp
    have e := c2 d hd i hi2 hp
    have e2 := c3 d hd i hi2 (by rw [e]; exact hp)
    exact e2.trans e

/-- In a well-formed machine the table frame of a present directory entry
of the range carries a count of at least one and is not free. -/
theorem table_frame_held (lo hi : Nat) (s : State) (D : List Nat) (h : PmapOK lo hi s D)
    (d i : Nat) (hd : d ∈ D) (hlo : lo ≤ i) (hhi : i < hi)
    (hp : s.mem (d + 4 * i) &&& PTE_P ≠ 0)
    (hk : PPN (PTE_ADDR (s.mem (d + 4 * i))) < s.mem_npage) :
    1 ≤ s.refcount (PPN (PTE_ADDR (s.mem (d + 4 * i)))) ∧
      PPN (PTE_ADDR (s.mem (d + 4 * i))) ∉ s.mem_freelist := by
  have e : PTE_ADDR (s.mem (d + 4 * i)) = PPN (PTE_ADDR (s.mem (d + 4 * i))) * 4096 := by
    have := PTE_ADDR_mod (s.mem (d + 4 * i))
    rw [PPN_eq]
    omega
  have hne : total_refs lo hi s D (PPN (PTE_ADDR (s.mem (d + 4 * i)))) ≠ 0 :=
    fun h0 => free_not_table lo hi s D _ h.dirs.hi_le h0 d hd i hlo hhi hp e
  have hc := h.refs.count _ hk
  refine ⟨by omega, ?_⟩
  intro hm
  exact hne (h.refs.free _ hm).2

theorem walk_steps_present (L : Nat) (s : State) (pdir uva : Nat) (c : Bool)
    (h : s.mem (pde_ptr L pdir uva) &&& PTE_P ≠ 0) : pmap_walk_steps L s pdir uva c = [] := by
  unfold pmap_walk_steps
  dsimp only
  rw [if_pos (by simpa [pde_ptr] using h)]

theorem walk_steps_nocreate (L : Nat) (s : State) (pdir uva : Nat) :
    pmap_walk_steps L s pdir uva false = [] := by
  unfold pmap_walk_steps
  dsimp only
  split
  · rfl
  · rfl

theorem walk_steps_nil (L : Nat) (s : State) (pdir uva : Nat)
    (h : s.mem (pde_ptr L pdir uva) &&& PTE_P = 0) (hf : s.mem_freelist = []) :
    pmap_walk_steps L s pdir uva true = [s] := by
  unfold pmap_walk_steps
  dsimp only
  rw [if_neg (by simpa [pde_ptr] using h)]
  simp [mem_alloc, hf]

theorem walk_steps_cons (L : Nat) (s : State) (pdir uva t : Nat) (r : List Nat)
    (h : s.mem (pde_ptr L pdir uva) &&& PTE_P = 0) (hf : s.mem_freelist = t :: r) :
    pmap_walk_steps L s pdir uva true =
      [{ s with mem_freelist := r }, mem_incref { s with mem_freelist := r } t,
        memset_zero (mem_incref { s with mem_freelist := r } t) (mem_pi2ptr t),
        walk_created L s pdir uva t r] := by
  unfold pmap_walk_steps
  dsimp only
  rw [if_neg (by simpa [pde_ptr] using h)]
  simp [mem_alloc, hf, pde_ptr, walk_created]

theorem remove_steps_of_none (L : Nat) (s : State) (pdir uva : Nat)
    (h : (pmap_lookup L s pdir uva).1 = none) : pmap_remove_steps L s pdir uva = [] := by
  unfold pmap_remove_steps
  split
  · rename_i heq
    rw [heq] at h
    cases h
  · rfl

theorem remove_steps_of_lookup (L : Nat) (s : State) (pdir uva g pte : Nat)
    (h : pmap_lookup L s pdir uva = (some g, some pte)) :
    pmap_remove_steps L s pdir uva =
      [s.write pte 0, pmap_invl L (s.write pte 0) pdir uva,
        mem_decref_dec (pmap_invl L (s.write pte 0) pdir uva) g,
        mem_decref (pmap_invl L (s.write pte 0) pdir uva) g] := by
  unfold pmap_remove_steps
  rw [h]

theorem decref_dec_refcount (s : State) (p q : Nat) :
    (mem_decref_dec s p).refcount q = if q = p then s.refcount q - 1 else s.refcount q := rfl

theorem decref_dec_freelist (s : State) (p : Nat) :
    (mem_decref_dec s p).mem_freelist = s.mem_freelist := rfl

theorem decref_dec_mem (s : State) (p : Nat) : (mem_decref_dec s p).mem = s.mem := rfl

/-- Every state inside a walk keeps the present directory entries, lowers
no count and adds nothing to the free list. -/
theorem walk_steps_ok (lo hi L : Nat) (s : State) (D : List Nat) (pdir uva : Nat) (cr : Bool)
    (h : PmapOK lo hi s D) (hd : pdir ∈ D)
    (hlo : lo ≤ PDX (linaddr L uva)) (hhi : PDX (linaddr L uva) < hi) :
    ∀ x ∈ pmap_walk_steps L s pdir uva cr,
      (∀ d ∈ D, ∀ i, i < 1024 → s.mem (d + 4 * i) &&& PTE_P ≠ 0 →
        x.mem (d + 4 * i) = s.mem (d + 4 * i)) ∧
      (∀ q, s.refcount q ≤ x.refcount q) ∧
      (∀ q, q ∈ x.mem_freelist → q ∈ s.mem_freelist) := by
  obtain ⟨hs, hinv, hnd⟩ := h
  by_cases hp : s.mem (pde_ptr L pdir uva) &&& PTE_P ≠ 0
  · rw [walk_steps_present L s pdir uva cr hp]
    intro x hx
    cases hx
  · have hp0 : s.mem (pde_ptr L pdir uva) &&& PTE_P = 0 := not_not.mp hp
    cases cr with
    | false =>
      rw [walk_steps_nocreate]
      intro x hx
      cases hx
    | true =>
      cases hf : s.mem_freelist with
      | nil =>
        rw [walk_steps_nil L s pdir uva hp0 hf]
        intro x hx
        simp only [List.mem_singleton] at hx
        subst hx
        exact ⟨fun _ _ _ _ _ => rfl, fun _ => le_refl _, fun q hq => hf ▸ hq⟩
      | cons t r =>
        have htm : t ∈ s.mem_freelist := by simp [hf]
        have htn : t < s.mem_npage := hs.free_lt t htm
        have ht : t < 1048576 := by
          have : s.mem_npage ≤ 1048576 := by simpa using hs.npage_le
          omega
        have hphys : mem_pi2phys t = t * 4096 := by rw [mem_pi2phys_eq]; omega
        have hptr : mem_pi2ptr t = t * 4096 := by rw [mem_pi2ptr, mem_ptr, hphys]
        have htd : ∀ d ∈ D, t * 4096 ≠ d := fun d hd2 => hphys ▸ hs.free_not_dir t htm d hd2
        obtain ⟨_, _, _, d2, _⟩ :=
          inv_walk_created lo hi L s D pdir uva t r hs hinv hnd hd hlo hhi hp0 hf
        have hsub : ∀ q, q ∈ r → q ∈ t :: r := fun q hq => List.mem_cons_of_mem _ hq
        rw [walk_steps_cons L s pdir uva t r hp0 hf]
        intro x hx
        simp only [List.mem_cons, List.mem_singleton, List.not_mem_nil, or_false] at hx
        rcases hx with rfl | rfl | rfl | rfl
        · exact ⟨fun _ _ _ _ _ => rfl, fun _ => le_refl _, hsub⟩
        · refine ⟨fun _ _ _ _ _ => rfl, ?_, hsub⟩
          intro q
          simp only [incref_refcount]
          split_ifs <;> omega
        · refine ⟨?_, ?_, hsub⟩
          · intro d hd2 i hi2 _
            have := htd d hd2
            have := hs.aligned d hd2
            simp only [memset_mem, incref_mem, hptr, PAGESIZE]
            rw [if_neg (by omega)]
          · intro q
            simp only [memset_refcount, incref_refcount]
            split_ifs <;> omega
        · refine ⟨?_, ?_, ?_⟩
          · intro d hd2 i hi2 hpi
            refine d2 d hd2 i hi2 ?_
            by_contra hcc
            push_neg at hcc
            obtain ⟨rfl, rfl⟩ := hcc
            exact hpi hp0
          · intro q
            rw [walk_created_refcount]
            split_ifs <;> omega
          · intro q hq
            rw [walk_created_freelist] at hq
            exact hsub q hq

/-- Every state inside a removal keeps every directory word, and has for
each frame the count and free list of the state before or of the state
after. -/
theorem remove_steps_ok (lo hi L : Nat) (s : State) (D : List Nat) (pdir uva : Nat)
    (hs : DirsOK lo hi s D) (hd : pdir ∈ D)
    (hlo : lo ≤ PDX (linaddr L uva)) (hhi : PDX (linaddr L uva) < hi) :
    ∀ x ∈ pmap_remove_steps L s pdir uva,
      (∀ d ∈ D, ∀ i, i < 1024 → x.mem (d + 4 * i) = s.mem (d + 4 * i)) ∧
      (∀ q, s.refcount q ≤ x.refcount q ∨
        (pmap_remove L s pdir uva).refcount q ≤ x.refcount q) ∧
      (∀ q, q ∈ x.mem_freelist → q ∈ s.mem_freelist ∨
        q ∈ (pmap_remove L s pdir uva).mem_freelist) := by
  cases hg : (pmap_lookup L s pdir uva).1 with
  | none =>
    rw [remove_steps_of_none L s pdir uva hg]
    intro x hx
    cases hx
  | some g =>
    obtain ⟨hp, _, _, _, he⟩ := lookup_some L s pdir uva g hg
    have hsl := slot_not_any_dir lo hi L s D pdir uva hs hd hlo hhi hp
    rw [remove_steps_of_lookup L s pdir uva g _ he, remove_of_lookup L s pdir uva g _ he]
    have hmem : ∀ d ∈ D, ∀ i, i < 1024 →
        (s.write (slot_ptr L s pdir uva) 0).mem (d + 4 * i) = s.mem (d + 4 * i) := by
      intro d hd2 i hi2
      rw [write_mem, if_neg (fun e => hsl d hd2 i hi2 e.symm)]
    intro x hx
    simp only [List.mem_cons, List.mem_singleton, List.not_mem_nil, or_false] at hx
    rcases hx with rfl | rfl | rfl | rfl
    · exact ⟨hmem, fun q => Or.inl (le_refl _), fun q hq => Or.inl hq⟩
    · refine ⟨by simpa using hmem, fun q => Or.inl (by simp), fun q hq => Or.inl (by simpa using hq)⟩
    · refine ⟨by simpa [decref_dec_mem] using hmem, fun q => Or.inr ?_,
        fun q hq => Or.inl (by simpa [decref_dec_freelist] using hq)⟩
      rw [decref_dec_refcount, decref_refcount]
    · exact ⟨by simpa using hmem, fun q => Or.inr (le_refl _), fun q hq => Or.inr hq⟩

/-- Every state inside an insertion (after its walk) keeps the present
directory entries, and has for each frame at least the count of the state
before or of the state after, and a free list within theirs: the increment
comes before the decrement. -/
theorem insert_steps_ok (lo hi L : Nat) (s : State) (D : List Nat) (pdir f uva perm : Nat)
    (h : PmapOK lo hi s D) (hd : pdir ∈ D)
    (hlo : lo ≤ PDX (linaddr L uva)) (hhi : PDX (linaddr L uva) < hi) :
    ∀ x ∈ pmap_insert_steps L s pdir f uva perm,
      (∀ d ∈ D, ∀ i, i < 1024 → s.mem (d + 4 * i) &&& PTE_P ≠ 0 →
        x.mem (d + 4 * i) = s.mem (d + 4 * i)) ∧
      (∀ q, s.refcount q ≤ x.refcount q ∨
        (pmap_insert L s pdir f uva perm).1.refcount q ≤ x.refcount q) ∧
      (∀ q, q ∈ x.mem_freelist → q ∈ s.mem_freelist ∨
        q ∈ (pmap_insert L s pdir f uva perm).1.mem_freelist) := by
  obtain ⟨hs, hinv, hnd⟩ := h
  by_cases hp : s.mem (pde_ptr L pdir uva) &&& PTE_P ≠ 0
  · have hsl := slot_not_any_dir lo hi L s D pdir uva hs hd hlo hhi hp
    have hmem : ∀ (st : State) (v : Nat), st.mem = s.mem → ∀ d ∈ D, ∀ i, i < 1024 →
        (st.write (slot_ptr L s pdir uva) v).mem (d + 4 * i) = s.mem (d + 4 * i) := by
      intro st v hst d hd2 i hi2
      rw [write_mem, if_neg (fun e => hsl d hd2 i hi2 e.symm), hst]
    have hlc : pmap_lookup L (mem_incref s f) pdir uva = pmap_lookup L s pdir uva :=
      lookup_congr L s (mem_incref s f) pdir uva rfl rfl
    by_cases hnz : slot_ptr L s pdir uva = 0
    · have hsteps : pmap_insert_steps L s pdir f uva perm = [s] := by
        unfold pmap_insert_steps
        rw [walk_present L s pdir uva true hp]
        dsimp only
        rw [if_pos hnz]
      rw [hsteps, insert_null L s pdir f uva perm hp hnz]
      intro x hx
      simp only [List.mem_singleton] at hx
      subst hx
      exact ⟨fun _ _ _ _ _ => rfl, fun q => Or.inl (le_refl _), fun q hq => Or.inl hq⟩
    cases hg : (pmap_lookup L s pdir uva).1 with
    | none =>
      have hrs : (if (mem_incref s f).mem (slot_ptr L s pdir uva) &&& PTE_P ≠ 0 then
          pmap_remove_steps L (mem_incref s f) pdir uva else []) = [] := by
        split
        · exact remove_steps_of_none L _ pdir uva (by rw [hlc]; exact hg)
        · rfl
      have hsteps : pmap_insert_steps L s pdir f uva perm =
          [s, mem_incref s f, (mem_incref s f).write (slot_ptr L s pdir uva) (pte_word f perm)] := by
        unfold pmap_insert_steps
        rw [walk_present L s pdir uva true hp]
        dsimp only
        rw [if_neg hnz, hrs]
        rfl
      rw [hsteps, insert_present_unmapped L s pdir f uva perm hp hnz hg]
      intro x hx
      simp only [List.mem_cons, List.mem_singleton, List.not_mem_nil, or_false] at hx
      rcases hx with rfl | rfl | rfl
      · exact ⟨fun _ _ _ _ _ => rfl, fun q => Or.inl (le_refl _), fun q hq => Or.inl hq⟩
      · exact ⟨fun _ _ _ _ _ => rfl, fun q => Or.inr (le_refl _), fun q hq => Or.inl hq⟩
      · exact ⟨fun d hd2 i hi2 _ => hmem _ _ rfl d hd2 i hi2, fun q => Or.inr (le_refl _),
          fun q hq => Or.inl hq⟩
    | some g =>
      obtain ⟨_, hP, _, _, he⟩ := lookup_some L s pdir uva g hg
      have hl : pmap_lookup L (mem_incref s f) pdir uva
          = (some g, some (slot_ptr L s pdir uva)) := by rw [hlc, he]
      have hsteps : pmap_insert_steps L s pdir f uva perm =
          [s, mem_incref s f, (mem_incref s f).write (slot_ptr L s pdir uva) 0,
            pmap_invl L ((mem_incref s f).write (slot_ptr L s pdir uva) 0) pdir uva,
            mem_decref_dec (pmap_invl L ((mem_incref s f).write (slot_ptr L s pdir uva) 0)
              pdir uva) g,
            mem_decref (pmap_invl L ((mem_incref s f).write (slot_ptr L s pdir uva) 0)
              pdir uva) g,
            (mem_decref (pmap_invl L ((mem_incref s f).write (slot_ptr L s pdir uva) 0)
              pdir uva) g).write (slot_ptr L s pdir uva) (pte_word f perm)] := by
        unfold pmap_insert_steps
        rw [walk_present L s pdir uva true hp]
        dsimp only
        rw [if_neg hnz, if_pos (by simpa using hP), remove_steps_of_lookup L _ pdir uva g _ hl]
        simp
      rw [hsteps, insert_present_mapped L s pdir f uva perm g hg]
      have hinc : ∀ q, s.refcount q ≤ (mem_incref s f).refcount q := by
        intro q
        simp only [incref_refcount]
        split_ifs <;> omega
      intro x hx
      simp only [List.mem_cons, List.mem_singleton, List.not_mem_nil, or_false] at hx
      rcases hx with rfl | rfl | rfl | rfl | rfl | rfl | rfl
      · exact ⟨fun _ _ _ _ _ => rfl, fun q => Or.inl (le_refl _), fun q hq => Or.inl hq⟩
      · exact ⟨fun _ _ _ _ _ => rfl, fun q => Or.inl (hinc q), fun q hq => Or.inl hq⟩
      · exact ⟨fun d hd2 i hi2 _ => hmem _ _ rfl d hd2 i hi2, fun q => Or.inl (hinc q),
          fun q hq => Or.inl hq⟩
      · refine ⟨fun d hd2 i hi2 _ => ?_, fun q => Or.inl ?_, fun q hq => Or.inl ?_⟩
        · rw [invl_mem]; exact hmem _ _ rfl d hd2 i hi2
        · rw [invl_refcount]; exact hinc q
        · simpa using hq
      · refine ⟨fun d hd2 i hi2 _ => ?_, fun q => Or.inr ?_, fun q hq => Or.inl ?_⟩
        · rw [decref_dec_mem, invl_mem]; exact hmem _ _ rfl d hd2 i hi2
        · rw [decref_dec_refcount, write_refcount, decref_refcount]
        · simpa [decref_dec_freelist] using hq
      · refine ⟨fun d hd2 i hi2 _ => ?_, fun q => Or.inr (le_refl _), fun q hq => Or.inr hq⟩
        rw [decref_mem, invl_mem]; exact hmem _ _ rfl d hd2 i hi2
      · refine ⟨fun d hd2 i hi2 _ => ?_, fun q => Or.inr (le_refl _), fun q hq => Or.inr hq⟩
        rw [write_mem, if_neg (fun e => hsl d hd2 i hi2 e.symm), decref_mem, invl_mem]
        exact hmem _ _ rfl d hd2 i hi2
  · have hp0 : s.mem (pde_ptr L pdir uva) &&& PTE_P = 0 := not_not.mp hp
    cases hfl : s.mem_freelist with
    | nil =>
      have hsteps : pmap_insert_steps L s pdir f uva perm = [s] := by
        unfold pmap_insert_steps
        rw [walk_absent_nil L s pdir uva hp0 hfl]
      rw [hsteps, insert_nomem L s pdir f uva perm hp0 hfl]
      intro x hx
      simp only [List.mem_singleton] at hx
      subst hx
      exact ⟨fun _ _ _ _ _ => rfl, fun q => Or.inl (le_refl _), fun q hq => Or.inl (hfl ▸ hq)⟩
    | cons t r =>
      have htm : t ∈ s.mem_freelist := by simp [hfl]
      have htn : t < s.mem_npage := hs.free_lt t htm
      have ht : t < 1048576 := by
        have : s.mem_npage ≤ 1048576 := by simpa using hs.npage_le
        omega
      have hphys : mem_pi2phys t = t * 4096 := by rw [mem_pi2phys_eq]; omega
      have hptr : mem_pi2ptr t = t * 4096 := by rw [mem_pi2ptr, mem_ptr, hphys]
      have htd : ∀ d ∈ D, t * 4096 ≠ d := fun d hd2 => hphys ▸ hs.free_not_dir t htm d hd2
      obtain ⟨_, _, _, d2, _⟩ :=
        inv_walk_created lo hi L s D pdir uva t r hs hinv hnd hd hlo hhi hp0 hfl
      have hsub : ∀ q, q ∈ r → q ∈ t :: r := fun q hq => List.mem_cons_of_mem _ hq
      have hdir : ∀ d ∈ D, ∀ i, i < 1024 → s.mem (d + 4 * i) &&& PTE_P ≠ 0 →
          (walk_created L s pdir uva t r).mem (d + 4 * i) = s.mem (d + 4 * i) := by
        intro d hd2 i hi2 hpi
        refine d2 d hd2 i hi2 ?_
        by_contra hcc
        push_neg at hcc
        obtain ⟨rfl, rfl⟩ := hcc
        exact hpi hp0
      by_cases hnz : t * 4096 + 4 * PTX (linaddr L uva) = 0
      · have hsteps : pmap_insert_steps L s pdir f uva perm
            = [walk_created L s pdir uva t r] := by
          unfold pmap_insert_steps
          rw [walk_absent_cons L s pdir uva t r hp0 hfl, hptr]
          dsimp only
          rw [if_pos hnz]
        rw [hsteps, insert_created_null L s pdir f uva perm t r hp0 hfl (by rw [hptr]; exact hnz)]
        intro x hx
        simp only [List.mem_singleton] at hx
        subst hx
        exact ⟨hdir, fun q => Or.inr (le_refl _), fun q hq => Or.inr hq⟩
      obtain ⟨hcl, _, hz⟩ := insert_created_min L s pdir f uva perm t r ht (htd pdir hd)
        (hs.aligned pdir hd) hp0 hfl hnz
      have hsteps : pmap_insert_steps L s pdir f uva perm =
          [walk_created L s pdir uva t r, mem_incref (walk_created L s pdir uva t r) f,
            (mem_incref (walk_created L s pdir uva t r) f).write
              (t * 4096 + 4 * PTX (linaddr L uva)) (pte_word f perm)] := by
        unfold pmap_insert_steps
        rw [walk_absent_cons L s pdir uva t r hp0 hfl, hptr]
        dsimp only
        rw [if_neg hnz, if_neg (by rw [incref_mem, hz]; simp)]
        rfl
      have h4 := PTX_lt (linaddr L uva)
      rw [hsteps, hcl]
      intro x hx
      simp only [List.mem_cons, List.mem_singleton, List.not_mem_nil, or_false] at hx
      rcases hx with rfl | rfl | rfl
      · refine ⟨hdir, fun q => Or.inl ?_, fun q hq => Or.inl (hsub q hq)⟩
        rw [walk_created_refcount]
        split_ifs <;> omega
      · exact ⟨hdir, fun q => Or.inr (le_refl _), fun q hq => Or.inl (hsub q hq)⟩
      · refine ⟨?_, fun q => Or.inr (le_refl _), fun q hq => Or.inl (hsub q hq)⟩
        intro d hd2 i hi2 hpi
        have := htd d hd2
        have := hs.aligned d hd2
        rw [write_mem, if_neg (by omega), incref_mem]
        exact hdir d hd2 i hi2 hpi

/-- Every state inside a call with sound arguments keeps the present
directory entries, and has for each frame at least the count of the state
before or of the state after the call, and a free list within theirs. -/
theorem exec_steps (L lo hi : Nat) (s : State) (D : List Nat) (c : Call)
    (h : PmapOK lo hi s D) (hc : c.ok L lo hi D s) :
    ∀ x ∈ c.steps L s,
      (∀ d ∈ D, ∀ i, i < 1024 → s.mem (d + 4 * i) &&& PTE_P ≠ 0 →
        x.mem (d + 4 * i) = s.mem (d + 4 * i)) ∧
      (∀ q, s.refcount q ≤ x.refcount q ∨ (c.exec L s).refcount q ≤ x.refcount q) ∧
      (∀ q, q ∈ x.mem_freelist → q ∈ s.mem_freelist ∨ q ∈ (c.exec L s).mem_freelist) := by
  cases c with
  | walk pdir uva cr =>
    obtain ⟨hd, hlo, hhi⟩ := hc
    intro x hx
    obtain ⟨a, b, c2⟩ := walk_steps_ok lo hi L s D pdir uva cr h hd hlo hhi x hx
    exact ⟨a, fun q => Or.inl (b q), fun q hq => Or.inl (c2 q hq)⟩
  | lookup pdir uva =>
    intro x hx
    cases hx
  | remove pdir uva =>
    obtain ⟨hd, hlo, hhi⟩ := hc
    intro x hx
    obtain ⟨a, b, c2⟩ := remove_steps_ok lo hi L s D pdir uva h.dirs hd hlo hhi x hx
    exact ⟨fun d hd2 i hi2 _ => a d hd2 i hi2, b, c2⟩
  | insert pdir f uva perm =>
    obtain ⟨hd, hlo, hhi, _⟩ := hc
    intro x hx
    rcases List.mem_append.mp hx with hx | hx
    · obtain ⟨a, b, c2⟩ := walk_steps_ok lo hi L s D pdir uva true h hd hlo hhi x hx
      exact ⟨a, fun q => Or.inl (b q), fun q hq => Or.inl (c2 q hq)⟩
    · exact insert_steps_ok lo hi L s D pdir f uva perm h hd hlo hhi x hx

/-- Along a sequence of calls with sound arguments, in every state passed
through, a directory entry present at the start holds the same word and
its table frame, if known, is counted and not free. -/
theorem run_steps_held (L lo hi : Nat) (D : List Nat) : ∀ (cs : List Call) (s : State),
    PmapOK lo hi s D → calls_ok L lo hi D s cs →
    ∀ x ∈ run_steps L s cs, ∀ d ∈ D, ∀ i, i < 1024 → s.mem (d + 4 * i) &&& PTE_P ≠ 0 →
      x.mem (d + 4 * i) = s.mem (d + 4 * i) ∧
      (lo ≤ i → i < hi → PPN (PTE_ADDR (s.mem (d + 4 * i))) < s.mem_npage →
        1 ≤ x.refcount (PPN (PTE_ADDR (s.mem (d + 4 * i)))) ∧
        PPN (PTE_ADDR (s.mem (d + 4 * i))) ∉ x.mem_freelist) := by
  intro cs
  induction cs with
  | nil =>
    intro s h _ x hx d hd i hi2 hp
    simp only [run_steps, List.mem_singleton] at hx
    subst hx
    exact ⟨rfl, fun hlo hhi hk => table_frame_held lo hi x D h d i hd hlo hhi hp hk⟩
  | cons c cs ih =>
    intro s h hc x hx d hd i hi2 hp
    obtain ⟨h1, h2⟩ := hc
    obtain ⟨a, b, c2⟩ := inv_exec L lo hi s D c h h1
    have e := c2 d hd i hi2 hp
    simp only [run_steps, List.mem_cons, List.mem_append] at hx
    rcases hx with rfl | hx | hx
    · exact ⟨rfl, fun hlo hhi hk => table_frame_held lo hi x D h d i hd hlo hhi hp hk⟩
    · obtain ⟨m, rc, fl⟩ := exec_steps L lo hi s D c h h1 x hx
      refine ⟨m d hd i hi2 hp, ?_⟩
      intro hlo hhi hk
      have t1 := table_frame_held lo hi s D h d i hd hlo hhi hp hk
      have t2 := table_frame_held lo hi _ D a d i hd hlo hhi (by rw [e]; exact hp)
        (by rw [e, b]; exact hk)
      rw [e] at t2
      refine ⟨?_, ?_⟩
      · rcases rc (PPN (PTE_ADDR (s.mem (d + 4 * i)))) with r | r
        · exact le_trans t1.1 r
        · exact le_trans t2.1 r
      · intro hm
        rcases fl _ hm with r | r
        · exact t1.2 r
        · exact t2.2 r
    · have := ih (c.exec L s) a h2 x hx d hd i hi2 (by rw [e]; exact hp)
      rw [e, b] at this
      exact this

/-- The states between the calls are among the states of the sequence: the
first is the state it starts in and the state after the last call is one
of them. -/
theorem run_calls_mem_steps (L : Nat) : ∀ (cs : List Call) (s : State),
    s ∈ run_steps L s cs ∧ run_calls L s cs ∈ run_steps L s cs := by
  intro cs
  induction cs with
  | nil => intro s; simp [run_steps, run_calls]
  | cons c cs ih =>
    intro s
    refine ⟨by simp [run_steps], ?_⟩
    simp only [run_steps, run_calls, List.mem_cons, List.mem_append]
    exact Or.inr (Or.inr (ih (c.exec L s)).2)

/-- C22 (amended): page tables persist.  Start from a machine that is well
formed for the directories `D` and run any sequence of `pmap_walk`,
`pmap_insert`, `pmap_lookup` and `pmap_remove` calls with sound arguments
(a directory of `D`, an address of the index range, and for an insertion a
known frame that is not free and not a directory page, with `perm < 4096`).
A directory entry that is present at some point of the sequence holds the
same word after every continuation, so it is neither cleared nor
re-pointed; and if it is an entry of the range naming a known frame as its
table, that frame has a count of at least one and is not on the free list,
whatever mappings have been removed.  The same holds in every state the
continuation passes through, inside the calls as well as between them. -/
theorem page_tables_persist (L lo hi : Nat) (s : State) (D : List Nat) (cs1 cs2 : List Call)
    (h : PmapOK lo hi s D) (hc : calls_ok L lo hi D s (cs1 ++ cs2))
    (d i : Nat) (hd : d ∈ D) (hi1 : i < NPDENTRIES)
    (hp : (run_calls L s cs1).mem (d + 4 * i) &&& PTE_P ≠ 0) :
    (run_calls L s (cs1 ++ cs2)).mem (d + 4 * i) = (run_calls L s cs1).mem (d + 4 * i) ∧
    (run_calls L s (cs1 ++ cs2)).mem (d + 4 * i) &&& PTE_P ≠ 0 ∧
    (lo ≤ i → i < hi →
      PPN (PTE_ADDR ((run_calls L s cs1).mem (d + 4 * i))) < s.mem_npage →
      1 ≤ (run_calls L s (cs1 ++ cs2)).refcount
          (PPN (PTE_ADDR ((run_calls L s cs1).mem (d + 4 * i)))) ∧
      (run_calls L s (cs1 ++ cs2)).refcount
          (PPN (PTE_ADDR ((run_calls L s cs1).mem (d + 4 * i)))) ≠ 0 ∧
      PPN (PTE_ADDR ((run_calls L s cs1).mem (d + 4 * i)))
        ∉ (run_calls L s (cs1 ++ cs2)).mem_freelist) ∧
    (∀ x ∈ run_steps L (run_calls L s cs1) cs2,
      x.mem (d + 4 * i) = (run_calls L s cs1).mem (d + 4 * i) ∧
      (lo ≤ i → i < hi →
        PPN (PTE_ADDR ((run_calls L s cs1).mem (d + 4 * i))) < s.mem_npage →
        x.refcount (PPN (PTE_ADDR ((run_calls L s cs1).mem (d + 4 * i)))) ≠ 0 ∧
        PPN (PTE_ADDR ((run_calls L s cs1).mem (d + 4 * i))) ∉ x.mem_freelist)) := by
  obtain ⟨hc1, hc2⟩ := calls_ok_append L lo hi D cs1 cs2 s hc
  obtain ⟨a1, b1, _⟩ := inv_run L lo hi D cs1 s h hc1
  obtain ⟨a2, b2, c2⟩ := inv_run L lo hi D cs2 (run_calls L s cs1) a1 hc2
  have hi2 : i < 1024 := by simpa [NPDENTRIES] using hi1
  rw [run_calls_append]
  have e := c2 d hd i hi2 hp
  refine ⟨e, by rw [e]; exact hp, ?_, ?_⟩
  · intro hlo hhi hk
    have ht := table_frame_held lo hi _ D a2 d i hd hlo hhi (by rw [e]; exact hp)
      (by rw [e, b2, b1]; exact hk)
    rw [e] at ht
    exact ⟨ht.1, by omega, ht.2⟩
  · intro x hx
    obtain ⟨m, t⟩ := run_steps_held L lo hi D cs2 (run_calls L s cs1) a1 hc2 x hx d hd i hi2 hp
    refine ⟨m, fun hlo hhi hk => ?_⟩
    obtain ⟨t1, t2⟩ := t hlo hhi (by rw [b1]; exact hk)
    exact ⟨by omega, t2⟩

/-- C22 (amended), at a concrete machine: in the empty machine frame 2 is
inserted at user address 0, which makes frame 5 the table of entry 256, and
is removed again.  The entry still names frame 5, which keeps its count and
stays off the free list although its table is empty, also in the states
inside the removal. -/
theorem page_tables_persist_witness :
    (run_calls 0x40000000 exEmpty [Call.insert 0x3000 2 0 6]).mem (0x3000 + 4 * 256) = 0x5007 ∧
    (run_calls 0x40000000 exEmpty
      ([Call.insert 0x3000 2 0 6] ++ [Call.remove 0x3000 0])).mem (0x3000 + 4 * 256) = 0x5007 ∧
    1 ≤ (run_calls 0x40000000 exEmpty
      ([Call.insert 0x3000 2 0 6] ++ [Call.remove 0x3000 0])).refcount 5 ∧
    5 ∉ (run_calls 0x40000000 exEmpty
      ([Call.insert 0x3000 2 0 6] ++ [Call.remove 0x3000 0])).mem_freelist ∧
    (∀ x ∈ run_steps 0x40000000 (run_calls 0x40000000 exEmpty [Call.insert 0x3000 2 0 6])
        [Call.remove 0x3000 0], x.refcount 5 ≠ 0 ∧ 5 ∉ x.mem_freelist) :=
  have h0 : (run_calls 0x40000000 exEmpty [Call.insert 0x3000 2 0 6]).mem (0x3000 + 4 * 256)
      = 0x5007 := by decide
  have h := page_tables_persist 0x40000000 256 960 exEmpty [0x3000]
    [Call.insert 0x3000 2 0 6] [Call.remove 0x3000 0] exEmpty_PmapOK (by decide)
    0x3000 256 (by decide) (by decide) (by rw [h0]; decide)
  ⟨h0, h.1.trans h0, (h0 ▸ h.2.2.1) (by decide) (by decide) (by decide) |>.1,
    (h0 ▸ h.2.2.1) (by decide) (by decide) (by decide) |>.2.2,
    fun x hx => ((h0 ▸ h.2.2.2) x hx).2 (by decide) (by decide) (by decide)⟩

/-- C22 as stated fails for an insertion with permission bits above bit 11.
In `exOne`, a machine reached from the empty one by a sound call, entry 256
of the directory names frame 5 as its table.  Inserting frame 4 at user
address `0x1000` with `perm = 0x1000` (frame 4 is a known frame, not free
and not the directory page) stores an entry that names frame 5; removing it
drops the count of the table frame from 1 to 0 and puts the
frame on the free list, while the directory entry still names it. -/
theorem table_freed_by_high_perm :
    PmapOK 256 960 exOne [0x3000] ∧
    exOne.mem (0x3000 + 4 * 256) = 0x5007 ∧ PPN (PTE_ADDR 0x5007) = 5 ∧
    exOne.refcount 5 = 1 ∧ 5 ∉ exOne.mem_freelist ∧
    4 < exOne.mem_npage ∧ 4 ∉ exOne.mem_freelist ∧ mem_pi2phys 4 ≠ 0x3000 ∧
    (run_calls 0x40000000 exOne
      [Call.insert 0x3000 4 0x1000 0x1000, Call.remove 0x3000 0x1000]).mem (0x3000 + 4 * 256)
        = 0x5007 ∧
    (run_calls 0x40000000 exOne
      [Call.insert 0x3000 4 0x1000 0x1000, Call.remove 0x3000 0x1000]).refcount 5 = 0 ∧
    5 ∈ (run_calls 0x40000000 exOne
      [Call.insert 0x3000 4 0x1000 0x1000, Call.remove 0x3000 0x1000]).mem_freelist :=
  ⟨(inv_exec 0x40000000 256 960 exEmpty [0x3000] (Call.insert 0x3000 2 0 6) exEmpty_PmapOK
      (by decide)).1,
    by decide, by decide, by decide, by decide, by decide, by decide, by decide, by decide,
    by decide, by decide⟩

/-- Directories whose entries in the index range are absent hold no
reference. -/
theorem total_refs_of_absent_range (lo hi : Nat) (s : State) (D : List Nat) (q : Nat)
    (h : ∀ d ∈ D, ∀ i, lo ≤ i → i < hi → s.mem (d + 4 * i) &&& PTE_P = 0) :
    total_refs lo hi s D q = 0 := by
  unfold total_refs
  apply sum_map_zero
  intro d hd
  unfold pdir_refs
  apply sum_map_zero
  intro i _
  unfold pde_refs
  rw [if_neg]
  rintro ⟨a, b, c⟩
  exact c (h d hd i a b)

theorem exBoot_user (d : Nat) (hd : d ∈ [0x3000, 0x4000]) (i : Nat) (hlo : 256 ≤ i)
    (hi : i < 1024) : exBoot.mem (d + 4 * i) = 0 := by
  have hd2 : d = 0x3000 ∨ d = 0x4000 := by simpa using hd
  show (if d + 4 * i = 0x3000 ∨ d + 4 * i = 0x4000 then 0x183
    else if d + 4 * i = 0x3004 ∨ d + 4 * i = 0x4004 then 0x400183 else 0) = 0
  rw [if_neg (by omega), if_neg (by omega)]

theorem exBoot_PmapOK : PmapOK 256 960 exBoot [0x3000, 0x4000] := by
  have habs : ∀ d ∈ [0x3000, 0x4000], ∀ i, 256 ≤ i → i < 960 →
      exBoot.mem (d + 4 * i) &&& PTE_P = 0 := by
    intro d hd i hlo hhi
    rw [exBoot_user d hd i hlo (by omega)]
    rfl
  refine ⟨⟨by decide, by decide, by decide, by decide, by decide, by decide, by decide, ?_, ?_⟩,
    ⟨?_, ?_⟩, fun _ _ _ _ _ => rfl⟩
  · intro d hd i hlo hhi h
    exact absurd (habs d hd i hlo hhi) h
  · intro d hd d2 _ i i2 hlo hhi _ _ h
    exact absurd (habs d hd i hlo hhi) h
  · intro q _
    rw [total_refs_of_absent_range 256 960 exBoot _ q habs]
    rfl
  · intro q _
    exact ⟨by simp [exBoot, exEmpty], total_refs_of_absent_range 256 960 exBoot _ q habs⟩

theorem exBoth_PmapOK : PmapOK 256 960 exBoth [0x3000, 0x4000] :=
  (inv_run 0x40000000 256 960 [0x3000, 0x4000]
    [Call.insert 0x3000 2 0 6, Call.insert 0x4000 2 0x1000 6] exBoot exBoot_PmapOK
    (by decide)).1

/-- C9: let `d1` and `d2` be two different directories of a list `D` with a
well-formed layout for the directory indices `[lo, hi)` reached by user
addresses: the tables named by present entries in that range are pairwise
distinct pages and none is a directory page, while entries outside the
range, such as the kernel entries every directory shares, are not
constrained.  Let `pmap_lookup` find the same frame `f` at `a1` in `d1` and
at `a2` in `d2`.  Then the two mappings sit in different slots, and
`pmap_remove(d1, a1)` leaves every entry of the directory `d2` and every
slot of its tables in the range unchanged, gives the same result for every
lookup in `d2`, in particular frame `f` at `a2`, and lowers the count of `f`
by exactly one.  Where the counts are the numbers of references (`RefInv`),
each of the two mappings is counted, the count of `f` is at least 2 before
and at least 1 after the removal, the free list is unchanged and `f` is not
on it. -/
theorem pmap_two_dirs (lo hi L : Nat) (s : State) (D : List Nat) (d1 d2 a1 a2 f : Nat)
    (hs : DirsOK lo hi s D) (hd1 : d1 ∈ D) (hd2 : d2 ∈ D) (hne : d1 ≠ d2)
    (hlo1 : lo ≤ PDX (linaddr L a1)) (hhi1 : PDX (linaddr L a1) < hi)
    (hlo2 : lo ≤ PDX (linaddr L a2)) (hhi2 : PDX (linaddr L a2) < hi)
    (hm1 : (pmap_lookup L s d1 a1).1 = some f)
    (hm2 : (pmap_lookup L s d2 a2).1 = some f) :
    slot_ptr L s d1 a1 ≠ slot_ptr L s d2 a2 ∧
    (∀ i, i < NPDENTRIES → (pmap_remove L s d1 a1).mem (d2 + 4 * i) = s.mem (d2 + 4 * i)) ∧
    (∀ i j, lo ≤ i → i < hi → j < NPTENTRIES → s.mem (d2 + 4 * i) &&& PTE_P ≠ 0 →
      (pmap_remove L s d1 a1).mem (mem_ptr (PTE_ADDR (s.mem (d2 + 4 * i))) + 4 * j)
        = s.mem (mem_ptr (PTE_ADDR (s.mem (d2 + 4 * i))) + 4 * j)) ∧
    (∀ b, lo ≤ PDX (linaddr L b) → PDX (linaddr L b) < hi →
      pmap_lookup L (pmap_remove L s d1 a1) d2 b = pmap_lookup L s d2 b) ∧
    (pmap_lookup L (pmap_remove L s d1 a1) d2 a2).1 = some f ∧
    (pmap_lookup L (pmap_remove L s d1 a1) d1 a1).1 = none ∧
    (pmap_remove L s d1 a1).refcount f = s.refcount f - 1 ∧
    (RefInv lo hi s D →
      2 ≤ total_refs lo hi s D f ∧ 2 ≤ s.refcount f ∧
      1 ≤ (pmap_remove L s d1 a1).refcount f ∧
      (pmap_remove L s d1 a1).mem_freelist = s.mem_freelist ∧
      f ∉ (pmap_remove L s d1 a1).mem_freelist) := by
  obtain ⟨hp1, hP1, hr1, he1, hl1⟩ := lookup_some L s d1 a1 f hm1
  obtain ⟨hp2, hP2, hr2, he2, hl2⟩ := lookup_some L s d2 a2 f hm2
  have hz1 := lookup_some_ne L s d1 a1 f hm1
  have hf := lookup_some_lt L s d1 a1 f hm1
  have hrem := remove_of_lookup L s d1 a1 f _ hl1
  have hmem : (pmap_remove L s d1 a1).mem = (s.write (slot_ptr L s d1 a1) 0).mem := by
    rw [hrem, decref_mem, invl_mem]
  have hnp : (pmap_remove L s d1 a1).mem_npage = s.mem_npage := remove_npage L s d1 a1
  have hsl := slot_not_any_dir lo hi L s D d1 a1 hs hd1 hlo1 hhi1 hp1
  have h4 := PTX_lt (linaddr L a1)
  have htab : ∀ i j, lo ≤ i → i < hi → j < 1024 → s.mem (d2 + 4 * i) &&& PTE_P ≠ 0 →
      mem_ptr (PTE_ADDR (s.mem (d2 + 4 * i))) + 4 * j ≠ slot_ptr L s d1 a1 := by
    intro i j hlo hhi hj hpi
    have hd := hs.tables_distinct d1 hd1 d2 hd2 (PDX (linaddr L a1)) i hlo1 hhi1 hlo hhi hp1 hpi
      (Or.inl hne)
    have m1 := PTE_ADDR_mod (s.mem (d1 + 4 * PDX (linaddr L a1)))
    have m2 := PTE_ADDR_mod (s.mem (d2 + 4 * i))
    unfold slot_ptr mem_ptr pde_ptr
    omega
  have hdir : ∀ i, i < 1024 → (pmap_remove L s d1 a1).mem (d2 + 4 * i) = s.mem (d2 + 4 * i) := by
    intro i hi2
    rw [hmem, write_mem, if_neg (fun e => hsl d2 hd2 i hi2 e.symm)]
  have htw : ∀ i j, lo ≤ i → i < hi → j < 1024 → s.mem (d2 + 4 * i) &&& PTE_P ≠ 0 →
      (pmap_remove L s d1 a1).mem (mem_ptr (PTE_ADDR (s.mem (d2 + 4 * i))) + 4 * j)
        = s.mem (mem_ptr (PTE_ADDR (s.mem (d2 + 4 * i))) + 4 * j) := by
    intro i j a b c d
    rw [hmem, write_mem, if_neg (htab i j a b c d)]
  have hlk : ∀ b, lo ≤ PDX (linaddr L b) → PDX (linaddr L b) < hi →
      pmap_lookup L (pmap_remove L s d1 a1) d2 b = pmap_lookup L s d2 b := by
    intro b hlo hhi
    apply lookup_congr_words L s _ d2 b
    · exact hdir _ (PDX_lt _)
    · intro hpb
      exact htw _ _ hlo hhi (PTX_lt _) hpb
    · exact hnp
  have hcnt : (pmap_remove L s d1 a1).refcount f = s.refcount f - 1 := by
    rw [hrem, decref_refcount, if_pos rfl, invl_refcount, write_refcount]
  have hgone : (pmap_lookup L (pmap_remove L s d1 a1) d1 a1).1 = none := by
    have hpd : (pmap_remove L s d1 a1).mem (pde_ptr L d1 a1) = s.mem (pde_ptr L d1 a1) := by
      rw [hmem, write_mem, if_neg (fun e => hsl d1 hd1 _ (PDX_lt _) e.symm)]
    have hsp : slot_ptr L (pmap_remove L s d1 a1) d1 a1 = slot_ptr L s d1 a1 := by
      unfold slot_ptr
      rw [hpd]
    rw [lookup_present L _ d1 a1 (by rw [hpd]; exact hp1) (by rw [hsp]; exact hz1), hsp,
      if_pos (by rw [hmem, write_mem, if_pos rfl])]
  refine ⟨fun e => htab _ _ hlo2 hhi2 (PTX_lt _) hp2 e.symm, hdir, htw, hlk,
    by rw [hlk a2 hlo2 hhi2]; exact hm2, hgone, hcnt, ?_⟩
  intro hinv
  have hs2 : DirsOK lo hi (s.write (slot_ptr L s d1 a1) 0) D :=
    dirsok_of_dirs_eq lo hi s _ D hs
      (fun d hd i hi2 => by rw [write_mem, if_neg (fun e => hsl d hd i hi2 e.symm)])
      rfl hs.free_lt hs.free_nodup hs.free_not_dir
  have hl2w : pmap_lookup L (s.write (slot_ptr L s d1 a1) 0) d2 a2 = pmap_lookup L s d2 a2 := by
    rw [← hlk a2 hlo2 hhi2]
    exact lookup_congr L _ _ d2 a2 hmem.symm hnp.symm
  have hpos := total_refs_pos_of_lookup lo hi L _ D d2 a2 f hs2 hd2 hlo2 hhi2
    (by rw [hl2w]; exact hm2)
  have e := total_refs_slot lo hi L s (s.write (slot_ptr L s d1 a1) 0) D d1 a1 0 f hs hd1
    hlo1 hhi1 hp1 rfl
  rw [entry_ref_of_lookup L s d1 a1 f f hm1, entry_ref_zero, if_pos rfl] at e
  have hc := hinv.count f hf
  have h2 : 2 ≤ s.refcount f := by rw [hc]; omega
  have hnf : f ∉ s.mem_freelist := by
    intro hq
    have := (hinv.free f hq).1
    omega
  have hfl : (pmap_remove L s d1 a1).mem_freelist = s.mem_freelist := by
    rw [hrem, decref_freelist, if_neg, invl_freelist, write_freelist]
    rw [invl_refcount, write_refcount]
    omega
  exact ⟨by omega, h2, by rw [hcnt]; omega, hfl, by rw [hfl]; exact hnf⟩

/-- C9, at a concrete machine: in `exBoth` the directories at `0x3000` and
`0x4000` share the kernel entries 0 and 1 and both map frame 2, at user
addresses 0 and `0x1000`, through the tables in frames 5 and 6; the count
of frame 2 is 2.  After `pmap_remove` on the first directory the second
still holds its entry 256 and its slot, still maps frame 2, and the frame
has count 1 and is not free. -/
theorem pmap_two_dirs_witness :
    exBoth.mem 0x3000 = 0x183 ∧ exBoth.mem 0x4000 = 0x183 ∧
    exBoth.mem (0x4000 + 4 * 256) = 0x6007 ∧ exBoth.mem 0x6004 = 0x2007 ∧
    exBoth.refcount 2 = 2 ∧
    (pmap_remove 0x40000000 exBoth 0x3000 0).mem (0x4000 + 4 * 256) = 0x6007 ∧
    (pmap_remove 0x40000000 exBoth 0x3000 0).mem 0x6004 = 0x2007 ∧
    (pmap_lookup 0x40000000 (pmap_remove 0x40000000 exBoth 0x3000 0) 0x4000 0x1000).1
      = some 2 ∧
    (pmap_lookup 0x40000000 (pmap_remove 0x40000000 exBoth 0x3000 0) 0x3000 0).1 = none ∧
    (pmap_remove 0x40000000 exBoth 0x3000 0).refcount 2 = 1 ∧
    2 ∉ (pmap_remove 0x40000000 exBoth 0x3000 0).mem_freelist :=
  have h := pmap_two_dirs 256 960 0x40000000 exBoth [0x3000, 0x4000] 0x3000 0x4000 0 0x1000 2
    exBoth_PmapOK.dirs (by decide) (by decide) (by decide) (by decide) (by decide) (by decide)
    (by decide) (by decide) (by decide)
  have h8 := h.2.2.2.2.2.2.2 exBoth_PmapOK.refs
  ⟨by decide, by decide, by decide, by decide, by decide,
    (h.2.1 256 (by decide)).trans (by decide),
    (h.2.2.1 256 1 (by decide) (by decide) (by decide) (by decide)).trans (by decide),
    h.2.2.2.2.1, h.2.2.2.2.2.1, h.2.2.2.2.2.2.1.trans (by decide), h8.2.2.2.2⟩

end Pmap
